import Mathlib

/-!
Verification development for the ChangeChecker snapshot/diff engine.

The engine is embedded shallowly: the mutable JavaScript heap is a partial
map from addresses to nodes, each node carrying the hidden identity-token
slot (`objectIdSymbol`) plus its data (plain object, array, or an object
matched by the registered value-like plugin).  Graph traversals of the
source, which terminate via per-call seen sets, take explicit fuel and
return `none` when the fuel runs out or a JavaScript runtime error would
occur.  The single registered value-like plugin is kept parametric in its
`equals` test (`vleq`); its `clone` copies the plugin datum, as a date-like
plugin does.
-/

namespace CC

abbrev Addr := Nat
abbrev Token := Nat

/-- Primitive JavaScript values (the engine's `ValueType`). -/
inductive Prim where
  | str (s : String)
  | num (n : Int)
  | bool (b : Bool)
  | null
  | undef
deriving DecidableEq, Repr

/-- A property/array-slot value: a primitive, a function (identified so that
reference equality of functions is meaningful), or a reference into the heap. -/
inductive Value where
  | prim (p : Prim)
  | fn (id : Nat)
  | ref (a : Addr)
deriving DecidableEq, Repr

/-- The datum a value-like object carries. The registered plugin's `equals`
observes it through a parametric boolean test; `aux` lets two plugin-equal
instances be observably different. -/
structure VLData where
  k : Int
  aux : Int
deriving DecidableEq, Repr

/-- Heap node payloads: plain object, array, or plugin-matched value-like
(which, being an ordinary object underneath, may still carry properties). -/
inductive HData where
  | obj (props : List (String × Value))
  | arr (elems : List Value)
  | vlike (d : VLData) (props : List (String × Value))
deriving DecidableEq, Repr

/-- A heap node: the hidden `objectIdSymbol` slot plus the data. -/
structure HNode where
  token : Option Token
  data : HData
deriving DecidableEq, Repr

/-- The JavaScript heap. -/
abbrev Heap := Addr → Option HNode

def Heap.set (h : Heap) (a : Addr) (n : HNode) : Heap :=
  fun b => if b = a then some n else h b

@[simp] theorem Heap.set_same (h : Heap) (a : Addr) (n : HNode) :
    (h.set a n) a = some n := by simp [Heap.set]

@[simp] theorem Heap.set_other (h : Heap) (a b : Addr) (n : HNode) (hne : b ≠ a) :
    (h.set a n) b = h b := by simp [Heap.set, hne]

/-- `isObject` of the source: `typeof x === "object" && x !== null`.
In this embedding every non-null object is a heap reference. -/
def isObjectV : Value → Bool
  | .ref _ => true
  | .prim .null => true
  | _ => false

/-- `isValueType`: string, number, boolean, or `== undefined` (null/undefined). -/
def isValueTypeV : Value → Bool
  | .prim _ => true
  | _ => false

/-- Whether the node at `a` is matched by the registered value-like plugin. -/
def isVLAddr (h : Heap) (a : Addr) : Bool :=
  match h a with
  | some ⟨_, .vlike _ _⟩ => true
  | _ => false

/-- `isValueLike` of the source: an object matched by a value-like plugin. -/
def isValueLikeV (h : Heap) : Value → Bool
  | .ref a => isVLAddr h a
  | _ => false

/-- `isReference`: an object carrying the hidden token slot. -/
def isReferenceV (h : Heap) : Value → Bool
  | .ref a => (match h a with
      | some n => n.token.isSome
      | none => false)
  | _ => false

def tokenOfV (h : Heap) : Value → Option Token
  | .ref a => (match h a with
      | some n => n.token
      | none => none)
  | _ => none

/-- The source ignores `constructor` and names starting with two underscores. -/
def badKey (n : String) : Bool :=
  ((n.take 2) == "__") || n == "constructor"

/-- `getPropertyKeys`: the property names of an object, with the system
names filtered out (prototype-chain walking collapses to the node's own
property list in this embedding). -/
def getPropertyKeys (props : List (String × Value)) : List String :=
  (props.map Prod.fst).filter (fun n => !badKey n)

/-- Reading `obj[k]`: an absent property reads as `undefined`. -/
def propGet (props : List (String × Value)) (k : String) : Value :=
  match props.lookup k with
  | some v => v
  | none => .prim Prim.undef

/-- The property values visited by traversals that iterate
`getPropertyKeys(obj)` and read `obj[key]`. -/
def propVals (props : List (String × Value)) : List Value :=
  (getPropertyKeys props).map (propGet props)

/-- The child values a node presents to `assignObjectIds`-style traversals:
arrays give their elements, anything else its filtered property values. -/
def nodeChildren : HData → List Value
  | .obj props => propVals props
  | .arr elems => elems
  | .vlike _ props => propVals props

/-! ## Identity assignment (`assignObjectIds`) -/

/-- Mutable state of `assignObjectIds`: the heap, the process-wide counter
(`currentObjectId`), and the per-call seen set. -/
structure AState where
  heap : Heap
  counter : Nat
  seen : List Addr

/-- The child loop of `assignObjectIds`: functions and primitives are
skipped, value-like children are skipped, other objects are recursed into
via `rec` (the main traversal at the remaining fuel). -/
def assignIdsVals (rec : Addr → AState → Option AState) :
    List Value → AState → Option AState
  | [], st => some st
  | v :: vs, st =>
    match v with
    | .ref b =>
      match st.heap b with
      | none => none
      | some m =>
        match m.data with
        | .vlike _ _ => assignIdsVals rec vs st
        | _ =>
          match rec b st with
          | none => none
          | some st2 => assignIdsVals rec vs st2
    | _ => assignIdsVals rec vs st

/-- `assignObjectIds(obj, seenObjects)` on the node at `a`.  Stamps the node
if it lacks a token (the value-like check happens only on children, so a
value-like root is stamped), then recurses into non-function, non-value-like
object children. -/
def assignIdsAddr : Nat → Addr → AState → Option AState
  | 0, _, _ => none
  | fuel + 1, a, st =>
    if a ∈ st.seen then
      some st
    else
      match st.heap a with
      | none => none
      | some n =>
        let st1 : AState := { st with seen := a :: st.seen }
        let st2 : AState :=
          match n.token with
          | some _ => st1
          | none =>
            { st1 with
              heap := st1.heap.set a ⟨some st1.counter, n.data⟩,
              counter := st1.counter + 1 }
        assignIdsVals (assignIdsAddr fuel) (nodeChildren n.data) st2

/-! ## Cloning -/

/-- State of a `clone` call: the heap (clones are fresh allocations), the
allocator, and the cycle-guard `referenceMap` from original to clone. -/
structure CState where
  heap : Heap
  next : Addr
  refMap : List (Addr × Addr)

mutual

/-- `cloneArray`'s element loop: functions are skipped, objects recursed
via `rec`, primitives pushed verbatim. -/
def cloneElems (rec : Value → CState → Option (Value × CState)) :
    List Value → CState → Option (List Value × CState)
  | [], st => some ([], st)
  | v :: vs, st =>
    match v with
    | .fn _ => cloneElems rec vs st
    | .ref a =>
      match rec (.ref a) st with
      | none => none
      | some (v2, st2) =>
        match cloneElems rec vs st2 with
        | none => none
        | some (vs2, st3) => some (v2 :: vs2, st3)
    | .prim p =>
      match cloneElems rec vs st with
      | none => none
      | some (vs2, st2) => some (.prim p :: vs2, st2)

end

mutual

/-- `cloneObject`'s property loop over `getPropertyKeys(source)`. -/
def cloneProps (rec : Value → CState → Option (Value × CState)) :
    List String → List (String × Value) → CState →
    Option (List (String × Value) × CState)
  | [], _, st => some ([], st)
  | k :: ks, props, st =>
    match propGet props k with
    | .fn _ => cloneProps rec ks props st
    | .ref a =>
      match rec (.ref a) st with
      | none => none
      | some (v2, st2) =>
        match cloneProps rec ks props st2 with
        | none => none
        | some (ps2, st3) => some ((k, v2) :: ps2, st3)
    | .prim p =>
      match cloneProps rec ks props st with
      | none => none
      | some (ps2, st2) => some ((k, .prim p) :: ps2, st2)

end

/-- `clone(any, referenceMap)`.  Primitives return as-is, functions clone to
`undefined`, value-likes are delegated to the plugin clone (datum copied, no
token, not recorded in the reference map), arrays and objects are cloned
with the cycle guard registered before descending and the original's token
carried onto the clone afterwards. -/
def cloneVal : Nat → Value → CState → Option (Value × CState)
  | 0, _, _ => none
  | _ + 1, .prim p, st => some (.prim p, st)
  | _ + 1, .fn _, st => some (.prim Prim.undef, st)
  | fuel + 1, .ref a, st =>
    match st.refMap.lookup a with
    | some c => some (.ref c, st)
    | none =>
      match st.heap a with
      | none => none
      | some n =>
        match n.data with
        | .vlike d _ =>
          let b := st.next
          some (.ref b,
            { st with heap := st.heap.set b ⟨none, .vlike d []⟩, next := b + 1 })
        | .arr elems =>
          let b := st.next
          let st1 : CState := { st with next := b + 1, refMap := (a, b) :: st.refMap }
          match cloneElems (cloneVal fuel) elems st1 with
          | none => none
          | some (elems2, st2) =>
            some (.ref b, { st2 with heap := st2.heap.set b ⟨n.token, .arr elems2⟩ })
        | .obj props =>
          let b := st.next
          let st1 : CState := { st with next := b + 1, refMap := (a, b) :: st.refMap }
          match cloneProps (cloneVal fuel) (getPropertyKeys props) props st1 with
          | none => none
          | some (props2, st2) =>
            some (.ref b, { st2 with heap := st2.heap.set b ⟨n.token, .obj props2⟩ })

/-! ## takeSnapshot -/

/-- The checker's persistent state: the heap, the allocator for fresh
objects, and the process-wide identity counter. -/
structure CheckerState where
  heap : Heap
  next : Addr
  counter : Nat

/-- `takeSnapshot(model)`: requires an object, stamps the model in place,
then deep-clones it.  Returns the snapshot root and the updated state. -/
def takeSnapshot (fuel : Nat) (root : Value) (st : CheckerState) :
    Option (Value × CheckerState) :=
  match root with
  | .ref a =>
    match assignIdsAddr fuel a ⟨st.heap, st.counter, []⟩ with
    | none => none
    | some ast =>
      match cloneVal fuel (.ref a) ⟨ast.heap, st.next, []⟩ with
      | none => none
      | some (v, cst) => some (v, ⟨cst.heap, cst.next, ast.counter⟩)
  | _ => none

/-! ## Lookup-tree construction (`buildLookupTree`) -/

/-- A key of the global lookup map: the identity token, the object itself
(present-only untokened objects), or the literal `undefined` key that an
untokened former object produces. -/
inductive LKey where
  | tok (t : Token)
  | addr (a : Addr)
  | undef
deriving DecidableEq, Repr

/-- One step of a reported conflict path: an array index or a property name. -/
inductive Seg where
  | idx (i : Nat)
  | key (s : String)
deriving DecidableEq, Repr

/-- Which traversal detected the conflict (`"FormerModel"`/`"PresentModel"`). -/
inductive Side where
  | former
  | present
deriving DecidableEq, Repr

/-- The `ILookupBuilderConflictResult` built at the conflict site; the right
path is accumulated leaf-to-root while unwinding. -/
structure Conflict where
  source : Side
  objectId : LKey
  left : Addr
  right : Addr
  rightPath : List Seg
deriving DecidableEq, Repr

/-- The data carried by a thrown `ChangeCheckerObjectConflictError`. -/
structure LError where
  source : Side
  objectId : LKey
  leftPath : List Seg
  left : Addr
  rightPath : List Seg
  right : Addr
deriving DecidableEq, Repr

/-- The result of `resolveValueOrDiff`: a value returned unchanged, a
defensive plugin clone of a value-like, or a diff node (by identity). -/
inductive RVal where
  | raw (v : Value)
  | vl (a : Addr)
  | diff (d : Nat)
deriving DecidableEq, Repr

/-- A `PropertyDiffImpl`: `$formerValue` is only set on changed diffs. -/
structure PropD where
  isChanged : Bool
  value : RVal
  formerValue : Option RVal
deriving DecidableEq, Repr

/-- An `ObjectDiffImpl` or `ArrayDiffImpl` (the string-keyed own properties
plus the symbol-keyed internals; `$state` is derived, see `stateOf`). -/
inductive DNode where
  | obj (objectId : Option Token) (isCreated isDeleted isChanged : Bool)
      (props : List (String × PropD))
  | arr (objectId : Option Token) (isCreated isDeleted isChanged : Bool)
      (inserted deleted other : List RVal)
deriving DecidableEq, Repr

/-- An `IObjectLookupEntry`; the diff instance is identified by `diffId`
into the diff store, mirroring its JavaScript object identity. -/
structure Entry where
  former : Option Addr
  present : Option Addr
  keys : List String
  diffId : Nat
deriving DecidableEq, Repr

/-- The global lookup map, in insertion order. -/
abbrev Lookup := List (LKey × Entry)

abbrev DStore := Nat → Option DNode

def DStore.set (ds : DStore) (d : Nat) (n : DNode) : DStore :=
  fun e => if e = d then some n else ds e

def lfind (l : Lookup) (k : LKey) : Option Entry :=
  match l with
  | [] => none
  | (k2, e) :: rest => if k = k2 then some e else lfind rest k

/-- Replace the entry stored under `k` (first occurrence), in place. -/
def lupdate (l : Lookup) (k : LKey) (e : Entry) : Lookup :=
  match l with
  | [] => []
  | (k2, e2) :: rest =>
    if k = k2 then (k2, e) :: rest else (k2, e2) :: lupdate rest k e

/-- `Set.add`: appends unless present (insertion-ordered set). -/
def addKey (ks : List String) (k : String) : List String :=
  if k ∈ ks then ks else ks ++ [k]

/-- The build state: the lookup map under construction plus the diff store
(diff instances are created eagerly at entry creation). -/
structure LState where
  lookup : Lookup
  dstore : DStore
  nextDiff : Nat

def lookupKeyFormer (tok : Option Token) : LKey :=
  match tok with
  | some t => .tok t
  | none => LKey.undef

def lookupKeyPresent (tok : Option Token) (a : Addr) : LKey :=
  match tok with
  | some t => .tok t
  | none => .addr a

abbrev BuildRec := Value → LState → Option (Except Conflict LState)

/-- The element loop of the former/present array traversals. -/
def buildElems (rec : BuildRec) : Nat → List Value → LState →
    Option (Except Conflict LState)
  | _, [], st => some (.ok st)
  | i, v :: vs, st =>
    match rec v st with
    | none => none
    | some (.error c) => some (.error { c with rightPath := c.rightPath ++ [.idx i] })
    | some (.ok st2) => buildElems rec (i + 1) vs st2

/-- The property loop of the former/present object traversals.  When
`accKey` is given the key is also added to the existing entry's accumulated
key set (the revisit branch of the source). -/
def buildProps (rec : BuildRec) (accKey : Option LKey) :
    List String → List (String × Value) → LState →
    Option (Except Conflict LState)
  | [], _, st => some (.ok st)
  | k :: ks, props, st =>
    let st0 : LState :=
      match accKey with
      | none => st
      | some lk =>
        match lfind st.lookup lk with
        | none => st
        | some e => { st with lookup := lupdate st.lookup lk { e with keys := addKey e.keys k } }
    match rec (propGet props k) st0 with
    | none => none
    | some (.error c) => some (.error { c with rightPath := c.rightPath ++ [.key k] })
    | some (.ok st2) => buildProps rec accKey ks props st2

/-- `buildFormerArrayLookupTree`. -/
def buildFormerArrayLookupTree (rec : BuildRec) (a : Addr)
    (tok : Option Token) (elems : List Value) (st : LState) :
    Option (Except Conflict LState) :=
  let key := lookupKeyFormer tok
  match lfind st.lookup key with
  | none =>
    let e : Entry := ⟨some a, none, [], st.nextDiff⟩
    let st1 : LState :=
      { lookup := st.lookup ++ [(key, e)],
        dstore := st.dstore.set st.nextDiff (.arr none false false false [] [] []),
        nextDiff := st.nextDiff + 1 }
    buildElems rec 0 elems st1
  | some e =>
    match e.former with
    | some b =>
      if b ≠ a then some (.error ⟨.former, key, b, a, []⟩) else some (.ok st)
    | none =>
      buildElems rec 0 elems
        { st with lookup := lupdate st.lookup key { e with former := some a } }

/-- `buildFormerObjectLookupTree`. -/
def buildFormerObjectLookupTree (rec : BuildRec) (a : Addr)
    (tok : Option Token) (props : List (String × Value)) (st : LState) :
    Option (Except Conflict LState) :=
  let key := lookupKeyFormer tok
  match lfind st.lookup key with
  | none =>
    let pkeys := getPropertyKeys props
    let e : Entry := ⟨some a, none, pkeys, st.nextDiff⟩
    let st1 : LState :=
      { lookup := st.lookup ++ [(key, e)],
        dstore := st.dstore.set st.nextDiff (.obj none false false false []),
        nextDiff := st.nextDiff + 1 }
    buildProps rec none pkeys props st1
  | some e =>
    match e.former with
    | some b =>
      if b ≠ a then some (.error ⟨.former, key, b, a, []⟩) else some (.ok st)
    | none =>
      buildProps rec (some key) (getPropertyKeys props) props
        { st with lookup := lupdate st.lookup key { e with former := some a } }

/-- `buildFormerLookupTree`: dispatch on array / value-like / object. -/
def buildFormerLookupTree : Nat → Heap → Value → LState →
    Option (Except Conflict LState)
  | 0, _, _, _ => none
  | fuel + 1, h, v, st =>
    match v with
    | .ref a =>
      match h a with
      | none => none
      | some n =>
        match n.data with
        | .arr elems =>
          buildFormerArrayLookupTree (buildFormerLookupTree fuel h) a n.token elems st
        | .vlike _ _ => some (.ok st)
        | .obj props =>
          buildFormerObjectLookupTree (buildFormerLookupTree fuel h) a n.token props st
    | _ => some (.ok st)

/-- `buildPresentArrayLookupTree`: entries may be keyed by the object itself
when no token is present. -/
def buildPresentArrayLookupTree (rec : BuildRec) (a : Addr)
    (tok : Option Token) (elems : List Value) (st : LState) :
    Option (Except Conflict LState) :=
  let key := lookupKeyPresent tok a
  match lfind st.lookup key with
  | none =>
    let e : Entry := ⟨none, some a, [], st.nextDiff⟩
    let st1 : LState :=
      { lookup := st.lookup ++ [(key, e)],
        dstore := st.dstore.set st.nextDiff (.arr none false false false [] [] []),
        nextDiff := st.nextDiff + 1 }
    buildElems rec 0 elems st1
  | some e =>
    match e.present with
    | some b =>
      if b ≠ a then some (.error ⟨.present, key, b, a, []⟩) else some (.ok st)
    | none =>
      buildElems rec 0 elems
        { st with lookup := lupdate st.lookup key { e with present := some a } }

/-- `buildPresentObjectLookupTree`. -/
def buildPresentObjectLookupTree (rec : BuildRec) (a : Addr)
    (tok : Option Token) (props : List (String × Value)) (st : LState) :
    Option (Except Conflict LState) :=
  let key := lookupKeyPresent tok a
  match lfind st.lookup key with
  | none =>
    let pkeys := getPropertyKeys props
    let e : Entry := ⟨none, some a, pkeys, st.nextDiff⟩
    let st1 : LState :=
      { lookup := st.lookup ++ [(key, e)],
        dstore := st.dstore.set st.nextDiff (.obj none false false false []),
        nextDiff := st.nextDiff + 1 }
    buildProps rec none pkeys props st1
  | some e =>
    match e.present with
    | some b =>
      if b ≠ a then some (.error ⟨.present, key, b, a, []⟩) else some (.ok st)
    | none =>
      buildProps rec (some key) (getPropertyKeys props) props
        { st with lookup := lupdate st.lookup key { e with present := some a } }

/-- `buildPresentLookupTree`: like the former traversal, but with the
object-or-token key fallback and key-set extension. -/
def buildPresentLookupTree : Nat → Heap → Value → LState →
    Option (Except Conflict LState)
  | 0, _, _, _ => none
  | fuel + 1, h, v, st =>
    match v with
    | .ref a =>
      match h a with
      | none => none
      | some n =>
        match n.data with
        | .arr elems =>
          buildPresentArrayLookupTree (buildPresentLookupTree fuel h) a n.token elems st
        | .vlike _ _ => some (.ok st)
        | .obj props =>
          buildPresentObjectLookupTree (buildPresentLookupTree fuel h) a n.token props st
    | _ => some (.ok st)

/-! ## `findPath` (lazy conflict-path search) -/

abbrev FindRec := Value → List Value → Option (Option (List Seg) × List Value)

def findPathElems (rec : FindRec) : Nat → List Value → List Value →
    Option (Option (List Seg) × List Value)
  | _, [], seen => some (none, seen)
  | i, v :: vs, seen =>
    match rec v seen with
    | none => none
    | some (some p, seen2) => some (some (p ++ [.idx i]), seen2)
    | some (none, seen2) => findPathElems rec (i + 1) vs seen2

def findPathProps (rec : FindRec) : List String → List (String × Value) →
    List Value → Option (Option (List Seg) × List Value)
  | [], _, seen => some (none, seen)
  | k :: ks, props, seen =>
    match rec (propGet props k) seen with
    | none => none
    | some (some p, seen2) => some (some (p ++ [.key k]), seen2)
    | some (none, seen2) => findPathProps rec ks props seen2

/-- `findPath(haystack, needle, path, seen)`: depth-first search for the
needle object; the path is produced leaf-to-root (the caller reverses it). -/
def findPath : Nat → Heap → Value → Addr → List Value →
    Option (Option (List Seg) × List Value)
  | 0, _, _, _, _ => none
  | fuel + 1, h, v, needle, seen =>
    if v ∈ seen then some (none, seen)
    else
      let seen1 := v :: seen
      if v = .ref needle then some (some [], seen1)
      else
        match v with
        | .ref a =>
          match h a with
          | none => none
          | some n =>
            match n.data with
            | .arr elems =>
              findPathElems (fun w sn => findPath fuel h w needle sn) 0 elems seen1
            | .vlike _ _ => some (none, seen1)
            | .obj props =>
              findPathProps (fun w sn => findPath fuel h w needle sn)
                (getPropertyKeys props) props seen1
        | _ => some (none, seen1)

/-- `buildLookupTree`: the former traversal runs (and is checked) fully
before the present traversal; a detected conflict is turned into the thrown
error, with the left path searched lazily from the same side's root. -/
def buildLookupTree (fuel : Nat) (h : Heap) (froot proot : Value)
    (st : LState) : Option (Except LError LState) :=
  match buildFormerLookupTree fuel h froot st with
  | none => none
  | some (.error c) =>
    match findPath fuel h froot c.left [] with
    | none => none
    | some (lp, _) =>
      some (.error ⟨c.source, c.objectId, (lp.getD []).reverse, c.left,
        c.rightPath.reverse, c.right⟩)
  | some (.ok st1) =>
    match buildPresentLookupTree fuel h proot st1 with
    | none => none
    | some (.error c) =>
      match findPath fuel h proot c.left [] with
      | none => none
      | some (lp, _) =>
        some (.error ⟨c.source, c.objectId, (lp.getD []).reverse, c.left,
          c.rightPath.reverse, c.right⟩)
    | some (.ok st2) => some (.ok st2)

/-! ## Diff binding -/

/-- State threaded through diff binding: the heap (value-like resolution
allocates defensive plugin clones), the allocator, and the diff store. -/
structure BindSt where
  heap : Heap
  next : Addr
  dstore : DStore

/-- The errors `createDiff` can throw: the root-guard `Error`, a JavaScript
`TypeError` (e.g. assigning through a getter-only accessor in strict mode,
or dereferencing a failed lookup), or the structured conflict error. -/
inductive DiffErr where
  | invalid
  | typeErr
  | conflict (e : LError)
deriving DecidableEq, Repr

/-- `resolveValueOrDiff`: `null` and primitives unchanged; a tokened object
resolves to its correlation record's diff; an untokened object that is
itself a lookup key resolves to that record's diff; a value-like is cloned
defensively by the plugin; anything else is returned raw. -/
def resolveValueOrDiff (lookup : Lookup) (v : Value) (bst : BindSt) :
    Option (RVal × BindSt) :=
  match v with
  | .prim .null => some (.raw v, bst)
  | .ref a =>
    match bst.heap a with
    | none => none
    | some n =>
      match n.token with
      | some t =>
        match lfind lookup (.tok t) with
        | some e => some (.diff e.diffId, bst)
        | none => none
      | none =>
        match lfind lookup (.addr a) with
        | some e => some (.diff e.diffId, bst)
        | none =>
          match n.data with
          | .vlike d _ =>
            let b := bst.next
            some (.vl b,
              { bst with heap := bst.heap.set b ⟨none, .vlike d []⟩, next := b + 1 })
          | _ => some (.raw v, bst)
  | _ => some (.raw v, bst)

def isValueTypeR : RVal → Bool
  | .raw v => isValueTypeV v
  | _ => false

def isVLR (h : Heap) : RVal → Bool
  | .vl a => isVLAddr h a
  | .raw (.ref a) => isVLAddr h a
  | _ => false

/-- The plugin datum of a value-like resolved value, when matched. -/
def vlMatchData (h : Heap) : RVal → Option VLData
  | .vl a => (match h a with
      | some ⟨_, .vlike d _⟩ => some d
      | _ => none)
  | .raw (.ref a) => (match h a with
      | some ⟨_, .vlike d _⟩ => some d
      | _ => none)
  | _ => none

def DNode.objectIdOf : DNode → Option Token
  | .obj oid _ _ _ _ => oid
  | .arr oid _ _ _ _ _ _ => oid

/-- `isReference` applied to a resolved value (diff nodes carry the token
slot of their former object once bound). -/
def isRefR (h : Heap) (ds : DStore) : RVal → Bool
  | .diff d => (match ds d with
      | some dn => dn.objectIdOf.isSome
      | none => false)
  | .raw (.ref a) => (match h a with
      | some n => n.token.isSome
      | none => false)
  | .vl a => (match h a with
      | some n => n.token.isSome
      | none => false)
  | _ => false

def refIdR (h : Heap) (ds : DStore) : RVal → Option Token
  | .diff d => (match ds d with
      | some dn => dn.objectIdOf
      | none => none)
  | .raw (.ref a) => (match h a with
      | some n => n.token
      | none => none)
  | .vl a => (match h a with
      | some n => n.token
      | none => none)
  | _ => none

/-- `isSameValueLike`: the first plugin matching the left value must match
the right one and judge them equal. -/
def isSameValueLikeR (vleq : VLData → VLData → Bool) (h : Heap) (f v : RVal) : Bool :=
  match vlMatchData h f with
  | none => false
  | some df =>
    match vlMatchData h v with
    | none => false
    | some dv => vleq df dv

/-- `createPropertyDiff`: unchanged diffs when one side's object is absent,
otherwise same-value / same-reference / same-value-like comparison; returns
the property diff plus whether the owner's `isChanged` flag is raised. -/
def mkPropertyDiff (vleq : VLData → VLData → Bool) (lookup : Lookup)
    (eFormer ePresent : Option Addr) (fv pv : Value) (bst : BindSt) :
    Option (PropD × Bool × BindSt) :=
  match ePresent with
  | none =>
    match resolveValueOrDiff lookup fv bst with
    | none => none
    | some (rf, b1) => some (⟨false, rf, none⟩, false, b1)
  | some _ =>
    match eFormer with
    | none =>
      match resolveValueOrDiff lookup pv bst with
      | none => none
      | some (rv, b1) => some (⟨false, rv, none⟩, false, b1)
    | some _ =>
      match resolveValueOrDiff lookup pv bst with
      | none => none
      | some (rv, b1) =>
        match resolveValueOrDiff lookup fv b1 with
        | none => none
        | some (rf, b2) =>
          let isSameValue := rf == rv
          let isSameReference := !isSameValue && isRefR b2.heap b2.dstore rf &&
            isRefR b2.heap b2.dstore rv &&
            (refIdR b2.heap b2.dstore rf == refIdR b2.heap b2.dstore rv)
          let isSameVL := !isSameValue && !isSameReference &&
            isSameValueLikeR vleq b2.heap rf rv
          if isSameValue || isSameReference || isSameVL then
            some (⟨false, rv, none⟩, false, b2)
          else
            some (⟨true, rv, some rf⟩, true, b2)

/-- Reading `entry.xObject[key]` (a missing side reads as `undefined`). -/
def propGetAddr (h : Heap) (oa : Option Addr) (k : String) : Value :=
  match oa with
  | none => .prim Prim.undef
  | some a =>
    match h a with
    | none => .prim Prim.undef
    | some n =>
      match n.data with
      | .obj props => propGet props k
      | .vlike _ props => propGet props k
      | .arr _ => .prim Prim.undef

def isFnV : Value → Bool
  | .fn _ => true
  | _ => false

/-- The four diff keys that are getter-only accessors on `ObjectDiffImpl`;
assigning them throws a `TypeError` in strict mode. -/
def reservedGetterKeys : List String := ["$state", "$isCreated", "$isDeleted", "$isChanged"]

/-- The six keys `$unwrap` filters out when enumerating an object diff. -/
def reservedDiffKeys : List String :=
  ["$state", "$isCreated", "$isDeleted", "$isChanged", "$isDirty", "$unwrap"]

/-- Own-property assignment: replaces in place, otherwise appends. -/
def pupsert (props : List (String × PropD)) (k : String) (pd : PropD) :
    List (String × PropD) :=
  match props with
  | [] => [(k, pd)]
  | (k2, p2) :: rest =>
    if k2 = k then (k2, pd) :: rest else (k2, p2) :: pupsert rest k pd

/-- One step of `bindObjectDiff`'s property loop: skip function-valued
sides, build the property diff, and assign it onto the diff object (which
throws for the four getter-only reserved keys in strict mode). -/
def bindPropsStep (vleq : VLData → VLData → Bool) (lookup : Lookup) (e : Entry)
    (acc : List (String × PropD) × Bool × BindSt) (k : String) :
    Except DiffErr (List (String × PropD) × Bool × BindSt) :=
  let fv := propGetAddr acc.2.2.heap e.former k
  let pv := propGetAddr acc.2.2.heap e.present k
  if isFnV fv || isFnV pv then Except.ok acc
  else
    match mkPropertyDiff vleq lookup e.former e.present fv pv acc.2.2 with
    | none => Except.error DiffErr.typeErr
    | some (pd, chg2, b1) =>
      if reservedGetterKeys.contains k then Except.error DiffErr.typeErr
      else Except.ok (pupsert acc.1 k pd, acc.2.1 || chg2, b1)

/-- The token carried onto an object diff: the former object's token when a
former object exists, otherwise the diff's (unset) slot. -/
def objDiffOid (e : Entry) (bst : BindSt) (dn : DNode) : Option Token :=
  match e.former with
  | some fa => (match bst.heap fa with
      | some n => n.token
      | none => none)
  | none => dn.objectIdOf

/-- The body of `bindObjectDiff` once the diff instance has been fetched. -/
def bindObjectCore (vleq : VLData → VLData → Bool) (lookup : Lookup) (e : Entry)
    (oid : Option Token) (bst : BindSt) : Except DiffErr BindSt :=
  let dn0 : DNode := .obj oid e.former.isNone e.present.isNone false []
  let bst1 : BindSt := { bst with dstore := bst.dstore.set e.diffId dn0 }
  match e.keys.foldlM (bindPropsStep vleq lookup e) (([], false, bst1)) with
  | .error er => .error er
  | .ok (props, chg, b2) =>
    let dn2 : DNode := .obj oid e.former.isNone e.present.isNone chg props
    .ok { b2 with dstore := b2.dstore.set e.diffId dn2 }

/-- `bindObjectDiff`: flags from nullity, the former token carried onto the
diff, then one property diff per accumulated key (function-valued sides
skipped); assignments to the getter-only reserved keys fail. -/
def bindObjectDiff (vleq : VLData → VLData → Bool) (lookup : Lookup) (e : Entry)
    (bst : BindSt) : Except DiffErr BindSt :=
  match bst.dstore e.diffId with
  | none => .error .typeErr
  | some dn => bindObjectCore vleq lookup e (objDiffOid e bst dn) bst

/-- The array elements of the node at `a` (a `for...of` over anything else
throws). -/
def arrElems (h : Heap) (a : Addr) : Option (List Value) :=
  match h a with
  | some ⟨_, .arr elems⟩ => some elems
  | _ => none

/-- One group of the reconciliation result map:
`key ↦ (formerOccurrences, presentOccurrences)`. -/
abbrev VGroup := RVal × List RVal × List RVal

def mapUpsertPresent : List VGroup → RVal → List VGroup
  | [], r => [(r, [], [r])]
  | (k, fo, po) :: rest, r =>
    if k = r then (k, fo, po ++ [r]) :: rest
    else (k, fo, po) :: mapUpsertPresent rest r

def mapUpsertFormer : List VGroup → RVal → List VGroup
  | [], r => [(r, [r], [])]
  | (k, fo, po) :: rest, r =>
    if k = r then (k, fo ++ [r], po) :: rest
    else (k, fo, po) :: mapUpsertFormer rest r

/-- The present-array scan: functions skipped, each element resolved and
its occurrence recorded. -/
def scanPresentItems (lookup : Lookup) : List Value → List VGroup → BindSt →
    Option (List VGroup × BindSt)
  | [], m, b => some (m, b)
  | v :: vs, m, b =>
    match v with
    | .fn _ => scanPresentItems lookup vs m b
    | _ =>
      match resolveValueOrDiff lookup v b with
      | none => none
      | some (r, b1) => scanPresentItems lookup vs (mapUpsertPresent m r) b1

/-- The former-array scan (note: no function skip in the source). -/
def scanFormerItems (lookup : Lookup) : List Value → List VGroup → BindSt →
    Option (List VGroup × BindSt)
  | [], m, b => some (m, b)
  | v :: vs, m, b =>
    match resolveValueOrDiff lookup v b with
    | none => none
    | some (r, b1) => scanFormerItems lookup vs (mapUpsertFormer m r) b1

/-- The inner scan of the value-like merge: absorbs every later group the
plugin judges equal to `x` (occurrence lists appended in scan order). -/
def absorbVL (vleq : VLData → VLData → Bool) (h : Heap) (x : VGroup) :
    List VGroup → VGroup × List VGroup
  | [] => (x, [])
  | y :: ys =>
    let eq := match vlMatchData h x.1, vlMatchData h y.1 with
      | some dx, some dy => vleq dx dy
      | _, _ => false
    if eq then
      absorbVL vleq h (x.1, x.2.1 ++ y.2.1, x.2.2 ++ y.2.2) ys
    else
      let r := absorbVL vleq h x ys
      (r.1, y :: r.2)

theorem absorbVL_length_le (vleq : VLData → VLData → Bool) (h : Heap)
    (x : VGroup) (rest : List VGroup) :
    (absorbVL vleq h x rest).2.length ≤ rest.length := by
  induction rest generalizing x with
  | nil => simp [absorbVL]
  | cons y ys ih =>
    simp only [absorbVL]
    split
    · exact Nat.le_succ_of_le (ih _)
    · simpa using Nat.succ_le_succ (ih x)

/-- The outer loop of the value-like merge, driven by a list-length bound
(always sufficient, since `absorbVL` never lengthens the remainder). -/
def mergeVLAux (vleq : VLData → VLData → Bool) (h : Heap) :
    Nat → List VGroup → List VGroup
  | _, [] => []
  | 0, _ :: _ => []
  | n + 1, x :: rest =>
    let r := absorbVL vleq h x rest
    r.1 :: mergeVLAux vleq h n r.2

/-- The pairwise merge of value-like groups. -/
def mergeVLGroups (vleq : VLData → VLData → Bool) (h : Heap)
    (l : List VGroup) : List VGroup :=
  mergeVLAux vleq h l.length l

/-- Per-group reconciliation: the two `splice` calls and the `other`
selection of the source (`splice(0, n)` with `n ≤ 0` removes nothing). -/
def processGroup (fo po : List RVal) : List RVal × List RVal × List RVal :=
  let del := fo.take (fo.length - po.length)
  let fRest := fo.drop (fo.length - po.length)
  let ins := po.take (po.length - fRest.length)
  let pRest := po.drop (po.length - fRest.length)
  let oth := if ins.isEmpty then fRest else pRest
  (del, ins, oth)

/-- Resolve-and-push loop used by the one-sided array cases. -/
def resolveItems (lookup : Lookup) (skipFns : Bool) : List Value → BindSt →
    Option (List RVal × BindSt)
  | [], b => some ([], b)
  | v :: vs, b =>
    if skipFns && isFnV v then resolveItems lookup skipFns vs b
    else
      match resolveValueOrDiff lookup v b with
      | none => none
      | some (r, b1) =>
        match resolveItems lookup skipFns vs b1 with
        | none => none
        | some (rs, b2) => some (r :: rs, b2)

/-- `bindArrayDiff`. -/
def bindArrayDiff (vleq : VLData → VLData → Bool) (lookup : Lookup) (e : Entry)
    (bst : BindSt) : Except DiffErr BindSt :=
  match bst.dstore e.diffId with
  | none => .error .typeErr
  | some _ =>
    let oid : Option Token :=
      match e.former with
      | some fa => (match bst.heap fa with
          | some n => n.token
          | none => none)
      | none => none
    let isCre := e.former.isNone
    let isDel := e.present.isNone
    match e.former, e.present with
    | none, none => .error .typeErr
    | some fa, none =>
      match arrElems bst.heap fa with
      | none => .error .typeErr
      | some elems =>
        match resolveItems lookup false elems bst with
        | none => .error .typeErr
        | some (oth, b1) =>
          let dn1 : DNode := .arr oid isCre isDel false [] [] oth
          .ok { b1 with dstore := b1.dstore.set e.diffId dn1 }
    | none, some pa =>
      match arrElems bst.heap pa with
      | none => .error .typeErr
      | some elems =>
        match resolveItems lookup true elems bst with
        | none => .error .typeErr
        | some (oth, b1) =>
          let dn1 : DNode := .arr oid isCre isDel false [] [] oth
          .ok { b1 with dstore := b1.dstore.set e.diffId dn1 }
    | some fa, some pa =>
      match arrElems bst.heap fa, arrElems bst.heap pa with
      | some fEl, some pEl =>
        match scanPresentItems lookup pEl [] bst with
        | none => .error .typeErr
        | some (m1, b1) =>
          match scanFormerItems lookup fEl m1 b1 with
          | none => .error .typeErr
          | some (m2, b2) =>
            let nonvl := m2.filter (fun g => !(isVLR b2.heap g.1))
            let vls := m2.filter (fun g => isVLR b2.heap g.1)
            let groups := nonvl ++ mergeVLGroups vleq b2.heap vls
            let contrib := groups.map (fun g => processGroup g.2.1 g.2.2)
            let del := (contrib.map (fun c => c.1)).flatten
            let ins := (contrib.map (fun c => c.2.1)).flatten
            let oth := (contrib.map (fun c => c.2.2)).flatten
            let chg := !ins.isEmpty || !del.isEmpty
            let dn2 : DNode := .arr oid isCre isDel chg ins del oth
            .ok { b2 with dstore := b2.dstore.set e.diffId dn2 }
      | _, _ => .error .typeErr

/-- Dispatch of the bind loop: `Array.isArray(former || present)`. -/
def bindEntry (vleq : VLData → VLData → Bool) (lookup : Lookup) (e : Entry)
    (bst : BindSt) : Except DiffErr BindSt :=
  let chosen := match e.former with
    | some a => some a
    | none => e.present
  match chosen with
  | none => bindObjectDiff vleq lookup e bst
  | some ca =>
    match bst.heap ca with
    | none => .error .typeErr
    | some n =>
      match n.data with
      | .arr _ => bindArrayDiff vleq lookup e bst
      | _ => bindObjectDiff vleq lookup e bst

/-- The bind loop over the lookup entries, in insertion order. -/
def bindAll (vleq : VLData → VLData → Bool) (lookup : Lookup) :
    List (LKey × Entry) → BindSt → Except DiffErr BindSt
  | [], bst => .ok bst
  | (_, e) :: rest, bst =>
    match bindEntry vleq lookup e bst with
    | .error er => .error er
    | .ok b2 => bindAll vleq lookup rest b2

/-- `createDiff(snapshot, currentModel)`: the shared-root guard, the lookup
tree, the bind loop, and the root entry's diff. -/
def createDiff (fuel : Nat) (vleq : VLData → VLData → Bool) (froot proot : Value)
    (cst : CheckerState) : Option (Except DiffErr (Nat × BindSt)) :=
  if !(isReferenceV cst.heap froot && isReferenceV cst.heap proot &&
      (tokenOfV cst.heap froot == tokenOfV cst.heap proot)) then
    some (.error .invalid)
  else
    match buildLookupTree fuel cst.heap froot proot ⟨[], fun _ => none, 0⟩ with
    | none => none
    | some (.error e) => some (.error (.conflict e))
    | some (.ok lst) =>
      match bindAll vleq lst.lookup lst.lookup ⟨cst.heap, cst.next, lst.dstore⟩ with
      | .error er => some (.error er)
      | .ok bout =>
        match tokenOfV cst.heap froot with
        | none => some (.error .typeErr)
        | some t =>
          match lfind lst.lookup (.tok t) with
          | none => some (.error .typeErr)
          | some e => some (.ok (e.diffId, bout))

/-! ## Unwrap (reconstruction) -/

/-- State of an `$unwrap` call: reconstructed nodes are fresh allocations;
the reference map is keyed by diff-node identity. -/
structure UState where
  heap : Heap
  next : Addr
  refMap : List (Nat × Addr)

/-- A resolved value returned directly by unwrap (a primitive or a
value-like clone). -/
def rvToValue : RVal → Value
  | .raw v => v
  | .vl a => .ref a
  | .diff _ => .prim Prim.undef

abbrev UwRec := Nat → UState → Option (Value × UState)

/-- Unwrap of one resolved value (`unwrap*Internal` falling through the
`instanceof` tests returns the value unchanged); diff nodes go through
`recD`. -/
def uwRV (recD : UwRec) : RVal → UState → Option (Value × UState)
  | .raw v, ust => some (v, ust)
  | .vl a, ust => some (.ref a, ust)
  | .diff d, ust => recD d ust

/-- `unwrapPresentInternal` on a property diff: `$value`, returned directly
when it is a value type or a value-like. -/
def uwPresentPD (recD : UwRec) (h : Heap) (pd : PropD) (ust : UState) :
    Option (Value × UState) :=
  if isValueTypeR pd.value || isVLR h pd.value then some (rvToValue pd.value, ust)
  else uwRV recD pd.value ust

/-- The array bucket loop (`$other.map(...)`, `$inserted.map(...)`). -/
def uwList (recD : UwRec) : List RVal → UState → Option (List Value × UState)
  | [], ust => some ([], ust)
  | x :: xs, ust =>
    let step :=
      if isValueTypeR x || isVLR ust.heap x then some (rvToValue x, ust)
      else uwRV recD x ust
    match step with
    | none => none
    | some (v, ust2) =>
      match uwList recD xs ust2 with
      | none => none
      | some (vs, ust3) => some (v :: vs, ust3)

/-- The object-diff property loop of the present unwrap. -/
def uwPresentProps (recD : UwRec) : List (String × PropD) → UState →
    Option (List (String × Value) × UState)
  | [], ust => some ([], ust)
  | (k, pd) :: ps, ust =>
    match uwPresentPD recD ust.heap pd ust with
    | none => none
    | some (v, ust2) =>
      match uwPresentProps recD ps ust2 with
      | none => none
      | some (vs, ust3) => some ((k, v) :: vs, ust3)

/-- `unwrapPresentInternal` on an object/array diff node. -/
def uwPresentD : Nat → DStore → Nat → UState → Option (Value × UState)
  | 0, _, _, _ => none
  | fuel + 1, ds, d, ust =>
    match ust.refMap.lookup d with
    | some out => some (.ref out, ust)
    | none =>
      match ds d with
      | none => some (.prim Prim.undef, ust)
      | some dn =>
        match dn with
        | .arr oid _ _ _ ins _ oth =>
          let out := ust.next
          let ust1 : UState := { ust with next := out + 1, refMap := (d, out) :: ust.refMap }
          match uwList (uwPresentD fuel ds) oth ust1 with
          | none => none
          | some (e1, ust2) =>
            match uwList (uwPresentD fuel ds) ins ust2 with
            | none => none
            | some (e2, ust3) =>
              some (.ref out, { ust3 with heap := ust3.heap.set out ⟨oid, .arr (e1 ++ e2)⟩ })
        | .obj oid _ _ _ props =>
          let out := ust.next
          let ust1 : UState := { ust with next := out + 1, refMap := (d, out) :: ust.refMap }
          let kept := props.filter (fun kp => !(reservedDiffKeys.contains kp.1))
          match uwPresentProps (uwPresentD fuel ds) kept ust1 with
          | none => none
          | some (props2, ust2) =>
            some (.ref out, { ust2 with heap := ust2.heap.set out ⟨oid, .obj props2⟩ })

/-- `unwrapFormerInternal` on a property diff: `$formerValue` for changed
diffs, `$value` for unchanged ones. -/
def uwFormerPD (recD : UwRec) (h : Heap) (pd : PropD) (ust : UState) :
    Option (Value × UState) :=
  let r := if pd.isChanged then pd.formerValue.getD (.raw (.prim Prim.undef)) else pd.value
  if isValueTypeR r || isVLR h r then some (rvToValue r, ust)
  else uwRV recD r ust

def uwFormerProps (recD : UwRec) : List (String × PropD) → UState →
    Option (List (String × Value) × UState)
  | [], ust => some ([], ust)
  | (k, pd) :: ps, ust =>
    match uwFormerPD recD ust.heap pd ust with
    | none => none
    | some (v, ust2) =>
      match uwFormerProps recD ps ust2 with
      | none => none
      | some (vs, ust3) => some ((k, v) :: vs, ust3)

/-- `unwrapFormerInternal` on an object/array diff node.  Note that for an
object diff the token is only carried onto the reconstruction inside the
property loop, so a property-less object diff loses it. -/
def uwFormerD : Nat → DStore → Nat → UState → Option (Value × UState)
  | 0, _, _, _ => none
  | fuel + 1, ds, d, ust =>
    match ust.refMap.lookup d with
    | some out => some (.ref out, ust)
    | none =>
      match ds d with
      | none => some (.prim Prim.undef, ust)
      | some dn =>
        match dn with
        | .arr oid _ _ _ _ del oth =>
          let out := ust.next
          let ust1 : UState := { ust with next := out + 1, refMap := (d, out) :: ust.refMap }
          match uwList (uwFormerD fuel ds) oth ust1 with
          | none => none
          | some (e1, ust2) =>
            match uwList (uwFormerD fuel ds) del ust2 with
            | none => none
            | some (e2, ust3) =>
              some (.ref out, { ust3 with heap := ust3.heap.set out ⟨oid, .arr (e1 ++ e2)⟩ })
        | .obj oid _ _ _ props =>
          let out := ust.next
          let ust1 : UState := { ust with next := out + 1, refMap := (d, out) :: ust.refMap }
          let kept := props.filter (fun kp => !(reservedDiffKeys.contains kp.1))
          let tok : Option Token := if kept.isEmpty then none else oid
          match uwFormerProps (uwFormerD fuel ds) kept ust1 with
          | none => none
          | some (props2, ust2) =>
            some (.ref out, { ust2 with heap := ust2.heap.set out ⟨tok, .obj props2⟩ })

/-- `$unwrap(era)` on the bound diff `d`: a fresh reference map per call. -/
def unwrapPresent (fuel : Nat) (ds : DStore) (d : Nat) (h : Heap) (next : Addr) :
    Option (Value × UState) :=
  uwPresentD fuel ds d ⟨h, next, []⟩

def unwrapFormer (fuel : Nat) (ds : DStore) (d : Nat) (h : Heap) (next : Addr) :
    Option (Value × UState) :=
  uwFormerD fuel ds d ⟨h, next, []⟩

/-- `$state` of a diff node: Changed, then Created, then Deleted, then
Unchanged. -/
inductive State where
  | unchanged
  | created
  | changed
  | deleted
deriving DecidableEq, Repr

def stateOf : DNode → State
  | .obj _ c d ch _ => if ch then .changed else if c then .created else if d then .deleted else .unchanged
  | .arr _ c d ch _ _ _ => if ch then .changed else if c then .created else if d then .deleted else .unchanged

def DNode.isCreatedOf : DNode → Bool
  | .obj _ c _ _ _ => c
  | .arr _ c _ _ _ _ _ => c

def DNode.isDeletedOf : DNode → Bool
  | .obj _ _ d _ _ => d
  | .arr _ _ d _ _ _ _ => d

def DNode.isChangedOf : DNode → Bool
  | .obj _ _ _ ch _ => ch
  | .arr _ _ _ ch _ _ _ => ch

/-! ## Merge engine (`mergeSnapshotIntoPart`) -/

/-- `Map.set`: overwrite in place or append. -/
def mapSet (m : List (Token × Addr)) (t : Token) (a : Addr) : List (Token × Addr) :=
  match m with
  | [] => [(t, a)]
  | (t2, a2) :: rest =>
    if t2 = t then (t2, a) :: rest else (t2, a2) :: mapSet rest t a

def mapFind (m : List (Token × Addr)) (t : Token) : Option Addr :=
  match m with
  | [] => none
  | (t2, a) :: rest => if t = t2 then some a else mapFind rest t

/-- Property write `obj[k] = v` (in place, appending when new). -/
def pset (props : List (String × Value)) (k : String) (v : Value) :
    List (String × Value) :=
  match props with
  | [] => [(k, v)]
  | (k2, v2) :: rest =>
    if k2 = k then (k2, v) :: rest else (k2, v2) :: pset rest k v

abbrev ColRec := Value → List (Token × Addr) → List Addr →
  Option (List (Token × Addr) × List Addr)

def collectIdsList (rec : ColRec) : List Value → List (Token × Addr) →
    List Addr → Option (List (Token × Addr) × List Addr)
  | [], acc, seen => some (acc, seen)
  | v :: vs, acc, seen =>
    match rec v acc seen with
    | none => none
    | some (acc1, seen1) => collectIdsList rec vs acc1 seen1

/-- `collectObjectsWithObjectId`: walks the assigned value's subgraph
(skipping primitives, value-likes, functions, and seen nodes) and records
each tokened object under its token (later sightings overwrite). -/
def collectIds : Nat → Heap → Value → List (Token × Addr) → List Addr →
    Option (List (Token × Addr) × List Addr)
  | 0, _, _, _, _ => none
  | fuel + 1, h, v, acc, seen =>
    match v with
    | .prim _ => some (acc, seen)
    | .fn _ => some (acc, seen)
    | .ref a =>
      match h a with
      | none => none
      | some n =>
        match n.data with
        | .vlike _ _ => some (acc, seen)
        | _ =>
          if a ∈ seen then some (acc, seen)
          else
            let seen1 := a :: seen
            let acc1 := match n.token with
              | some t => mapSet acc t a
              | none => acc
            collectIdsList (collectIds fuel h) (nodeChildren n.data) acc1 seen1

abbrev RepRec := Value → Heap → List Addr → Option (Heap × List Addr)

/-- The array slot loop of the replacement walk: slots are read live from
the heap, and a matching tokened slot is overwritten without recursing. -/
def replaceArrElems (rec : RepRec) (m : List (Token × Addr)) (a : Addr) :
    Nat → Nat → Heap → List Addr → Option (Heap × List Addr)
  | _, 0, h, seen => some (h, seen)
  | i, rem + 1, h, seen =>
    match h a with
    | some ⟨tok, .arr elems⟩ =>
      match elems.get? i with
      | none => some (h, seen)
      | some v =>
        match v with
        | .ref b =>
          match h b with
          | none => none
          | some nb =>
            match nb.token with
            | some t =>
              match mapFind m t with
              | some newA =>
                let h1 := h.set a ⟨tok, .arr (elems.set i (.ref newA))⟩
                replaceArrElems rec m a (i + 1) rem h1 seen
              | none =>
                match rec v h seen with
                | none => none
                | some (h1, seen1) => replaceArrElems rec m a (i + 1) rem h1 seen1
            | none =>
              match rec v h seen with
              | none => none
              | some (h1, seen1) => replaceArrElems rec m a (i + 1) rem h1 seen1
        | _ =>
          match rec v h seen with
          | none => none
          | some (h1, seen1) => replaceArrElems rec m a (i + 1) rem h1 seen1
    | _ => some (h, seen)

/-- The object property loop of the replacement walk, over the keys
computed at entry; values are read live from the heap. -/
def replaceObjProps (rec : RepRec) (m : List (Token × Addr)) (a : Addr) :
    List String → Heap → List Addr → Option (Heap × List Addr)
  | [], h, seen => some (h, seen)
  | k :: ks, h, seen =>
    match h a with
    | some ⟨tok, .obj props⟩ =>
      let v := propGet props k
      match v with
      | .ref b =>
        match h b with
        | none => none
        | some nb =>
          match nb.token with
          | some t =>
            match mapFind m t with
            | some newA =>
              let h1 := h.set a ⟨tok, .obj (pset props k (.ref newA))⟩
              replaceObjProps rec m a ks h1 seen
            | none =>
              match rec v h seen with
              | none => none
              | some (h1, seen1) => replaceObjProps rec m a ks h1 seen1
          | none =>
            match rec v h seen with
            | none => none
            | some (h1, seen1) => replaceObjProps rec m a ks h1 seen1
      | _ =>
        match rec v h seen with
        | none => none
        | some (h1, seen1) => replaceObjProps rec m a ks h1 seen1
    | _ => some (h, seen)

/-- `replaceObjectsWithSameObjectIdEverywhere`: walks the host model and
replaces, in place, every reference whose token is in the collection by the
collected object, without descending into the replacement. -/
def replaceAll : Nat → List (Token × Addr) → Value → Heap → List Addr →
    Option (Heap × List Addr)
  | 0, _, _, _, _ => none
  | fuel + 1, m, v, h, seen =>
    match v with
    | .prim _ => some (h, seen)
    | .fn _ => some (h, seen)
    | .ref a =>
      match h a with
      | none => none
      | some n =>
        match n.data with
        | .vlike _ _ => some (h, seen)
        | .arr elems =>
          if a ∈ seen then some (h, seen)
          else replaceArrElems (fun w hh sn => replaceAll fuel m w hh sn) m a
            0 elems.length h (a :: seen)
        | .obj props =>
          if a ∈ seen then some (h, seen)
          else replaceObjProps (fun w hh sn => replaceAll fuel m w hh sn) m a
            (getPropertyKeys props) h (a :: seen)

/-- `mergeSnapshotIntoModel(model, snapshot)`. -/
def mergeSnapshotIntoModel (fuel : Nat) (modelRoot snapshotVal : Value) (h : Heap) :
    Option Heap :=
  match collectIds fuel h snapshotVal [] [] with
  | none => none
  | some (m, _) =>
    if m.isEmpty then some h
    else
      match replaceAll fuel m modelRoot h [] with
      | none => none
      | some (h1, _) => some h1

/-- The `set` trap of the proxy membrane (`mergeSnapshotIntoPart`): the
underlying property is written, then — when the assigned value is neither a
value type nor a value-like — the whole host model is rewritten. -/
def membraneSet (fuel : Nat) (modelRoot : Value) (target : Addr) (key : String)
    (newVal : Value) (h : Heap) : Option Heap :=
  match h target with
  | none => none
  | some n =>
    match n.data with
    | .arr _ => none
    | .obj props =>
      let h1 := h.set target ⟨n.token, .obj (pset props key newVal)⟩
      if !(isValueTypeV newVal) && !(isValueLikeV h1 newVal) then
        mergeSnapshotIntoModel fuel modelRoot newVal h1
      else some h1
    | .vlike d props =>
      let h1 := h.set target ⟨n.token, .vlike d (pset props key newVal)⟩
      if !(isValueTypeV newVal) && !(isValueLikeV h1 newVal) then
        mergeSnapshotIntoModel fuel modelRoot newVal h1
      else some h1

/-! ## Heap-evolution lemmas for identity assignment and cloning -/

/-- What one `assignObjectIds` run does to the heap: every node keeps its
data, an existing token is never changed or removed, and no address is
allocated. -/
def AssignRel (h h' : Heap) : Prop :=
  (∀ b n, h b = some n → ∃ tk, h' b = some ⟨tk, n.data⟩ ∧
    ∀ t, n.token = some t → tk = some t) ∧
  (∀ b, h b = none → h' b = none)

theorem AssignRel.refl_assign (h : Heap) : AssignRel h h := by
  refine ⟨fun b n hb => ⟨n.token, ?_, fun t ht => ht⟩, fun b hb => hb⟩
  simpa using hb

theorem AssignRel.trans_assign {h1 h2 h3 : Heap} (r12 : AssignRel h1 h2)
    (r23 : AssignRel h2 h3) : AssignRel h1 h3 := by
  refine ⟨fun b n hb => ?_, fun b hb => r23.2 b (r12.2 b hb)⟩
  obtain ⟨tk, hb2, hmono⟩ := r12.1 b n hb
  obtain ⟨tk2, hb3, hmono2⟩ := r23.1 b ⟨tk, n.data⟩ hb2
  exact ⟨tk2, hb3, fun t ht => hmono2 t (hmono t ht)⟩

theorem assignIdsVals_AssignRel (rec : Addr → AState → Option AState)
    (ha : ∀ a st st', rec a st = some st' → AssignRel st.heap st'.heap) :
    ∀ vs (st st' : AState), assignIdsVals rec vs st = some st' →
      AssignRel st.heap st'.heap := by
  intro vs
  induction vs with
  | nil =>
    intro st st' hrun
    simp only [assignIdsVals] at hrun
    cases hrun
    exact AssignRel.refl_assign _
  | cons v vs ih =>
    intro st st' hrun
    cases v with
    | prim p => simp only [assignIdsVals] at hrun; exact ih st st' hrun
    | fn i => simp only [assignIdsVals] at hrun; exact ih st st' hrun
    | ref b =>
      simp only [assignIdsVals] at hrun
      cases hb : st.heap b with
      | none => rw [hb] at hrun; cases hrun
      | some m =>
        simp only [hb] at hrun
        cases hm : m.data with
        | vlike d props => simp only [hm] at hrun; exact ih st st' hrun
        | obj props =>
          simp only [hm] at hrun
          cases hrec : rec b st with
          | none => rw [hrec] at hrun; cases hrun
          | some st2 =>
            rw [hrec] at hrun
            exact (ha b st st2 hrec).trans_assign (ih st2 st' hrun)
        | arr elems =>
          simp only [hm] at hrun
          cases hrec : rec b st with
          | none => rw [hrec] at hrun; cases hrun
          | some st2 =>
            rw [hrec] at hrun
            exact (ha b st st2 hrec).trans_assign (ih st2 st' hrun)

theorem assignIdsAddr_AssignRel :
    ∀ fuel a (st st' : AState), assignIdsAddr fuel a st = some st' →
      AssignRel st.heap st'.heap := by
  intro fuel
  induction fuel with
  | zero => intro a st st' hrun; simp [assignIdsAddr] at hrun
  | succ f ih =>
    intro a st st' hrun
    simp only [assignIdsAddr] at hrun
    by_cases hseen : a ∈ st.seen
    · simp only [hseen, if_true] at hrun
      cases hrun
      exact AssignRel.refl_assign _
    · simp only [hseen, if_false] at hrun
      cases hheap : st.heap a with
      | none => rw [hheap] at hrun; cases hrun
      | some n =>
        simp only [hheap] at hrun
        have hstep := assignIdsVals_AssignRel (assignIdsAddr f) ih
          (nodeChildren n.data) _ _ hrun
        refine AssignRel.trans_assign ?_ hstep
        cases htok : n.token with
        | some t => exact AssignRel.refl_assign _
        | none =>
          show AssignRel st.heap (st.heap.set a ⟨some st.counter, n.data⟩)
          constructor
          · intro b nb hb
            by_cases hba : b = a
            · subst hba
              refine ⟨some st.counter, ?_, ?_⟩
              · have : nb = n := by rw [hb] at hheap; injection hheap
                subst this
                simp [Heap.set]
              · intro t ht
                have : nb = n := by rw [hb] at hheap; injection hheap
                subst this
                rw [htok] at ht; cases ht
            · refine ⟨nb.token, ?_, fun t ht => ht⟩
              simpa [Heap.set, hba] using hb
          · intro b hb
            by_cases hba : b = a
            · subst hba; rw [hb] at hheap; cases hheap
            · simpa [Heap.set, hba] using hb

/-- What one `clone` call does to the heap: the allocator only moves
forward, addresses below the allocator are untouched, and addresses at or
beyond the final allocator stay unallocated. -/
def CloneRel (st st' : CState) : Prop :=
  st.next ≤ st'.next ∧
  (∀ b, b < st.next → st'.heap b = st.heap b) ∧
  (∀ b, st'.next ≤ b → st.heap b = none → st'.heap b = none)

theorem CloneRel.refl_clone (st : CState) : CloneRel st st :=
  ⟨Nat.le_refl _, fun _ _ => rfl, fun _ _ hb => hb⟩

theorem CloneRel.trans_clone {s1 s2 s3 : CState} (r12 : CloneRel s1 s2)
    (r23 : CloneRel s2 s3) : CloneRel s1 s3 := by
  refine ⟨Nat.le_trans r12.1 r23.1, fun b hb => ?_, fun b hb hnone => ?_⟩
  · rw [r23.2.1 b (Nat.lt_of_lt_of_le hb r12.1), r12.2.1 b hb]
  · exact r23.2.2 b hb (r12.2.2 b (Nat.le_trans r23.1 hb) hnone)

/-- Allocating at the current allocator position respects `CloneRel` when
chained before another `CloneRel`. -/
theorem CloneRel.alloc (st : CState) (n : HNode) (rm : List (Addr × Addr))
    (hdom : st.heap st.next = none) :
    CloneRel st ⟨st.heap.set st.next n, st.next + 1, rm⟩ := by
  refine ⟨Nat.le_succ _, fun b hb => ?_, fun b hb hnone => ?_⟩
  · exact Heap.set_other _ _ _ _ (Nat.ne_of_lt hb)
  · have hb2 : st.next + 1 ≤ b := hb
    have : b ≠ st.next := (Nat.lt_of_succ_le hb2).ne'
    simpa [Heap.set, this] using hnone

/-- Heap-domain well-formedness: every allocated address is below the
allocator. -/
def DomLT (h : Heap) (next : Addr) : Prop :=
  ∀ b, next ≤ b → h b = none

theorem CloneRel.domLT {st st' : CState} (r : CloneRel st st')
    (hd : DomLT st.heap st.next) : DomLT st'.heap st'.next := by
  intro b hb
  exact r.2.2 b hb (hd b (Nat.le_trans r.1 hb))

theorem cloneProps_CloneRel (rec : Value → CState → Option (Value × CState))
    (hc : ∀ v (st : CState) x st', DomLT st.heap st.next →
      rec v st = some (x, st') → CloneRel st st') :
    ∀ ks props (st : CState) ps2 st', DomLT st.heap st.next →
      cloneProps rec ks props st = some (ps2, st') → CloneRel st st' := by
  intro ks
  induction ks with
  | nil =>
    intro props st ps2 st' _ hrun
    simp only [cloneProps] at hrun
    cases hrun
    exact CloneRel.refl_clone _
  | cons k ks ih =>
    intro props st ps2 st' hd hrun
    simp only [cloneProps] at hrun
    cases hv : propGet props k with
    | fn i => simp only [hv] at hrun; exact ih props st ps2 st' hd hrun
    | prim p =>
      simp only [hv] at hrun
      cases hrec : cloneProps rec ks props st with
      | none => rw [hrec] at hrun; cases hrun
      | some r =>
        obtain ⟨ps3, st3⟩ := r
        simp only [hrec] at hrun
        cases hrun
        exact ih props st _ _ hd hrec
    | ref a =>
      simp only [hv] at hrun
      cases hcl : rec (.ref a) st with
      | none => rw [hcl] at hrun; cases hrun
      | some r =>
        obtain ⟨v2, st2⟩ := r
        simp only [hcl] at hrun
        cases hrec : cloneProps rec ks props st2 with
        | none => rw [hrec] at hrun; cases hrun
        | some r2 =>
          obtain ⟨ps3, st3⟩ := r2
          simp only [hrec] at hrun
          cases hrun
          have rel1 := hc _ _ _ _ hd hcl
          exact rel1.trans_clone (ih props st2 _ _ (rel1.domLT hd) hrec)

theorem cloneElems_CloneRel (rec : Value → CState → Option (Value × CState))
    (hc : ∀ v (st : CState) x st', DomLT st.heap st.next →
      rec v st = some (x, st') → CloneRel st st') :
    ∀ vs (st : CState) vs2 st', DomLT st.heap st.next →
      cloneElems rec vs st = some (vs2, st') → CloneRel st st' := by
  intro vs
  induction vs with
  | nil =>
    intro st vs2 st' _ hrun
    simp only [cloneElems] at hrun
    cases hrun
    exact CloneRel.refl_clone _
  | cons v vs ih =>
    intro st vs2 st' hd hrun
    cases v with
    | fn i => simp only [cloneElems] at hrun; exact ih st vs2 st' hd hrun
    | prim p =>
      simp only [cloneElems] at hrun
      cases hrec : cloneElems rec vs st with
      | none => rw [hrec] at hrun; cases hrun
      | some r =>
        obtain ⟨vs3, st3⟩ := r
        simp only [hrec] at hrun
        cases hrun
        exact ih st _ _ hd hrec
    | ref a =>
      simp only [cloneElems] at hrun
      cases hcl : rec (.ref a) st with
      | none => rw [hcl] at hrun; cases hrun
      | some r =>
        obtain ⟨v2, st2⟩ := r
        simp only [hcl] at hrun
        cases hrec : cloneElems rec vs st2 with
        | none => rw [hrec] at hrun; cases hrun
        | some r2 =>
          obtain ⟨vs3, st3⟩ := r2
          simp only [hrec] at hrun
          cases hrun
          have rel1 := hc _ _ _ _ hd hcl
          exact rel1.trans_clone (ih st2 _ _ (rel1.domLT hd) hrec)

theorem cloneVal_CloneRel :
    ∀ fuel v (st : CState) x st', DomLT st.heap st.next →
      cloneVal fuel v st = some (x, st') → CloneRel st st' := by
  intro fuel
  induction fuel with
  | zero => intro v st x st' _ hrun; simp [cloneVal] at hrun
  | succ f ih =>
    intro v st x st' hd hrun
    cases v with
    | prim p =>
      simp only [cloneVal] at hrun
      cases hrun
      exact CloneRel.refl_clone _
    | fn i =>
      simp only [cloneVal] at hrun
      cases hrun
      exact CloneRel.refl_clone _
    | ref a =>
      simp only [cloneVal] at hrun
      cases hrm : st.refMap.lookup a with
      | some c =>
        simp only [hrm] at hrun
        cases hrun
        exact CloneRel.refl_clone _
      | none =>
        simp only [hrm] at hrun
        cases hheap : st.heap a with
        | none => simp only [hheap] at hrun; cases hrun
        | some n =>
          simp only [hheap] at hrun
          cases hdat : n.data with
          | vlike d props =>
            simp only [hdat] at hrun
            cases hrun
            exact CloneRel.alloc st _ _ (hd st.next (Nat.le_refl _))
          | arr elems =>
            simp only [hdat] at hrun
            cases hrec : cloneElems (cloneVal f) elems
                ⟨st.heap, st.next + 1, (a, st.next) :: st.refMap⟩ with
            | none => rw [hrec] at hrun; cases hrun
            | some r =>
              obtain ⟨elems2, st2⟩ := r
              simp only [hrec] at hrun
              cases hrun
              have hd1 : DomLT (st.heap) (st.next + 1) := fun b hb =>
                hd b (Nat.le_of_succ_le hb)
              have rel1 := cloneElems_CloneRel (cloneVal f) ih elems
                ⟨st.heap, st.next + 1, (a, st.next) :: st.refMap⟩ elems2 st2 hd1 hrec
              refine ⟨Nat.le_trans (Nat.le_succ _) rel1.1, fun b hb => ?_,
                fun b hb hbnone => ?_⟩
              · have h1 : st2.heap b = st.heap b :=
                  rel1.2.1 b (Nat.lt_succ_of_lt hb)
                have : b ≠ st.next := Nat.ne_of_lt hb
                simp [Heap.set, this, h1]
              · have hb2 : st2.next ≤ b := hb
                have h1 : st2.heap b = none := rel1.2.2 b hb2 hbnone
                have h3 : st.next + 1 ≤ st2.next := rel1.1
                have : b ≠ st.next := (Nat.lt_of_succ_le (Nat.le_trans h3 hb2)).ne'
                simp [Heap.set, this, h1]
          | obj props =>
            simp only [hdat] at hrun
            cases hrec : cloneProps (cloneVal f) (getPropertyKeys props) props
                ⟨st.heap, st.next + 1, (a, st.next) :: st.refMap⟩ with
            | none => rw [hrec] at hrun; cases hrun
            | some r =>
              obtain ⟨props2, st2⟩ := r
              simp only [hrec] at hrun
              cases hrun
              have hd1 : DomLT (st.heap) (st.next + 1) := fun b hb =>
                hd b (Nat.le_of_succ_le hb)
              have rel1 := cloneProps_CloneRel (cloneVal f) ih (getPropertyKeys props) props
                ⟨st.heap, st.next + 1, (a, st.next) :: st.refMap⟩ props2 st2 hd1 hrec
              refine ⟨Nat.le_trans (Nat.le_succ _) rel1.1, fun b hb => ?_,
                fun b hb hbnone => ?_⟩
              · have h1 : st2.heap b = st.heap b :=
                  rel1.2.1 b (Nat.lt_succ_of_lt hb)
                have : b ≠ st.next := Nat.ne_of_lt hb
                simp [Heap.set, this, h1]
              · have hb2 : st2.next ≤ b := hb
                have h1 : st2.heap b = none := rel1.2.2 b hb2 hbnone
                have h3 : st.next + 1 ≤ st2.next := rel1.1
                have : b ≠ st.next := (Nat.lt_of_succ_le (Nat.le_trans h3 hb2)).ne'
                simp [Heap.set, this, h1]

theorem takeSnapshot_token_stable (fuel : Nat) (root : Value)
    (st : CheckerState) (p : Value × CheckerState)
    (hdom : DomLT st.heap st.next)
    (hrun : takeSnapshot fuel root st = some p) :
    (∀ b n, st.heap b = some n → ∃ tk, p.2.heap b = some ⟨tk, n.data⟩ ∧
      ∀ t, n.token = some t → tk = some t) ∧ DomLT p.2.heap p.2.next := by
  cases root with
  | prim q => simp [takeSnapshot] at hrun
  | fn i => simp [takeSnapshot] at hrun
  | ref a =>
    simp only [takeSnapshot] at hrun
    cases hass : assignIdsAddr fuel a ⟨st.heap, st.counter, []⟩ with
    | none => rw [hass] at hrun; cases hrun
    | some ast =>
      simp only [hass] at hrun
      cases hcl : cloneVal fuel (.ref a) ⟨ast.heap, st.next, []⟩ with
      | none => rw [hcl] at hrun; cases hrun
      | some r =>
        obtain ⟨v, cst⟩ := r
        simp only [hcl] at hrun
        cases hrun
        have hass2 := assignIdsAddr_AssignRel fuel a ⟨st.heap, st.counter, []⟩ ast hass
        have hdom2 : DomLT ast.heap st.next := fun b hb => hass2.2 b (hdom b hb)
        have hclr := cloneVal_CloneRel fuel (.ref a) ⟨ast.heap, st.next, []⟩ v cst hdom2 hcl
        constructor
        · intro b n hb
          obtain ⟨tk, hb2, hmono⟩ := hass2.1 b n hb
          have hblt : b < st.next := by
            by_contra hge
            rw [hdom b (Nat.le_of_not_lt hge)] at hb
            cases hb
          refine ⟨tk, ?_, hmono⟩
          have := hclr.2.1 b hblt
          simpa [this] using hb2
        · exact hclr.domLT hdom2

/-- C6.  `takeSnapshot` is idempotent with respect to identity assignment:
across `takeSnapshot(takeSnapshot(M))`, a node that already carries a token
keeps exactly that token (and its data) through each pass — a token, once
stamped, is never changed or reassigned, and fresh tokens go only to
token-less nodes. -/
theorem claim_C6_snapshot_idempotent (fuel1 fuel2 : Nat) (root : Value)
    (st : CheckerState) (p1 p2 : Value × CheckerState)
    (hdom : DomLT st.heap st.next)
    (h1 : takeSnapshot fuel1 root st = some p1)
    (h2 : takeSnapshot fuel2 p1.1 p1.2 = some p2) :
    (∀ b n, st.heap b = some n → ∃ tk, p1.2.heap b = some ⟨tk, n.data⟩ ∧
      ∀ t, n.token = some t → tk = some t) ∧
    (∀ b n, p1.2.heap b = some n → ∃ tk, p2.2.heap b = some ⟨tk, n.data⟩ ∧
      ∀ t, n.token = some t → tk = some t) := by
  have s1 := takeSnapshot_token_stable fuel1 root st p1 hdom h1
  have s2 := takeSnapshot_token_stable fuel2 p1.1 p1.2 p2 s1.2 h2
  exact ⟨s1.1, s2.1⟩

/-- A two-node model used to exercise the snapshot pipeline. -/
def c6heap : Heap := fun a =>
  if a = 0 then some ⟨none, .obj [("x", .ref 1), ("n", .prim (.num 7))]⟩
  else if a = 1 then some ⟨none, .obj []⟩
  else none

theorem c6heap_domLT : DomLT c6heap 2 := by
  intro b hb
  match b, hb with
  | n + 2, _ => simp [c6heap]

def c6st : CheckerState := ⟨c6heap, 2, 0⟩

def c6p1 : Value × CheckerState :=
  (takeSnapshot 40 (.ref 0) c6st).getD (.prim Prim.undef, c6st)

def c6p2 : Value × CheckerState :=
  (takeSnapshot 40 c6p1.1 c6p1.2).getD (.prim Prim.undef, c6st)

theorem isVLAddr_some (h : Heap) (a : Addr) (n : HNode) (hn : h a = some n) :
    isVLAddr h a = (match n.data with
      | .vlike _ _ => true
      | _ => false) := by
  rw [isVLAddr, hn]
  obtain ⟨tk, md⟩ := n
  cases md <;> rfl

theorem isVLAddr_congr {h h' : Heap} {b : Addr} (he : h' b = h b) :
    isVLAddr h' b = isVLAddr h b := by
  simp only [isVLAddr, he]

theorem assignIdsVals_vl_untouched (rec : Addr → AState → Option AState)
    (ha : ∀ c (st st' : AState), rec c st = some st' →
      ∀ b, b ≠ c → isVLAddr st.heap b = true → st'.heap b = st.heap b) :
    ∀ vs (st st' : AState), assignIdsVals rec vs st = some st' →
      ∀ b, isVLAddr st.heap b = true → st'.heap b = st.heap b := by
  intro vs
  induction vs with
  | nil =>
    intro st st' hrun b hvl
    simp only [assignIdsVals] at hrun
    cases hrun
    rfl
  | cons v vs ih =>
    intro st st' hrun b hvl
    cases v with
    | prim p => simp only [assignIdsVals] at hrun; exact ih st st' hrun b hvl
    | fn i => simp only [assignIdsVals] at hrun; exact ih st st' hrun b hvl
    | ref c =>
      simp only [assignIdsVals] at hrun
      cases hc : st.heap c with
      | none => rw [hc] at hrun; cases hrun
      | some m =>
        simp only [hc] at hrun
        cases hm : m.data with
        | vlike d props => simp only [hm] at hrun; exact ih st st' hrun b hvl
        | obj props =>
          simp only [hm] at hrun
          cases hrec : rec c st with
          | none => rw [hrec] at hrun; cases hrun
          | some st2 =>
            rw [hrec] at hrun
            have hbc : b ≠ c := by
              intro he
              subst he
              rw [isVLAddr_some st.heap b m hc, hm] at hvl
              cases hvl
            have h1 := ha c st st2 hrec b hbc hvl
            have hvl2 : isVLAddr st2.heap b = true := by
              rw [isVLAddr_congr h1]
              exact hvl
            rw [ih st2 st' hrun b hvl2, h1]
        | arr elems =>
          simp only [hm] at hrun
          cases hrec : rec c st with
          | none => rw [hrec] at hrun; cases hrun
          | some st2 =>
            rw [hrec] at hrun
            have hbc : b ≠ c := by
              intro he
              subst he
              rw [isVLAddr_some st.heap b m hc, hm] at hvl
              cases hvl
            have h1 := ha c st st2 hrec b hbc hvl
            have hvl2 : isVLAddr st2.heap b = true := by
              rw [isVLAddr_congr h1]
              exact hvl
            rw [ih st2 st' hrun b hvl2, h1]

theorem assignIdsAddr_vl_untouched :
    ∀ fuel a (st st' : AState), assignIdsAddr fuel a st = some st' →
      ∀ b, b ≠ a → isVLAddr st.heap b = true → st'.heap b = st.heap b := by
  intro fuel
  induction fuel with
  | zero => intro a st st' hrun; simp [assignIdsAddr] at hrun
  | succ f ih =>
    intro a st st' hrun b hba hvl
    simp only [assignIdsAddr] at hrun
    by_cases hseen : a ∈ st.seen
    · simp only [hseen, if_true] at hrun
      cases hrun
      rfl
    · simp only [hseen, if_false] at hrun
      cases hheap : st.heap a with
      | none => rw [hheap] at hrun; cases hrun
      | some n =>
        simp only [hheap] at hrun
        cases htok : n.token with
        | some t =>
          simp only [htok] at hrun
          exact assignIdsVals_vl_untouched (assignIdsAddr f) ih
            (nodeChildren n.data) _ _ hrun b hvl
        | none =>
          simp only [htok] at hrun
          have hmid : (st.heap.set a ⟨some st.counter, n.data⟩) b = st.heap b :=
            Heap.set_other _ _ _ _ hba
          have hvl2 : isVLAddr (st.heap.set a ⟨some st.counter, n.data⟩) b = true := by
            rw [isVLAddr_congr hmid]
            exact hvl
          have := assignIdsVals_vl_untouched (assignIdsAddr f) ih
            (nodeChildren n.data) _ _ hrun b hvl2
          rw [this]
          exact hmid

/-- C7 (amended): identity assignment neither stamps nor descends into a
value-like encountered as a child: when the child loop meets a value-like
reference it continues with the state untouched, and any value-like node
other than the traversal root is left exactly as it was. (A value-like at
the graph root, by contrast, is stamped and traversed — see the
counterexample.) -/
theorem claim_C7_valuelike_skip_amended :
    (∀ (rec : Addr → AState → Option AState) (b : Addr) vs (st : AState),
      isVLAddr st.heap b = true →
      assignIdsVals rec (.ref b :: vs) st = assignIdsVals rec vs st) ∧
    (∀ fuel a (st st' : AState), assignIdsAddr fuel a st = some st' →
      ∀ b, b ≠ a → isVLAddr st.heap b = true → st'.heap b = st.heap b) := by
  constructor
  · intro rec b vs st hvl
    simp only [assignIdsVals]
    cases hb : st.heap b with
    | none => rw [isVLAddr, hb] at hvl; cases hvl
    | some m =>
      rw [isVLAddr_some st.heap b m hb] at hvl
      cases hm : m.data with
      | vlike d props => simp [hb, hm]
      | obj props => rw [hm] at hvl; cases hvl
      | arr elems => rw [hm] at hvl; cases hvl
  · exact assignIdsAddr_vl_untouched

/-- A model whose root is value-like (with an object-valued property) and a
model with a value-like child, exercising both halves of C7. -/
def c7heap : Heap := fun a =>
  if a = 0 then some ⟨none, .vlike ⟨1, 2⟩ [("x", .ref 1)]⟩
  else if a = 1 then some ⟨none, .obj []⟩
  else if a = 2 then some ⟨none, .obj [("d", .ref 0)]⟩
  else none

/-- C7 counterexample: the claim says a value-like node — including at the
graph root — is neither stamped nor descended into; but running identity
assignment on the value-like root at address 0 stamps it (token 0) and
descends into its property, stamping the plain object at address 1 too. -/
theorem claim_C7_counterexample :
    isVLAddr c7heap 0 = true ∧
    (assignIdsAddr 20 0 ⟨c7heap, 0, []⟩).map
      (fun st => ((st.heap 0).map HNode.token, (st.heap 1).map HNode.token, st.counter)) =
      some (some (some 0), some (some 1), 2) := by
  exact ⟨rfl, rfl⟩

theorem claim_C7_valuelike_skip_amended_witness :
    assignIdsVals (assignIdsAddr 20) [.ref 0] ⟨c7heap, 5, [2]⟩ =
      assignIdsVals (assignIdsAddr 20) [] ⟨c7heap, 5, [2]⟩ ∧
    ∃ st', assignIdsAddr 20 2 ⟨c7heap, 5, []⟩ = some st' ∧
      st'.heap 0 = c7heap 0 := by
  constructor
  · exact claim_C7_valuelike_skip_amended.1 (assignIdsAddr 20) 0 [] ⟨c7heap, 5, [2]⟩ rfl
  · refine ⟨(assignIdsAddr 20 2 ⟨c7heap, 5, []⟩).getD ⟨c7heap, 5, []⟩, rfl, ?_⟩
    exact claim_C7_valuelike_skip_amended.2 20 2 ⟨c7heap, 5, []⟩ _ rfl 0 (by decide) rfl

/-- The date-like plugin equality used for concrete runs: equal when the
primary datum agrees. -/
def dateEq (x y : VLData) : Bool := x.k == y.k

/-! ## The flag discipline of bound diff nodes (C5) -/

/-- A Created or Deleted node never has its internal `isChanged` flag set,
and no node is simultaneously Created and Deleted. -/
def flagOK (dn : DNode) : Prop :=
  ((dn.isCreatedOf = true ∨ dn.isDeletedOf = true) → dn.isChangedOf = false) ∧
  ¬(dn.isCreatedOf = true ∧ dn.isDeletedOf = true)

def StoreOK (ds : DStore) : Prop := ∀ d dn, ds d = some dn → flagOK dn

theorem StoreOK.set_ok {ds : DStore} (hok : StoreOK ds) {d : Nat} {dn : DNode}
    (hdn : flagOK dn) : StoreOK (ds.set d dn) := by
  intro d2 dn2 hd2
  by_cases he : d2 = d
  · subst he
    rw [DStore.set, if_pos rfl] at hd2
    cases hd2
    exact hdn
  · rw [DStore.set, if_neg he] at hd2
    exact hok d2 dn2 hd2

theorem flagOK_default_obj : flagOK (.obj none false false false []) :=
  ⟨fun _ => rfl, fun h => Bool.noConfusion h.1⟩

theorem flagOK_default_arr : flagOK (.arr none false false false [] [] []) :=
  ⟨fun _ => rfl, fun h => Bool.noConfusion h.1⟩

/-- An entry with at least one side never yields a node that is both
Created and Deleted. -/
theorem sided_not_both {f p : Option Addr}
    (hside : f.isSome = true ∨ p.isSome = true) :
    ¬(f.isNone = true ∧ p.isNone = true) := by
  intro hcd
  cases f with
  | some x => cases hcd.1
  | none =>
    cases p with
    | some y => cases hcd.2
    | none => rcases hside with h | h <;> cases h

theorem buildElems_StoreOK (rec : BuildRec)
    (hr : ∀ v st r, rec v st = some (.ok r) → StoreOK st.dstore → StoreOK r.dstore) :
    ∀ i vs (st r : LState), buildElems rec i vs st = some (.ok r) →
      StoreOK st.dstore → StoreOK r.dstore := by
  intro i vs
  induction vs generalizing i with
  | nil =>
    intro st r hrun hok
    simp only [buildElems] at hrun
    cases hrun
    exact hok
  | cons v vs ih =>
    intro st r hrun hok
    simp only [buildElems] at hrun
    cases hrec : rec v st with
    | none => rw [hrec] at hrun; cases hrun
    | some res =>
      cases res with
      | error c => simp only [hrec] at hrun; cases hrun
      | ok st2 =>
        simp only [hrec] at hrun
        exact ih (i + 1) st2 r hrun (hr v st st2 hrec hok)

theorem buildProps_StoreOK (rec : BuildRec)
    (hr : ∀ v st r, rec v st = some (.ok r) → StoreOK st.dstore → StoreOK r.dstore) :
    ∀ accKey ks props (st r : LState),
      buildProps rec accKey ks props st = some (.ok r) →
      StoreOK st.dstore → StoreOK r.dstore := by
  intro accKey ks
  induction ks with
  | nil =>
    intro props st r hrun hok
    simp only [buildProps] at hrun
    cases hrun
    exact hok
  | cons k ks ih =>
    intro props st r hrun hok
    simp only [buildProps] at hrun
    cases accKey with
    | none =>
      simp only at hrun
      cases hrec : rec (propGet props k) st with
      | none => rw [hrec] at hrun; cases hrun
      | some res =>
        cases res with
        | error c => simp only [hrec] at hrun; cases hrun
        | ok st2 =>
          simp only [hrec] at hrun
          exact ih props st2 r hrun (hr _ st st2 hrec hok)
    | some lk =>
      simp only at hrun
      cases hlf : lfind st.lookup lk with
      | none =>
        simp only [hlf] at hrun
        cases hrec : rec (propGet props k) st with
        | none => rw [hrec] at hrun; cases hrun
        | some res =>
          cases res with
          | error c => simp only [hrec] at hrun; cases hrun
          | ok st2 =>
            simp only [hrec] at hrun
            exact ih props st2 r hrun (hr _ st st2 hrec hok)
      | some e =>
        simp only [hlf] at hrun
        cases hrec : rec (propGet props k)
            { st with lookup := lupdate st.lookup lk { e with keys := addKey e.keys k } } with
        | none => rw [hrec] at hrun; cases hrun
        | some res =>
          cases res with
          | error c => simp only [hrec] at hrun; cases hrun
          | ok st2 =>
            simp only [hrec] at hrun
            exact ih props st2 r hrun (hr _ _ st2 hrec hok)

theorem buildFormerArray_StoreOK (rec : BuildRec)
    (hr : ∀ v st r, rec v st = some (.ok r) → StoreOK st.dstore → StoreOK r.dstore)
    (a : Addr) (tok : Option Token) (elems : List Value) (st r : LState)
    (hrun : buildFormerArrayLookupTree rec a tok elems st = some (.ok r))
    (hok : StoreOK st.dstore) : StoreOK r.dstore := by
  rw [buildFormerArrayLookupTree] at hrun
  cases hlf : lfind st.lookup (lookupKeyFormer tok) with
  | none =>
    simp only [hlf] at hrun
    exact buildElems_StoreOK rec hr 0 elems _ r hrun (hok.set_ok flagOK_default_arr)
  | some e =>
    simp only [hlf] at hrun
    cases he : e.former with
    | some b =>
      simp only [he] at hrun
      by_cases hba : b ≠ a
      · rw [if_pos hba] at hrun; cases hrun
      · rw [if_neg hba] at hrun
        cases hrun
        exact hok
    | none =>
      simp only [he] at hrun
      exact buildElems_StoreOK rec hr 0 elems _ r hrun hok

theorem buildFormerObject_StoreOK (rec : BuildRec)
    (hr : ∀ v st r, rec v st = some (.ok r) → StoreOK st.dstore → StoreOK r.dstore)
    (a : Addr) (tok : Option Token) (props : List (String × Value)) (st r : LState)
    (hrun : buildFormerObjectLookupTree rec a tok props st = some (.ok r))
    (hok : StoreOK st.dstore) : StoreOK r.dstore := by
  rw [buildFormerObjectLookupTree] at hrun
  cases hlf : lfind st.lookup (lookupKeyFormer tok) with
  | none =>
    simp only [hlf] at hrun
    exact buildProps_StoreOK rec hr none _ props _ r hrun (hok.set_ok flagOK_default_obj)
  | some e =>
    simp only [hlf] at hrun
    cases he : e.former with
    | some b =>
      simp only [he] at hrun
      by_cases hba : b ≠ a
      · rw [if_pos hba] at hrun; cases hrun
      · rw [if_neg hba] at hrun
        cases hrun
        exact hok
    | none =>
      simp only [he] at hrun
      exact buildProps_StoreOK rec hr _ _ props _ r hrun hok

theorem buildPresentArray_StoreOK (rec : BuildRec)
    (hr : ∀ v st r, rec v st = some (.ok r) → StoreOK st.dstore → StoreOK r.dstore)
    (a : Addr) (tok : Option Token) (elems : List Value) (st r : LState)
    (hrun : buildPresentArrayLookupTree rec a tok elems st = some (.ok r))
    (hok : StoreOK st.dstore) : StoreOK r.dstore := by
  rw [buildPresentArrayLookupTree] at hrun
  cases hlf : lfind st.lookup (lookupKeyPresent tok a) with
  | none =>
    simp only [hlf] at hrun
    exact buildElems_StoreOK rec hr 0 elems _ r hrun (hok.set_ok flagOK_default_arr)
  | some e =>
    simp only [hlf] at hrun
    cases he : e.present with
    | some b =>
      simp only [he] at hrun
      by_cases hba : b ≠ a
      · rw [if_pos hba] at hrun; cases hrun
      · rw [if_neg hba] at hrun
        cases hrun
        exact hok
    | none =>
      simp only [he] at hrun
      exact buildElems_StoreOK rec hr 0 elems _ r hrun hok

theorem buildPresentObject_StoreOK (rec : BuildRec)
    (hr : ∀ v st r, rec v st = some (.ok r) → StoreOK st.dstore → StoreOK r.dstore)
    (a : Addr) (tok : Option Token) (props : List (String × Value)) (st r : LState)
    (hrun : buildPresentObjectLookupTree rec a tok props st = some (.ok r))
    (hok : StoreOK st.dstore) : StoreOK r.dstore := by
  rw [buildPresentObjectLookupTree] at hrun
  cases hlf : lfind st.lookup (lookupKeyPresent tok a) with
  | none =>
    simp only [hlf] at hrun
    exact buildProps_StoreOK rec hr none _ props _ r hrun (hok.set_ok flagOK_default_obj)
  | some e =>
    simp only [hlf] at hrun
    cases he : e.present with
    | some b =>
      simp only [he] at hrun
      by_cases hba : b ≠ a
      · rw [if_pos hba] at hrun; cases hrun
      · rw [if_neg hba] at hrun
        cases hrun
        exact hok
    | none =>
      simp only [he] at hrun
      exact buildProps_StoreOK rec hr _ _ props _ r hrun hok

theorem buildFormer_StoreOK :
    ∀ fuel h v (st r : LState), buildFormerLookupTree fuel h v st = some (.ok r) →
      StoreOK st.dstore → StoreOK r.dstore := by
  intro fuel
  induction fuel with
  | zero => intro h v st r hrun; simp [buildFormerLookupTree] at hrun
  | succ f ih =>
    intro h v st r hrun hok
    cases v with
    | prim p => simp only [buildFormerLookupTree] at hrun; cases hrun; exact hok
    | fn i => simp only [buildFormerLookupTree] at hrun; cases hrun; exact hok
    | ref a =>
      simp only [buildFormerLookupTree] at hrun
      cases hheap : h a with
      | none => rw [hheap] at hrun; cases hrun
      | some n =>
        simp only [hheap] at hrun
        cases hdat : n.data with
        | vlike d props =>
          simp only [hdat] at hrun
          cases hrun
          exact hok
        | arr elems =>
          simp only [hdat] at hrun
          exact buildFormerArray_StoreOK _ (fun v2 st2 r2 => ih h v2 st2 r2)
            a n.token elems st r hrun hok
        | obj props =>
          simp only [hdat] at hrun
          exact buildFormerObject_StoreOK _ (fun v2 st2 r2 => ih h v2 st2 r2)
            a n.token props st r hrun hok

theorem buildPresent_StoreOK :
    ∀ fuel h v (st r : LState), buildPresentLookupTree fuel h v st = some (.ok r) →
      StoreOK st.dstore → StoreOK r.dstore := by
  intro fuel
  induction fuel with
  | zero => intro h v st r hrun; simp [buildPresentLookupTree] at hrun
  | succ f ih =>
    intro h v st r hrun hok
    cases v with
    | prim p => simp only [buildPresentLookupTree] at hrun; cases hrun; exact hok
    | fn i => simp only [buildPresentLookupTree] at hrun; cases hrun; exact hok
    | ref a =>
      simp only [buildPresentLookupTree] at hrun
      cases hheap : h a with
      | none => rw [hheap] at hrun; cases hrun
      | some n =>
        simp only [hheap] at hrun
        cases hdat : n.data with
        | vlike d props =>
          simp only [hdat] at hrun
          cases hrun
          exact hok
        | arr elems =>
          simp only [hdat] at hrun
          exact buildPresentArray_StoreOK _ (fun v2 st2 r2 => ih h v2 st2 r2)
            a n.token elems st r hrun hok
        | obj props =>
          simp only [hdat] at hrun
          exact buildPresentObject_StoreOK _ (fun v2 st2 r2 => ih h v2 st2 r2)
            a n.token props st r hrun hok

theorem resolveValueOrDiff_dstore (lookup : Lookup) (v : Value) (bst : BindSt)
    (r : RVal × BindSt) (hrun : resolveValueOrDiff lookup v bst = some r) :
    r.2.dstore = bst.dstore := by
  cases v with
  | fn i => simp only [resolveValueOrDiff] at hrun; cases hrun; rfl
  | prim p =>
    cases p <;> simp only [resolveValueOrDiff] at hrun <;> cases hrun <;> rfl
  | ref a =>
    simp only [resolveValueOrDiff] at hrun
    cases hh : bst.heap a with
    | none => rw [hh] at hrun; cases hrun
    | some n =>
      simp only [hh] at hrun
      cases ht : n.token with
      | some t =>
        simp only [ht] at hrun
        cases hlf : lfind lookup (.tok t) with
        | none => rw [hlf] at hrun; cases hrun
        | some e => simp only [hlf] at hrun; cases hrun; rfl
      | none =>
        simp only [ht] at hrun
        cases hlf : lfind lookup (.addr a) with
        | some e => simp only [hlf] at hrun; cases hrun; rfl
        | none =>
          simp only [hlf] at hrun
          cases hdat : n.data with
          | vlike d props => simp only [hdat] at hrun; cases hrun; rfl
          | obj props => simp only [hdat] at hrun; cases hrun; rfl
          | arr elems => simp only [hdat] at hrun; cases hrun; rfl

theorem mkPropertyDiff_dstore (vleq : VLData → VLData → Bool) (lookup : Lookup)
    (ef ep : Option Addr) (fv pv : Value) (bst : BindSt)
    (r : PropD × Bool × BindSt)
    (hrun : mkPropertyDiff vleq lookup ef ep fv pv bst = some r) :
    r.2.2.dstore = bst.dstore ∧ ((ef = none ∨ ep = none) → r.2.1 = false) := by
  cases ep with
  | none =>
    simp only [mkPropertyDiff] at hrun
    cases hr : resolveValueOrDiff lookup fv bst with
    | none => rw [hr] at hrun; cases hrun
    | some r1 =>
      obtain ⟨rf, b1⟩ := r1
      simp only [hr] at hrun
      cases hrun
      exact ⟨resolveValueOrDiff_dstore lookup fv bst _ hr, fun _ => rfl⟩
  | some pa =>
    cases ef with
    | none =>
      simp only [mkPropertyDiff] at hrun
      cases hr : resolveValueOrDiff lookup pv bst with
      | none => rw [hr] at hrun; cases hrun
      | some r1 =>
        obtain ⟨rv, b1⟩ := r1
        simp only [hr] at hrun
        cases hrun
        exact ⟨resolveValueOrDiff_dstore lookup pv bst _ hr, fun _ => rfl⟩
    | some fa =>
      simp only [mkPropertyDiff] at hrun
      cases hr1 : resolveValueOrDiff lookup pv bst with
      | none => rw [hr1] at hrun; cases hrun
      | some r1 =>
        obtain ⟨rv, b1⟩ := r1
        simp only [hr1] at hrun
        cases hr2 : resolveValueOrDiff lookup fv b1 with
        | none => rw [hr2] at hrun; cases hrun
        | some r2 =>
          obtain ⟨rf, b2⟩ := r2
          simp only [hr2] at hrun
          have hds : b2.dstore = bst.dstore := by
            rw [resolveValueOrDiff_dstore lookup fv b1 _ hr2,
              resolveValueOrDiff_dstore lookup pv bst _ hr1]
          split at hrun
          · cases hrun
            exact ⟨hds, fun h => by rcases h with h | h <;> cases h⟩
          · cases hrun
            exact ⟨hds, fun h => by rcases h with h | h <;> cases h⟩

/-- The property fold of `bindObjectDiff` leaves the diff store untouched
and never raises the changed flag for a one-sided entry. -/
theorem bindObjectDiff_fold (vleq : VLData → VLData → Bool) (lookup : Lookup)
    (e : Entry) :
    ∀ (ks : List String) (acc out : List (String × PropD) × Bool × BindSt),
      ks.foldlM (bindPropsStep vleq lookup e) acc = .ok out →
      out.2.2.dstore = acc.2.2.dstore ∧
      ((e.former = none ∨ e.present = none) → acc.2.1 = false → out.2.1 = false) := by
  intro ks
  induction ks with
  | nil =>
    intro acc out hrun
    cases hrun
    exact ⟨rfl, fun _ h => h⟩
  | cons k ks ih =>
    intro acc out hrun
    rw [List.foldlM_cons] at hrun
    rw [show bindPropsStep vleq lookup e acc k =
      (if isFnV (propGetAddr acc.2.2.heap e.former k) ||
          isFnV (propGetAddr acc.2.2.heap e.present k) then Except.ok acc
       else
         match mkPropertyDiff vleq lookup e.former e.present
             (propGetAddr acc.2.2.heap e.former k)
             (propGetAddr acc.2.2.heap e.present k) acc.2.2 with
         | none => Except.error DiffErr.typeErr
         | some (pd, chg2, b1) =>
           if reservedGetterKeys.contains k then Except.error DiffErr.typeErr
           else Except.ok (pupsert acc.1 k pd, acc.2.1 || chg2, b1)) from rfl] at hrun
    by_cases hfn : isFnV (propGetAddr acc.2.2.heap e.former k) ||
        isFnV (propGetAddr acc.2.2.heap e.present k)
    · rw [if_pos hfn] at hrun
      exact ih acc out hrun
    · rw [if_neg hfn] at hrun
      cases hmk : mkPropertyDiff vleq lookup e.former e.present
          (propGetAddr acc.2.2.heap e.former k)
          (propGetAddr acc.2.2.heap e.present k) acc.2.2 with
      | none => simp only [hmk] at hrun; cases hrun
      | some r =>
        obtain ⟨pd, chg2, b1⟩ := r
        simp only [hmk] at hrun
        by_cases hres : reservedGetterKeys.contains k
        · rw [if_pos hres] at hrun; cases hrun
        · rw [if_neg hres] at hrun
          have hstep := mkPropertyDiff_dstore vleq lookup e.former e.present _ _ _ _ hmk
          have hrest := ih _ out hrun
          refine ⟨hrest.1.trans hstep.1, fun hone hacc => ?_⟩
          refine hrest.2 hone ?_
          have hc2 : chg2 = false := hstep.2 hone
          simp [hacc, hc2]

theorem bindObjectCore_StoreOK (vleq : VLData → VLData → Bool) (lookup : Lookup)
    (e : Entry) (oid : Option Token) (bst bst' : BindSt)
    (hside : e.former.isSome = true ∨ e.present.isSome = true)
    (hrun : bindObjectCore vleq lookup e oid bst = .ok bst')
    (hok : StoreOK bst.dstore) : StoreOK bst'.dstore := by
  rw [bindObjectCore] at hrun
  cases hfold : e.keys.foldlM (bindPropsStep vleq lookup e)
      (([], false,
        { bst with
            dstore := bst.dstore.set e.diffId
                (DNode.obj oid e.former.isNone e.present.isNone false []) })) with
  | error er => rw [hfold] at hrun; cases hrun
  | ok out =>
    obtain ⟨props, chg, b2⟩ := out
    rw [hfold] at hrun
    cases hrun
    have hinfo := bindObjectDiff_fold vleq lookup e e.keys _ _ hfold
    have hok1 : StoreOK (bst.dstore.set e.diffId
        (DNode.obj oid e.former.isNone e.present.isNone false [])) :=
      hok.set_ok ⟨fun _ => rfl, sided_not_both hside⟩
    have hokb2 : StoreOK b2.dstore := by
      intro d2 dn2 hd2
      rw [hinfo.1] at hd2
      exact hok1 d2 dn2 hd2
    refine hokb2.set_ok ⟨fun hcd => ?_, sided_not_both hside⟩
    show chg = false
    rcases hcd with hc | hd
    · have hf : e.former = none := by
        cases hf : e.former with
        | none => rfl
        | some x =>
          rw [hf] at hc
          simp [DNode.isCreatedOf, Option.isNone] at hc
      exact hinfo.2 (Or.inl hf) rfl
    · have hp : e.present = none := by
        cases hp : e.present with
        | none => rfl
        | some x =>
          rw [hp] at hd
          simp [DNode.isDeletedOf, Option.isNone] at hd
      exact hinfo.2 (Or.inr hp) rfl

theorem bindObjectDiff_StoreOK (vleq : VLData → VLData → Bool) (lookup : Lookup)
    (e : Entry) (bst bst' : BindSt)
    (hside : e.former.isSome = true ∨ e.present.isSome = true)
    (hrun : bindObjectDiff vleq lookup e bst = .ok bst')
    (hok : StoreOK bst.dstore) : StoreOK bst'.dstore := by
  rw [bindObjectDiff] at hrun
  cases hds : bst.dstore e.diffId with
  | none => rw [hds] at hrun; cases hrun
  | some dn =>
    simp only [hds] at hrun
    exact bindObjectCore_StoreOK vleq lookup e _ bst bst' hside hrun hok

theorem scanPresentItems_dstore (lookup : Lookup) :
    ∀ vs m (b : BindSt) r, scanPresentItems lookup vs m b = some r →
      r.2.dstore = b.dstore := by
  intro vs
  induction vs with
  | nil =>
    intro m b r hrun
    simp only [scanPresentItems] at hrun
    cases hrun
    rfl
  | cons v vs ih =>
    intro m b r hrun
    cases v with
    | fn i =>
      simp only [scanPresentItems] at hrun
      exact ih m b r hrun
    | prim p =>
      simp only [scanPresentItems] at hrun
      cases hr : resolveValueOrDiff lookup (.prim p) b with
      | none => rw [hr] at hrun; cases hrun
      | some r1 =>
        obtain ⟨rv, b1⟩ := r1
        simp only [hr] at hrun
        exact (ih _ b1 r hrun).trans (resolveValueOrDiff_dstore lookup _ b _ hr)
    | ref a =>
      simp only [scanPresentItems] at hrun
      cases hr : resolveValueOrDiff lookup (.ref a) b with
      | none => rw [hr] at hrun; cases hrun
      | some r1 =>
        obtain ⟨rv, b1⟩ := r1
        simp only [hr] at hrun
        exact (ih _ b1 r hrun).trans (resolveValueOrDiff_dstore lookup _ b _ hr)

theorem scanFormerItems_dstore (lookup : Lookup) :
    ∀ vs m (b : BindSt) r, scanFormerItems lookup vs m b = some r →
      r.2.dstore = b.dstore := by
  intro vs
  induction vs with
  | nil =>
    intro m b r hrun
    simp only [scanFormerItems] at hrun
    cases hrun
    rfl
  | cons v vs ih =>
    intro m b r hrun
    simp only [scanFormerItems] at hrun
    cases hr : resolveValueOrDiff lookup v b with
    | none => rw [hr] at hrun; cases hrun
    | some r1 =>
      obtain ⟨rv, b1⟩ := r1
      simp only [hr] at hrun
      exact (ih _ b1 r hrun).trans (resolveValueOrDiff_dstore lookup v b _ hr)

theorem resolveItems_dstore (lookup : Lookup) (skipFns : Bool) :
    ∀ vs (b : BindSt) r, resolveItems lookup skipFns vs b = some r →
      r.2.dstore = b.dstore := by
  intro vs
  induction vs with
  | nil =>
    intro b r hrun
    simp only [resolveItems] at hrun
    cases hrun
    rfl
  | cons v vs ih =>
    intro b r hrun
    simp only [resolveItems] at hrun
    by_cases hf : skipFns && isFnV v
    · rw [if_pos hf] at hrun
      exact ih b r hrun
    · rw [if_neg hf] at hrun
      cases hr : resolveValueOrDiff lookup v b with
      | none => rw [hr] at hrun; cases hrun
      | some r1 =>
        obtain ⟨rv, b1⟩ := r1
        simp only [hr] at hrun
        cases hrest : resolveItems lookup skipFns vs b1 with
        | none => rw [hrest] at hrun; cases hrun
        | some r2 =>
          obtain ⟨rs, b2⟩ := r2
          simp only [hrest] at hrun
          cases hrun
          exact (ih b1 _ hrest).trans (resolveValueOrDiff_dstore lookup v b _ hr)

/-- Writing a node into a store known equal to a good one. -/
theorem StoreOK.set_eq_ok {ds ds2 : DStore} (hok : StoreOK ds) (heq : ds2 = ds)
    {d : Nat} {dn : DNode} (hdn : flagOK dn) : StoreOK (ds2.set d dn) :=
  heq ▸ hok.set_ok hdn

theorem bindArrayDiff_StoreOK (vleq : VLData → VLData → Bool) (lookup : Lookup)
    (e : Entry) (bst bst' : BindSt)
    (hrun : bindArrayDiff vleq lookup e bst = .ok bst')
    (hok : StoreOK bst.dstore) : StoreOK bst'.dstore := by
  obtain ⟨ef, ep, eks, edid⟩ := e
  rw [bindArrayDiff] at hrun
  cases hds : bst.dstore edid with
  | none => rw [hds] at hrun; cases hrun
  | some dn0 =>
    simp only [hds] at hrun
    cases ef with
    | none =>
      cases ep with
      | none => simp only at hrun; cases hrun
      | some pa =>
        simp only at hrun
        cases hae : arrElems bst.heap pa with
        | none => rw [hae] at hrun; cases hrun
        | some elems =>
          simp only [hae] at hrun
          cases hri : resolveItems lookup true elems bst with
          | none => rw [hri] at hrun; cases hrun
          | some r1 =>
            obtain ⟨oth, b1⟩ := r1
            simp only [hri] at hrun
            cases hrun
            exact hok.set_eq_ok (resolveItems_dstore lookup true elems bst _ hri)
              ⟨fun _ => rfl, fun h => Bool.noConfusion h.2⟩
    | some fa =>
      cases ep with
      | none =>
        simp only at hrun
        cases hae : arrElems bst.heap fa with
        | none => rw [hae] at hrun; cases hrun
        | some elems =>
          simp only [hae] at hrun
          cases hri : resolveItems lookup false elems bst with
          | none => rw [hri] at hrun; cases hrun
          | some r1 =>
            obtain ⟨oth, b1⟩ := r1
            simp only [hri] at hrun
            cases hrun
            exact hok.set_eq_ok (resolveItems_dstore lookup false elems bst _ hri)
              ⟨fun _ => rfl, fun h => Bool.noConfusion h.1⟩
      | some pa =>
        simp only at hrun
        cases haf : arrElems bst.heap fa with
        | none => simp only [haf] at hrun; cases hrun
        | some fEl =>
          simp only [haf] at hrun
          cases hap : arrElems bst.heap pa with
          | none => simp only [hap] at hrun; cases hrun
          | some pEl =>
            simp only [hap] at hrun
            cases hs1 : scanPresentItems lookup pEl [] bst with
            | none => rw [hs1] at hrun; cases hrun
            | some r1 =>
              obtain ⟨m1, b1⟩ := r1
              simp only [hs1] at hrun
              cases hs2 : scanFormerItems lookup fEl m1 b1 with
              | none => rw [hs2] at hrun; cases hrun
              | some r2 =>
                obtain ⟨m2, b2⟩ := r2
                simp only [hs2] at hrun
                cases hrun
                have hds2 : b2.dstore = bst.dstore :=
                  (scanFormerItems_dstore lookup fEl m1 b1 _ hs2).trans
                    (scanPresentItems_dstore lookup pEl [] bst _ hs1)
                exact hok.set_eq_ok hds2
                  ⟨fun h => by rcases h with h | h <;> exact Bool.noConfusion h,
                   fun h => Bool.noConfusion h.1⟩

theorem bindEntry_StoreOK (vleq : VLData → VLData → Bool) (lookup : Lookup)
    (e : Entry) (bst bst' : BindSt)
    (hside : e.former.isSome = true ∨ e.present.isSome = true)
    (hrun : bindEntry vleq lookup e bst = .ok bst')
    (hok : StoreOK bst.dstore) : StoreOK bst'.dstore := by
  rw [bindEntry] at hrun
  cases hf : e.former with
  | some a =>
    simp only [hf] at hrun
    cases hh : bst.heap a with
    | none => rw [hh] at hrun; cases hrun
    | some n =>
      simp only [hh] at hrun
      cases hd : n.data with
      | arr elems =>
        simp only [hd] at hrun
        exact bindArrayDiff_StoreOK vleq lookup e bst bst' hrun hok
      | obj props =>
        simp only [hd] at hrun
        exact bindObjectDiff_StoreOK vleq lookup e bst bst' hside hrun hok
      | vlike d2 props =>
        simp only [hd] at hrun
        exact bindObjectDiff_StoreOK vleq lookup e bst bst' hside hrun hok
  | none =>
    simp only [hf] at hrun
    cases hp : e.present with
    | none =>
      exfalso
      rcases hside with h | h
      · rw [hf] at h; cases h
      · rw [hp] at h; cases h
    | some ca =>
      simp only [hp] at hrun
      cases hh : bst.heap ca with
      | none => rw [hh] at hrun; cases hrun
      | some n =>
        simp only [hh] at hrun
        cases hd : n.data with
        | arr elems =>
          simp only [hd] at hrun
          exact bindArrayDiff_StoreOK vleq lookup e bst bst' hrun hok
        | obj props =>
          simp only [hd] at hrun
          exact bindObjectDiff_StoreOK vleq lookup e bst bst' hside hrun hok
        | vlike d2 props =>
          simp only [hd] at hrun
          exact bindObjectDiff_StoreOK vleq lookup e bst bst' hside hrun hok

theorem bindAll_StoreOK (vleq : VLData → VLData → Bool) (lookup : Lookup) :
    ∀ (l : List (LKey × Entry)) (bst bst' : BindSt),
      (∀ p, p ∈ l → (p.2.former.isSome = true ∨ p.2.present.isSome = true)) →
      bindAll vleq lookup l bst = .ok bst' →
      StoreOK bst.dstore → StoreOK bst'.dstore := by
  intro l
  induction l with
  | nil =>
    intro bst bst' _ hrun hok
    simp only [bindAll] at hrun
    cases hrun
    exact hok
  | cons p rest ih =>
    intro bst bst' hside hrun hok
    obtain ⟨k, e⟩ := p
    simp only [bindAll] at hrun
    cases hbe : bindEntry vleq lookup e bst with
    | error er => rw [hbe] at hrun; cases hrun
    | ok b2 =>
      simp only [hbe] at hrun
      exact ih b2 bst' (fun q hq => hside q (List.mem_cons_of_mem _ hq)) hrun
        (bindEntry_StoreOK vleq lookup e bst b2
          (hside (k, e) (List.mem_cons_self _ _)) hbe hok)

/-- Every entry of the lookup map records at least one side (the build
traversals create entries only when visiting a former or a present node). -/
def LookupSided (l : Lookup) : Prop :=
  ∀ p, p ∈ l → (p.2.former.isSome = true ∨ p.2.present.isSome = true)

theorem lfind_sided : ∀ (l : Lookup), LookupSided l → ∀ k e, lfind l k = some e →
    e.former.isSome = true ∨ e.present.isSome = true := by
  intro l
  induction l with
  | nil => intro _ k e hfind; cases hfind
  | cons p rest ih =>
    intro hl k e hfind
    obtain ⟨k2, e2⟩ := p
    simp only [lfind] at hfind
    by_cases hk : k = k2
    · rw [if_pos hk] at hfind
      cases hfind
      exact hl (k2, e) (List.mem_cons_self _ _)
    · rw [if_neg hk] at hfind
      exact ih (fun q hq => hl q (List.mem_cons_of_mem _ hq)) k e hfind

theorem lupdate_sided : ∀ (l : Lookup), LookupSided l → ∀ k (e : Entry),
    (e.former.isSome = true ∨ e.present.isSome = true) →
    LookupSided (lupdate l k e) := by
  intro l
  induction l with
  | nil =>
    intro _ k e _ q hq
    simp only [lupdate] at hq
    cases hq
  | cons p rest ih =>
    intro hl k e he
    obtain ⟨k2, e2⟩ := p
    intro q hq
    simp only [lupdate] at hq
    by_cases hk : k = k2
    · rw [if_pos hk] at hq
      rcases List.mem_cons.mp hq with h | h
      · subst h
        exact he
      · exact hl q (List.mem_cons_of_mem _ h)
    · rw [if_neg hk] at hq
      rcases List.mem_cons.mp hq with h | h
      · subst h
        exact hl (k2, e2) (List.mem_cons_self _ _)
      · exact ih (fun q2 hq2 => hl q2 (List.mem_cons_of_mem _ hq2)) k e he q h

theorem append_sided {l : Lookup} (hl : LookupSided l) {k : LKey} {e : Entry}
    (he : e.former.isSome = true ∨ e.present.isSome = true) :
    LookupSided (l ++ [(k, e)]) := by
  intro q hq
  rcases List.mem_append.mp hq with h | h
  · exact hl q h
  · rcases List.mem_singleton.mp h with rfl
    exact he

theorem buildElems_Sided (rec : BuildRec)
    (hr : ∀ v st r, rec v st = some (.ok r) → LookupSided st.lookup → LookupSided r.lookup) :
    ∀ i vs (st r : LState), buildElems rec i vs st = some (.ok r) →
      LookupSided st.lookup → LookupSided r.lookup := by
  intro i vs
  induction vs generalizing i with
  | nil =>
    intro st r hrun hok
    simp only [buildElems] at hrun
    cases hrun
    exact hok
  | cons v vs ih =>
    intro st r hrun hok
    simp only [buildElems] at hrun
    cases hrec : rec v st with
    | none => rw [hrec] at hrun; cases hrun
    | some res =>
      cases res with
      | error c => simp only [hrec] at hrun; cases hrun
      | ok st2 =>
        simp only [hrec] at hrun
        exact ih (i + 1) st2 r hrun (hr v st st2 hrec hok)

theorem buildProps_Sided (rec : BuildRec)
    (hr : ∀ v st r, rec v st = some (.ok r) → LookupSided st.lookup → LookupSided r.lookup) :
    ∀ accKey ks props (st r : LState),
      buildProps rec accKey ks props st = some (.ok r) →
      LookupSided st.lookup → LookupSided r.lookup := by
  intro accKey ks
  induction ks with
  | nil =>
    intro props st r hrun hok
    simp only [buildProps] at hrun
    cases hrun
    exact hok
  | cons k ks ih =>
    intro props st r hrun hok
    simp only [buildProps] at hrun
    cases accKey with
    | none =>
      simp only at hrun
      cases hrec : rec (propGet props k) st with
      | none => rw [hrec] at hrun; cases hrun
      | some res =>
        cases res with
        | error c => simp only [hrec] at hrun; cases hrun
        | ok st2 =>
          simp only [hrec] at hrun
          exact ih props st2 r hrun (hr _ st st2 hrec hok)
    | some lk =>
      simp only at hrun
      cases hlf : lfind st.lookup lk with
      | none =>
        simp only [hlf] at hrun
        cases hrec : rec (propGet props k) st with
        | none => rw [hrec] at hrun; cases hrun
        | some res =>
          cases res with
          | error c => simp only [hrec] at hrun; cases hrun
          | ok st2 =>
            simp only [hrec] at hrun
            exact ih props st2 r hrun (hr _ st st2 hrec hok)
      | some e =>
        simp only [hlf] at hrun
        cases hrec : rec (propGet props k)
            { st with lookup := lupdate st.lookup lk { e with keys := addKey e.keys k } } with
        | none => rw [hrec] at hrun; cases hrun
        | some res =>
          cases res with
          | error c => simp only [hrec] at hrun; cases hrun
          | ok st2 =>
            simp only [hrec] at hrun
            have hmid : LookupSided (lupdate st.lookup lk { e with keys := addKey e.keys k }) :=
              lupdate_sided st.lookup hok lk _ (lfind_sided st.lookup hok lk e hlf)
            exact ih props st2 r hrun (hr _ _ st2 hrec hmid)

theorem buildFormerArray_Sided (rec : BuildRec)
    (hr : ∀ v st r, rec v st = some (.ok r) → LookupSided st.lookup → LookupSided r.lookup)
    (a : Addr) (tok : Option Token) (elems : List Value) (st r : LState)
    (hrun : buildFormerArrayLookupTree rec a tok elems st = some (.ok r))
    (hok : LookupSided st.lookup) : LookupSided r.lookup := by
  rw [buildFormerArrayLookupTree] at hrun
  cases hlf : lfind st.lookup (lookupKeyFormer tok) with
  | none =>
    simp only [hlf] at hrun
    exact buildElems_Sided rec hr 0 elems _ r hrun (append_sided hok (Or.inl rfl))
  | some e =>
    simp only [hlf] at hrun
    cases he : e.former with
    | some b =>
      simp only [he] at hrun
      by_cases hba : b ≠ a
      · rw [if_pos hba] at hrun; cases hrun
      · rw [if_neg hba] at hrun
        cases hrun
        exact hok
    | none =>
      simp only [he] at hrun
      exact buildElems_Sided rec hr 0 elems _ r hrun
        (lupdate_sided st.lookup hok _ _ (Or.inl rfl))

theorem buildFormerObject_Sided (rec : BuildRec)
    (hr : ∀ v st r, rec v st = some (.ok r) → LookupSided st.lookup → LookupSided r.lookup)
    (a : Addr) (tok : Option Token) (props : List (String × Value)) (st r : LState)
    (hrun : buildFormerObjectLookupTree rec a tok props st = some (.ok r))
    (hok : LookupSided st.lookup) : LookupSided r.lookup := by
  rw [buildFormerObjectLookupTree] at hrun
  cases hlf : lfind st.lookup (lookupKeyFormer tok) with
  | none =>
    simp only [hlf] at hrun
    exact buildProps_Sided rec hr none _ props _ r hrun (append_sided hok (Or.inl rfl))
  | some e =>
    simp only [hlf] at hrun
    cases he : e.former with
    | some b =>
      simp only [he] at hrun
      by_cases hba : b ≠ a
      · rw [if_pos hba] at hrun; cases hrun
      · rw [if_neg hba] at hrun
        cases hrun
        exact hok
    | none =>
      simp only [he] at hrun
      exact buildProps_Sided rec hr _ _ props _ r hrun
        (lupdate_sided st.lookup hok _ _ (Or.inl rfl))

theorem buildPresentArray_Sided (rec : BuildRec)
    (hr : ∀ v st r, rec v st = some (.ok r) → LookupSided st.lookup → LookupSided r.lookup)
    (a : Addr) (tok : Option Token) (elems : List Value) (st r : LState)
    (hrun : buildPresentArrayLookupTree rec a tok elems st = some (.ok r))
    (hok : LookupSided st.lookup) : LookupSided r.lookup := by
  rw [buildPresentArrayLookupTree] at hrun
  cases hlf : lfind st.lookup (lookupKeyPresent tok a) with
  | none =>
    simp only [hlf] at hrun
    exact buildElems_Sided rec hr 0 elems _ r hrun (append_sided hok (Or.inr rfl))
  | some e =>
    simp only [hlf] at hrun
    cases he : e.present with
    | some b =>
      simp only [he] at hrun
      by_cases hba : b ≠ a
      · rw [if_pos hba] at hrun; cases hrun
      · rw [if_neg hba] at hrun
        cases hrun
        exact hok
    | none =>
      simp only [he] at hrun
      exact buildElems_Sided rec hr 0 elems _ r hrun
        (lupdate_sided st.lookup hok _ _ (Or.inr rfl))

theorem buildPresentObject_Sided (rec : BuildRec)
    (hr : ∀ v st r, rec v st = some (.ok r) → LookupSided st.lookup → LookupSided r.lookup)
    (a : Addr) (tok : Option Token) (props : List (String × Value)) (st r : LState)
    (hrun : buildPresentObjectLookupTree rec a tok props st = some (.ok r))
    (hok : LookupSided st.lookup) : LookupSided r.lookup := by
  rw [buildPresentObjectLookupTree] at hrun
  cases hlf : lfind st.lookup (lookupKeyPresent tok a) with
  | none =>
    simp only [hlf] at hrun
    exact buildProps_Sided rec hr none _ props _ r hrun (append_sided hok (Or.inr rfl))
  | some e =>
    simp only [hlf] at hrun
    cases he : e.present with
    | some b =>
      simp only [he] at hrun
      by_cases hba : b ≠ a
      · rw [if_pos hba] at hrun; cases hrun
      · rw [if_neg hba] at hrun
        cases hrun
        exact hok
    | none =>
      simp only [he] at hrun
      exact buildProps_Sided rec hr _ _ props _ r hrun
        (lupdate_sided st.lookup hok _ _ (Or.inr rfl))

theorem buildFormer_Sided :
    ∀ fuel h v (st r : LState), buildFormerLookupTree fuel h v st = some (.ok r) →
      LookupSided st.lookup → LookupSided r.lookup := by
  intro fuel
  induction fuel with
  | zero => intro h v st r hrun; simp [buildFormerLookupTree] at hrun
  | succ f ih =>
    intro h v st r hrun hok
    cases v with
    | prim p => simp only [buildFormerLookupTree] at hrun; cases hrun; exact hok
    | fn i => simp only [buildFormerLookupTree] at hrun; cases hrun; exact hok
    | ref a =>
      simp only [buildFormerLookupTree] at hrun
      cases hheap : h a with
      | none => rw [hheap] at hrun; cases hrun
      | some n =>
        simp only [hheap] at hrun
        cases hdat : n.data with
        | vlike d props =>
          simp only [hdat] at hrun
          cases hrun
          exact hok
        | arr elems =>
          simp only [hdat] at hrun
          exact buildFormerArray_Sided _ (fun v2 st2 r2 => ih h v2 st2 r2)
            a n.token elems st r hrun hok
        | obj props =>
          simp only [hdat] at hrun
          exact buildFormerObject_Sided _ (fun v2 st2 r2 => ih h v2 st2 r2)
            a n.token props st r hrun hok

theorem buildPresent_Sided :
    ∀ fuel h v (st r : LState), buildPresentLookupTree fuel h v st = some (.ok r) →
      LookupSided st.lookup → LookupSided r.lookup := by
  intro fuel
  induction fuel with
  | zero => intro h v st r hrun; simp [buildPresentLookupTree] at hrun
  | succ f ih =>
    intro h v st r hrun hok
    cases v with
    | prim p => simp only [buildPresentLookupTree] at hrun; cases hrun; exact hok
    | fn i => simp only [buildPresentLookupTree] at hrun; cases hrun; exact hok
    | ref a =>
      simp only [buildPresentLookupTree] at hrun
      cases hheap : h a with
      | none => rw [hheap] at hrun; cases hrun
      | some n =>
        simp only [hheap] at hrun
        cases hdat : n.data with
        | vlike d props =>
          simp only [hdat] at hrun
          cases hrun
          exact hok
        | arr elems =>
          simp only [hdat] at hrun
          exact buildPresentArray_Sided _ (fun v2 st2 r2 => ih h v2 st2 r2)
            a n.token elems st r hrun hok
        | obj props =>
          simp only [hdat] at hrun
          exact buildPresentObject_Sided _ (fun v2 st2 r2 => ih h v2 st2 r2)
            a n.token props st r hrun hok

/-- A successful `buildLookupTree` run preserves both the sidedness of the
lookup entries and the flag discipline of the diff store. -/
theorem buildLookupTree_ok (fuel : Nat) (h : Heap) (froot proot : Value)
    (st r : LState) (hrun : buildLookupTree fuel h froot proot st = some (.ok r)) :
    (LookupSided st.lookup → LookupSided r.lookup) ∧
    (StoreOK st.dstore → StoreOK r.dstore) := by
  rw [buildLookupTree] at hrun
  cases h1 : buildFormerLookupTree fuel h froot st with
  | none => rw [h1] at hrun; cases hrun
  | some res1 =>
    cases res1 with
    | error c =>
      simp only [h1] at hrun
      cases h2 : findPath fuel h froot c.left [] with
      | none => rw [h2] at hrun; cases hrun
      | some lp =>
        obtain ⟨lp1, sn⟩ := lp
        simp only [h2] at hrun
        cases hrun
    | ok st1 =>
      simp only [h1] at hrun
      cases h3 : buildPresentLookupTree fuel h proot st1 with
      | none => rw [h3] at hrun; cases hrun
      | some res2 =>
        cases res2 with
        | error c =>
          simp only [h3] at hrun
          cases h4 : findPath fuel h proot c.left [] with
          | none => rw [h4] at hrun; cases hrun
          | some lp =>
            obtain ⟨lp1, sn⟩ := lp
            simp only [h4] at hrun
            cases hrun
        | ok st2 =>
          simp only [h3] at hrun
          cases hrun
          refine ⟨fun hs => ?_, fun hd => ?_⟩
          · exact buildPresent_Sided fuel h proot st1 r h3
              (buildFormer_Sided fuel h froot st st1 h1 hs)
          · exact buildPresent_StoreOK fuel h proot st1 r h3
              (buildFormer_StoreOK fuel h froot st st1 h1 hd)

/-- C4 (amended): `$unwrap(Era.Present)` always carries the diff node's
identity token onto the reconstructed object or array; `$unwrap(Era.Former)`
carries it onto arrays, but onto objects only when at least one enumerated
property diff remains — the former unwrap assigns the token inside the
property loop, so a property-less object diff loses it. -/
theorem claim_C4_unwrap_token_amended (fuel : Nat) (ds : DStore) (d : Nat)
    (dn : DNode) (h : Heap) (next : Addr) (hds : ds d = some dn) :
    (∀ p, unwrapPresent (fuel + 1) ds d h next = some p →
      ∃ n', p.1 = .ref next ∧ p.2.heap next = some n' ∧
        n'.token = dn.objectIdOf) ∧
    (∀ q, unwrapFormer (fuel + 1) ds d h next = some q →
      ∃ n', q.1 = .ref next ∧ q.2.heap next = some n' ∧
        n'.token = (match dn with
          | .arr _ _ _ _ _ _ _ => dn.objectIdOf
          | .obj _ _ _ _ props =>
            if (props.filter (fun kp => !(reservedDiffKeys.contains kp.1))).isEmpty
            then none else dn.objectIdOf)) := by
  constructor
  · intro p hrun
    rw [unwrapPresent] at hrun
    simp only [uwPresentD, List.lookup, hds] at hrun
    cases dn with
    | arr oid c del ch ins dl oth =>
      simp only at hrun
      cases h1 : uwList (uwPresentD fuel ds) oth
          ⟨h, next + 1, [(d, next)]⟩ with
      | none => rw [h1] at hrun; cases hrun
      | some r1 =>
        obtain ⟨e1, ust2⟩ := r1
        simp only [h1] at hrun
        cases h2 : uwList (uwPresentD fuel ds) ins ust2 with
        | none => rw [h2] at hrun; cases hrun
        | some r2 =>
          obtain ⟨e2, ust3⟩ := r2
          simp only [h2] at hrun
          cases hrun
          exact ⟨_, rfl, Heap.set_same _ _ _, rfl⟩
    | obj oid c del ch props =>
      simp only at hrun
      cases h1 : uwPresentProps (uwPresentD fuel ds)
          (props.filter (fun kp => !(reservedDiffKeys.contains kp.1)))
          ⟨h, next + 1, [(d, next)]⟩ with
      | none => rw [h1] at hrun; cases hrun
      | some r1 =>
        obtain ⟨props2, ust2⟩ := r1
        simp only [h1] at hrun
        cases hrun
        exact ⟨_, rfl, Heap.set_same _ _ _, rfl⟩
  · intro q hrun
    rw [unwrapFormer] at hrun
    simp only [uwFormerD, List.lookup, hds] at hrun
    cases dn with
    | arr oid c del ch ins dl oth =>
      simp only at hrun
      cases h1 : uwList (uwFormerD fuel ds) oth
          ⟨h, next + 1, [(d, next)]⟩ with
      | none => rw [h1] at hrun; cases hrun
      | some r1 =>
        obtain ⟨e1, ust2⟩ := r1
        simp only [h1] at hrun
        cases h2 : uwList (uwFormerD fuel ds) dl ust2 with
        | none => rw [h2] at hrun; cases hrun
        | some r2 =>
          obtain ⟨e2, ust3⟩ := r2
          simp only [h2] at hrun
          cases hrun
          exact ⟨_, rfl, Heap.set_same _ _ _, rfl⟩
    | obj oid c del ch props =>
      simp only at hrun
      cases h1 : uwFormerProps (uwFormerD fuel ds)
          (props.filter (fun kp => !(reservedDiffKeys.contains kp.1)))
          ⟨h, next + 1, [(d, next)]⟩ with
      | none => rw [h1] at hrun; cases hrun
      | some r1 =>
        obtain ⟨props2, ust2⟩ := r1
        simp only [h1] at hrun
        cases hrun
        exact ⟨_, rfl, Heap.set_same _ _ _, rfl⟩

/-- A model consisting of a single empty object. -/
def c4heap : Heap := fun a => if a = 0 then some ⟨none, .obj []⟩ else none

def c4st : CheckerState := ⟨c4heap, 1, 0⟩

def c4snap : Value × CheckerState :=
  (takeSnapshot 20 (.ref 0) c4st).getD (.prim Prim.undef, c4st)

def defaultBindSt : BindSt := ⟨fun _ => none, 0, fun _ => none⟩

def c4res : Nat × BindSt :=
  match createDiff 20 dateEq c4snap.1 (.ref 0) c4snap.2 with
  | some (.ok r) => r
  | _ => (0, defaultBindSt)

/-- C4 counterexample: snapshot/diff an empty object (its diff carries the
identity token 0), then unwrap the Former era — the reconstructed object
carries no token at all, because `unwrapFormerInternal` only assigns the
token inside its property loop. -/
theorem claim_C4_counterexample :
    createDiff 20 dateEq c4snap.1 (.ref 0) c4snap.2 = some (.ok c4res) ∧
    (c4res.2.dstore c4res.1).map DNode.objectIdOf = some (some 0) ∧
    (unwrapFormer 20 c4res.2.dstore c4res.1 c4res.2.heap c4res.2.next).map
      (fun q => (q.1, (q.2.heap c4res.2.next).map HNode.token)) =
      some (.ref c4res.2.next, some none) := by
  exact ⟨rfl, rfl, rfl⟩

theorem claim_C4_unwrap_token_amended_witness :
    ∃ dn p, c4res.2.dstore c4res.1 = some dn ∧
      unwrapPresent 20 c4res.2.dstore c4res.1 c4res.2.heap c4res.2.next = some p ∧
      ∃ n', p.1 = .ref c4res.2.next ∧ p.2.heap c4res.2.next = some n' ∧
        n'.token = dn.objectIdOf := by
  refine ⟨(c4res.2.dstore c4res.1).getD (.obj none false false false []),
    (unwrapPresent 20 c4res.2.dstore c4res.1 c4res.2.heap c4res.2.next).getD
      (.prim Prim.undef, ⟨c4res.2.heap, c4res.2.next, []⟩), rfl, rfl, ?_⟩
  exact (claim_C4_unwrap_token_amended 19 c4res.2.dstore c4res.1 _
    c4res.2.heap c4res.2.next rfl).1 _ rfl

theorem claim_C6_snapshot_idempotent_witness :
    ∃ tk, c6p2.2.heap 2 = some ⟨tk, .obj [("x", .ref 3), ("n", .prim (.num 7))]⟩ ∧
      ∀ t, (some 0 : Option Token) = some t → tk = some t := by
  have h := claim_C6_snapshot_idempotent 40 40 (.ref 0) c6st c6p1 c6p2
    c6heap_domLT rfl rfl
  have hb : c6p1.2.heap 2 = some ⟨some 0, .obj [("x", .ref 3), ("n", .prim (.num 7))]⟩ := rfl
  exact h.2 2 _ hb

/-- The `$state` readings forced by the flag discipline: the four getter
branches of `ObjectDiffImpl.$state` (Changed, then Created, then Deleted,
then Unchanged) under `flagOK`. -/
theorem flagOK_state {dn : DNode} (hfl : flagOK dn) :
    (stateOf dn = .changed ↔ dn.isChangedOf = true) ∧
    (dn.isCreatedOf = true → stateOf dn = .created) ∧
    (dn.isDeletedOf = true → stateOf dn = .deleted) ∧
    (dn.isCreatedOf = false ∧ dn.isDeletedOf = false ∧ dn.isChangedOf = false →
      stateOf dn = .unchanged) := by
  obtain ⟨himp, hcd⟩ := hfl
  cases dn with
  | obj oid c d ch props =>
    cases c <;> cases d <;> cases ch <;>
      simp_all [stateOf, DNode.isCreatedOf, DNode.isDeletedOf, DNode.isChangedOf]
  | arr oid c d ch ins del oth =>
    cases c <;> cases d <;> cases ch <;>
      simp_all [stateOf, DNode.isCreatedOf, DNode.isDeletedOf, DNode.isChangedOf]

/-- C5: every diff node in the store of a successful `createDiff` obeys the
flag discipline — a Created (no former side) or Deleted (no present side)
node has `isChanged = false`, so its `$state` reads Created resp. Deleted
and never Changed; `$state` is Changed exactly when `isChanged` is true, and
Unchanged when none of the three flags is set. -/
theorem claim_C5_state_flags (fuel : Nat) (vleq : VLData → VLData → Bool)
    (froot proot : Value) (cst : CheckerState) (out : Nat × BindSt)
    (hrun : createDiff fuel vleq froot proot cst = some (.ok out)) :
    ∀ d dn, out.2.dstore d = some dn →
      ((dn.isCreatedOf = true ∨ dn.isDeletedOf = true) → dn.isChangedOf = false) ∧
      (stateOf dn = .changed ↔ dn.isChangedOf = true) ∧
      (dn.isCreatedOf = true → stateOf dn = .created) ∧
      (dn.isDeletedOf = true → stateOf dn = .deleted) ∧
      (dn.isCreatedOf = false ∧ dn.isDeletedOf = false ∧ dn.isChangedOf = false →
        stateOf dn = .unchanged) := by
  rw [createDiff] at hrun
  split at hrun
  · cases hrun
  · cases hbl : buildLookupTree fuel cst.heap froot proot ⟨[], fun _ => none, 0⟩ with
    | none => rw [hbl] at hrun; cases hrun
    | some res1 =>
      cases res1 with
      | error c => simp only [hbl] at hrun; cases hrun
      | ok lst =>
        simp only [hbl] at hrun
        cases hba : bindAll vleq lst.lookup lst.lookup ⟨cst.heap, cst.next, lst.dstore⟩ with
        | error er => simp only [hba] at hrun; cases hrun
        | ok bout =>
          simp only [hba] at hrun
          cases htk : tokenOfV cst.heap froot with
          | none => rw [htk] at hrun; cases hrun
          | some t =>
            simp only [htk] at hrun
            cases hlf : lfind lst.lookup (.tok t) with
            | none => rw [hlf] at hrun; cases hrun
            | some en =>
              simp only [hlf] at hrun
              cases hrun
              have hbuild := buildLookupTree_ok fuel cst.heap froot proot _ lst hbl
              have hsided : LookupSided lst.lookup :=
                hbuild.1 (fun q hq => absurd hq (List.not_mem_nil q))
              have hstore1 : StoreOK lst.dstore :=
                hbuild.2 (fun d dn hdn => Option.noConfusion hdn)
              have hfinal : StoreOK bout.dstore :=
                bindAll_StoreOK vleq lst.lookup lst.lookup
                  ⟨cst.heap, cst.next, lst.dstore⟩ bout hsided hba hstore1
              intro d dn hdn
              have hfl : flagOK dn := hfinal d dn hdn
              exact ⟨hfl.1, flagOK_state hfl⟩

/-- A former object (address 0) and a correlated present object (address 1)
sharing the root token, with a changed property. -/
def c5heap : Heap := fun a =>
  if a = 0 then some ⟨some 0, .obj [("x", .prim (.num 1))]⟩
  else if a = 1 then some ⟨some 0, .obj [("x", .prim (.num 2))]⟩
  else none

def c5res : Nat × BindSt :=
  match createDiff 20 dateEq (.ref 0) (.ref 1) ⟨c5heap, 2, 1⟩ with
  | some (.ok r) => r
  | _ => (0, defaultBindSt)

theorem claim_C5_state_flags_witness :
    createDiff 20 dateEq (.ref 0) (.ref 1) ⟨c5heap, 2, 1⟩ = some (.ok c5res) ∧
    ∃ dn, c5res.2.dstore c5res.1 = some dn ∧
      (stateOf dn = .changed ↔ dn.isChangedOf = true) := by
  refine ⟨rfl, (c5res.2.dstore c5res.1).getD (.obj none false false false []), rfl, ?_⟩
  exact ((claim_C5_state_flags 20 dateEq (.ref 0) (.ref 1) ⟨c5heap, 2, 1⟩ c5res rfl
    c5res.1 _ rfl).2).1

/-! ## The excluded system keys (C9) -/

/-- All property names of an object's enumerated list are plain (not
`__`-prefixed and not `constructor`). -/
def goodProps (props : List (String × Value)) : Prop :=
  ∀ kv ∈ props, badKey kv.1 = false

/-- A heap node whose enumerated properties carry only plain names. -/
def nodeGood : HNode → Prop
  | ⟨_, .obj props⟩ => goodProps props
  | ⟨_, .arr _⟩ => True
  | ⟨_, .vlike _ props⟩ => goodProps props

/-- Every node allocated at or above `n0` has only plain property names. -/
def GoodFrom (h : Heap) (n0 : Addr) : Prop :=
  ∀ b, n0 ≤ b → ∀ nd, h b = some nd → nodeGood nd

theorem GoodFrom.set_goodfrom {h : Heap} {n0 : Addr} (hg : GoodFrom h n0) {a : Addr}
    {nd : HNode} (hnd : nodeGood nd) : GoodFrom (h.set a nd) n0 := by
  intro b hb nd2 hb2
  by_cases he : b = a
  · subst he
    rw [Heap.set_same] at hb2
    cases hb2
    exact hnd
  · rw [Heap.set_other _ _ _ _ he] at hb2
    exact hg b hb nd2 hb2

theorem getPropertyKeys_good (props : List (String × Value)) :
    ∀ k ∈ getPropertyKeys props, badKey k = false := by
  intro k hk
  simp only [getPropertyKeys, List.mem_filter] at hk
  simpa using hk.2

theorem addKey_good {ks : List String} (hks : ∀ k2 ∈ ks, badKey k2 = false)
    {k : String} (hk : badKey k = false) :
    ∀ k2 ∈ addKey ks k, badKey k2 = false := by
  intro k2 hk2
  rw [addKey] at hk2
  by_cases hmem : k ∈ ks
  · rw [if_pos hmem] at hk2
    exact hks k2 hk2
  · rw [if_neg hmem] at hk2
    rcases List.mem_append.mp hk2 with h | h
    · exact hks k2 h
    · rcases List.mem_singleton.mp h with rfl
      exact hk

theorem cloneProps_good (rec : Value → CState → Option (Value × CState))
    (hrel : ∀ v (st : CState) x st', DomLT st.heap st.next →
      rec v st = some (x, st') → CloneRel st st')
    (hgood : ∀ v (st : CState) x st' n0, DomLT st.heap st.next →
      rec v st = some (x, st') → GoodFrom st.heap n0 → GoodFrom st'.heap n0) :
    ∀ ks props (st : CState) ps2 st' n0, DomLT st.heap st.next →
      cloneProps rec ks props st = some (ps2, st') →
      (∀ k ∈ ks, badKey k = false) → GoodFrom st.heap n0 →
      goodProps ps2 ∧ GoodFrom st'.heap n0 := by
  intro ks
  induction ks with
  | nil =>
    intro props st ps2 st' n0 _ hrun _ hg
    simp only [cloneProps] at hrun
    cases hrun
    exact ⟨fun kv hkv => absurd hkv (List.not_mem_nil kv), hg⟩
  | cons k ks ih =>
    intro props st ps2 st' n0 hd hrun hks hg
    simp only [cloneProps] at hrun
    cases hv : propGet props k with
    | fn i =>
      simp only [hv] at hrun
      exact ih props st ps2 st' n0 hd hrun
        (fun k2 hk2 => hks k2 (List.mem_cons_of_mem _ hk2)) hg
    | prim p =>
      simp only [hv] at hrun
      cases hrec : cloneProps rec ks props st with
      | none => rw [hrec] at hrun; cases hrun
      | some r =>
        obtain ⟨ps3, st3⟩ := r
        simp only [hrec] at hrun
        cases hrun
        have hrest := ih props st ps3 st' n0 hd hrec
          (fun k2 hk2 => hks k2 (List.mem_cons_of_mem _ hk2)) hg
        refine ⟨fun kv hkv => ?_, hrest.2⟩
        rcases List.mem_cons.mp hkv with h | h
        · subst h
          exact hks k (List.mem_cons_self _ _)
        · exact hrest.1 kv h
    | ref a =>
      simp only [hv] at hrun
      cases hcl : rec (.ref a) st with
      | none => rw [hcl] at hrun; cases hrun
      | some r =>
        obtain ⟨v2, st2⟩ := r
        simp only [hcl] at hrun
        cases hrec : cloneProps rec ks props st2 with
        | none => rw [hrec] at hrun; cases hrun
        | some r2 =>
          obtain ⟨ps3, st3⟩ := r2
          simp only [hrec] at hrun
          cases hrun
          have rel1 := hrel _ _ _ _ hd hcl
          have hg2 := hgood _ _ _ _ n0 hd hcl hg
          have hrest := ih props st2 ps3 st' n0 (rel1.domLT hd) hrec
            (fun k2 hk2 => hks k2 (List.mem_cons_of_mem _ hk2)) hg2
          refine ⟨fun kv hkv => ?_, hrest.2⟩
          rcases List.mem_cons.mp hkv with h | h
          · subst h
            exact hks k (List.mem_cons_self _ _)
          · exact hrest.1 kv h

theorem cloneElems_good (rec : Value → CState → Option (Value × CState))
    (hrel : ∀ v (st : CState) x st', DomLT st.heap st.next →
      rec v st = some (x, st') → CloneRel st st')
    (hgood : ∀ v (st : CState) x st' n0, DomLT st.heap st.next →
      rec v st = some (x, st') → GoodFrom st.heap n0 → GoodFrom st'.heap n0) :
    ∀ vs (st : CState) vs2 st' n0, DomLT st.heap st.next →
      cloneElems rec vs st = some (vs2, st') → GoodFrom st.heap n0 →
      GoodFrom st'.heap n0 := by
  intro vs
  induction vs with
  | nil =>
    intro st vs2 st' n0 _ hrun hg
    simp only [cloneElems] at hrun
    cases hrun
    exact hg
  | cons v vs ih =>
    intro st vs2 st' n0 hd hrun hg
    cases v with
    | fn i =>
      simp only [cloneElems] at hrun
      exact ih st vs2 st' n0 hd hrun hg
    | prim p =>
      simp only [cloneElems] at hrun
      cases hrec : cloneElems rec vs st with
      | none => rw [hrec] at hrun; cases hrun
      | some r =>
        obtain ⟨vs3, st3⟩ := r
        simp only [hrec] at hrun
        cases hrun
        exact ih st _ _ n0 hd hrec hg
    | ref a =>
      simp only [cloneElems] at hrun
      cases hcl : rec (.ref a) st with
      | none => rw [hcl] at hrun; cases hrun
      | some r =>
        obtain ⟨v2, st2⟩ := r
        simp only [hcl] at hrun
        cases hrec : cloneElems rec vs st2 with
        | none => rw [hrec] at hrun; cases hrun
        | some r2 =>
          obtain ⟨vs3, st3⟩ := r2
          simp only [hrec] at hrun
          cases hrun
          have rel1 := hrel _ _ _ _ hd hcl
          exact ih st2 _ _ n0 (rel1.domLT hd) hrec (hgood _ _ _ _ n0 hd hcl hg)

theorem cloneVal_good :
    ∀ fuel v (st : CState) x st' n0, DomLT st.heap st.next →
      cloneVal fuel v st = some (x, st') → GoodFrom st.heap n0 →
      GoodFrom st'.heap n0 := by
  intro fuel
  induction fuel with
  | zero => intro v st x st' n0 _ hrun; simp [cloneVal] at hrun
  | succ f ih =>
    intro v st x st' n0 hd hrun hg
    cases v with
    | prim p =>
      simp only [cloneVal] at hrun
      cases hrun
      exact hg
    | fn i =>
      simp only [cloneVal] at hrun
      cases hrun
      exact hg
    | ref a =>
      simp only [cloneVal] at hrun
      cases hrm : st.refMap.lookup a with
      | some c =>
        simp only [hrm] at hrun
        cases hrun
        exact hg
      | none =>
        simp only [hrm] at hrun
        cases hheap : st.heap a with
        | none => simp only [hheap] at hrun; cases hrun
        | some n =>
          simp only [hheap] at hrun
          cases hdat : n.data with
          | vlike d props =>
            simp only [hdat] at hrun
            cases hrun
            exact hg.set_goodfrom (fun kv hkv => absurd hkv (List.not_mem_nil kv))
          | arr elems =>
            simp only [hdat] at hrun
            cases hrec : cloneElems (cloneVal f) elems
                ⟨st.heap, st.next + 1, (a, st.next) :: st.refMap⟩ with
            | none => rw [hrec] at hrun; cases hrun
            | some r =>
              obtain ⟨elems2, st2⟩ := r
              simp only [hrec] at hrun
              cases hrun
              have hd1 : DomLT (st.heap) (st.next + 1) := fun b hb =>
                hd b (Nat.le_of_succ_le hb)
              have hg2 := cloneElems_good (cloneVal f) (cloneVal_CloneRel f) ih elems
                ⟨st.heap, st.next + 1, (a, st.next) :: st.refMap⟩ elems2 st2 n0 hd1 hrec hg
              exact hg2.set_goodfrom trivial
          | obj props =>
            simp only [hdat] at hrun
            cases hrec : cloneProps (cloneVal f) (getPropertyKeys props) props
                ⟨st.heap, st.next + 1, (a, st.next) :: st.refMap⟩ with
            | none => rw [hrec] at hrun; cases hrun
            | some r =>
              obtain ⟨props2, st2⟩ := r
              simp only [hrec] at hrun
              cases hrun
              have hd1 : DomLT (st.heap) (st.next + 1) := fun b hb =>
                hd b (Nat.le_of_succ_le hb)
              have hg2 := cloneProps_good (cloneVal f) (cloneVal_CloneRel f) ih
                (getPropertyKeys props) props
                ⟨st.heap, st.next + 1, (a, st.next) :: st.refMap⟩ props2 st2 n0 hd1 hrec
                (getPropertyKeys_good props) hg
              exact hg2.2.set_goodfrom hg2.1

/-- The fresh part of a snapshot heap has only plain property names. -/
theorem takeSnapshot_good (fuel : Nat) (root : Value) (st : CheckerState)
    (r : Value × CheckerState) (hd : DomLT st.heap st.next)
    (hrun : takeSnapshot fuel root st = some r) :
    GoodFrom r.2.heap st.next := by
  cases root with
  | prim p => simp only [takeSnapshot] at hrun; cases hrun
  | fn i => simp only [takeSnapshot] at hrun; cases hrun
  | ref a =>
    simp only [takeSnapshot] at hrun
    cases has : assignIdsAddr fuel a ⟨st.heap, st.counter, []⟩ with
    | none => rw [has] at hrun; cases hrun
    | some ast =>
      simp only [has] at hrun
      cases hcl : cloneVal fuel (.ref a) ⟨ast.heap, st.next, []⟩ with
      | none => rw [hcl] at hrun; cases hrun
      | some r2 =>
        obtain ⟨v2, cst2⟩ := r2
        simp only [hcl] at hrun
        cases hrun
        have harel := assignIdsAddr_AssignRel fuel a ⟨st.heap, st.counter, []⟩ ast has
        have hdom2 : DomLT ast.heap st.next := fun b hb => harel.2 b (hd b hb)
        have hg0 : GoodFrom ast.heap st.next := by
          intro b hb nd hnd
          rw [hdom2 b hb] at hnd
          cases hnd
        exact cloneVal_good fuel (.ref a) ⟨ast.heap, st.next, []⟩ v2 cst2 st.next
          hdom2 hcl hg0

/-- Every entry of the lookup map has an accumulated key set of plain
names only. -/
def LookupKeysGood (l : Lookup) : Prop :=
  ∀ p, p ∈ l → ∀ k ∈ p.2.keys, badKey k = false

theorem lfind_keysGood : ∀ (l : Lookup), LookupKeysGood l → ∀ k e,
    lfind l k = some e → ∀ k2 ∈ e.keys, badKey k2 = false := by
  intro l
  induction l with
  | nil => intro _ k e hfind; cases hfind
  | cons p rest ih =>
    intro hl k e hfind
    obtain ⟨k2, e2⟩ := p
    simp only [lfind] at hfind
    by_cases hk : k = k2
    · rw [if_pos hk] at hfind
      cases hfind
      exact hl (k2, e) (List.mem_cons_self _ _)
    · rw [if_neg hk] at hfind
      exact ih (fun q hq => hl q (List.mem_cons_of_mem _ hq)) k e hfind

theorem lupdate_keysGood : ∀ (l : Lookup), LookupKeysGood l → ∀ k (e : Entry),
    (∀ k2 ∈ e.keys, badKey k2 = false) →
    LookupKeysGood (lupdate l k e) := by
  intro l
  induction l with
  | nil =>
    intro _ k e _ q hq
    simp only [lupdate] at hq
    cases hq
  | cons p rest ih =>
    intro hl k e he
    obtain ⟨k2, e2⟩ := p
    intro q hq
    simp only [lupdate] at hq
    by_cases hk : k = k2
    · rw [if_pos hk] at hq
      rcases List.mem_cons.mp hq with h | h
      · subst h
        exact he
      · exact hl q (List.mem_cons_of_mem _ h)
    · rw [if_neg hk] at hq
      rcases List.mem_cons.mp hq with h | h
      · subst h
        exact hl (k2, e2) (List.mem_cons_self _ _)
      · exact ih (fun q2 hq2 => hl q2 (List.mem_cons_of_mem _ hq2)) k e he q h

theorem append_keysGood {l : Lookup} (hl : LookupKeysGood l) {k : LKey}
    {e : Entry} (he : ∀ k2 ∈ e.keys, badKey k2 = false) :
    LookupKeysGood (l ++ [(k, e)]) := by
  intro q hq
  rcases List.mem_append.mp hq with h | h
  · exact hl q h
  · rcases List.mem_singleton.mp h with rfl
    exact he

theorem buildElems_KeysGood (rec : BuildRec)
    (hr : ∀ v st r, rec v st = some (.ok r) → LookupKeysGood st.lookup →
      LookupKeysGood r.lookup) :
    ∀ i vs (st r : LState), buildElems rec i vs st = some (.ok r) →
      LookupKeysGood st.lookup → LookupKeysGood r.lookup := by
  intro i vs
  induction vs generalizing i with
  | nil =>
    intro st r hrun hok
    simp only [buildElems] at hrun
    cases hrun
    exact hok
  | cons v vs ih =>
    intro st r hrun hok
    simp only [buildElems] at hrun
    cases hrec : rec v st with
    | none => rw [hrec] at hrun; cases hrun
    | some res =>
      cases res with
      | error c => simp only [hrec] at hrun; cases hrun
      | ok st2 =>
        simp only [hrec] at hrun
        exact ih (i + 1) st2 r hrun (hr v st st2 hrec hok)

theorem buildProps_KeysGood (rec : BuildRec)
    (hr : ∀ v st r, rec v st = some (.ok r) → LookupKeysGood st.lookup →
      LookupKeysGood r.lookup) :
    ∀ accKey ks props (st r : LState),
      buildProps rec accKey ks props st = some (.ok r) →
      (∀ k ∈ ks, badKey k = false) →
      LookupKeysGood st.lookup → LookupKeysGood r.lookup := by
  intro accKey ks
  induction ks with
  | nil =>
    intro props st r hrun _ hok
    simp only [buildProps] at hrun
    cases hrun
    exact hok
  | cons k ks ih =>
    intro props st r hrun hks hok
    simp only [buildProps] at hrun
    cases accKey with
    | none =>
      simp only at hrun
      cases hrec : rec (propGet props k) st with
      | none => rw [hrec] at hrun; cases hrun
      | some res =>
        cases res with
        | error c => simp only [hrec] at hrun; cases hrun
        | ok st2 =>
          simp only [hrec] at hrun
          exact ih props st2 r hrun
            (fun k2 hk2 => hks k2 (List.mem_cons_of_mem _ hk2))
            (hr _ st st2 hrec hok)
    | some lk =>
      simp only at hrun
      cases hlf : lfind st.lookup lk with
      | none =>
        simp only [hlf] at hrun
        cases hrec : rec (propGet props k) st with
        | none => rw [hrec] at hrun; cases hrun
        | some res =>
          cases res with
          | error c => simp only [hrec] at hrun; cases hrun
          | ok st2 =>
            simp only [hrec] at hrun
            exact ih props st2 r hrun
              (fun k2 hk2 => hks k2 (List.mem_cons_of_mem _ hk2))
              (hr _ st st2 hrec hok)
      | some e =>
        simp only [hlf] at hrun
        cases hrec : rec (propGet props k)
            { st with lookup := lupdate st.lookup lk { e with keys := addKey e.keys k } } with
        | none => rw [hrec] at hrun; cases hrun
        | some res =>
          cases res with
          | error c => simp only [hrec] at hrun; cases hrun
          | ok st2 =>
            simp only [hrec] at hrun
            have hmid : LookupKeysGood
                (lupdate st.lookup lk { e with keys := addKey e.keys k }) :=
              lupdate_keysGood st.lookup hok lk _
                (addKey_good (lfind_keysGood st.lookup hok lk e hlf)
                  (hks k (List.mem_cons_self _ _)))
            exact ih props st2 r hrun
              (fun k2 hk2 => hks k2 (List.mem_cons_of_mem _ hk2))
              (hr _ _ st2 hrec hmid)

theorem buildFormerArray_KeysGood (rec : BuildRec)
    (hr : ∀ v st r, rec v st = some (.ok r) → LookupKeysGood st.lookup →
      LookupKeysGood r.lookup)
    (a : Addr) (tok : Option Token) (elems : List Value) (st r : LState)
    (hrun : buildFormerArrayLookupTree rec a tok elems st = some (.ok r))
    (hok : LookupKeysGood st.lookup) : LookupKeysGood r.lookup := by
  rw [buildFormerArrayLookupTree] at hrun
  cases hlf : lfind st.lookup (lookupKeyFormer tok) with
  | none =>
    simp only [hlf] at hrun
    exact buildElems_KeysGood rec hr 0 elems _ r hrun
      (append_keysGood hok (fun k2 hk2 => absurd hk2 (List.not_mem_nil k2)))
  | some e =>
    simp only [hlf] at hrun
    cases he : e.former with
    | some b =>
      simp only [he] at hrun
      by_cases hba : b ≠ a
      · rw [if_pos hba] at hrun; cases hrun
      · rw [if_neg hba] at hrun
        cases hrun
        exact hok
    | none =>
      simp only [he] at hrun
      exact buildElems_KeysGood rec hr 0 elems _ r hrun
        (lupdate_keysGood st.lookup hok _ _
          (lfind_keysGood st.lookup hok _ e hlf))

theorem buildFormerObject_KeysGood (rec : BuildRec)
    (hr : ∀ v st r, rec v st = some (.ok r) → LookupKeysGood st.lookup →
      LookupKeysGood r.lookup)
    (a : Addr) (tok : Option Token) (props : List (String × Value)) (st r : LState)
    (hrun : buildFormerObjectLookupTree rec a tok props st = some (.ok r))
    (hok : LookupKeysGood st.lookup) : LookupKeysGood r.lookup := by
  rw [buildFormerObjectLookupTree] at hrun
  cases hlf : lfind st.lookup (lookupKeyFormer tok) with
  | none =>
    simp only [hlf] at hrun
    exact buildProps_KeysGood rec hr none _ props _ r hrun
      (getPropertyKeys_good props)
      (append_keysGood hok (getPropertyKeys_good props))
  | some e =>
    simp only [hlf] at hrun
    cases he : e.former with
    | some b =>
      simp only [he] at hrun
      by_cases hba : b ≠ a
      · rw [if_pos hba] at hrun; cases hrun
      · rw [if_neg hba] at hrun
        cases hrun
        exact hok
    | none =>
      simp only [he] at hrun
      exact buildProps_KeysGood rec hr _ _ props _ r hrun
        (getPropertyKeys_good props)
        (lupdate_keysGood st.lookup hok _ _
          (lfind_keysGood st.lookup hok _ e hlf))

theorem buildPresentArray_KeysGood (rec : BuildRec)
    (hr : ∀ v st r, rec v st = some (.ok r) → LookupKeysGood st.lookup →
      LookupKeysGood r.lookup)
    (a : Addr) (tok : Option Token) (elems : List Value) (st r : LState)
    (hrun : buildPresentArrayLookupTree rec a tok elems st = some (.ok r))
    (hok : LookupKeysGood st.lookup) : LookupKeysGood r.lookup := by
  rw [buildPresentArrayLookupTree] at hrun
  cases hlf : lfind st.lookup (lookupKeyPresent tok a) with
  | none =>
    simp only [hlf] at hrun
    exact buildElems_KeysGood rec hr 0 elems _ r hrun
      (append_keysGood hok (fun k2 hk2 => absurd hk2 (List.not_mem_nil k2)))
  | some e =>
    simp only [hlf] at hrun
    cases he : e.present with
    | some b =>
      simp only [he] at hrun
      by_cases hba : b ≠ a
      · rw [if_pos hba] at hrun; cases hrun
      · rw [if_neg hba] at hrun
        cases hrun
        exact hok
    | none =>
      simp only [he] at hrun
      exact buildElems_KeysGood rec hr 0 elems _ r hrun
        (lupdate_keysGood st.lookup hok _ _
          (lfind_keysGood st.lookup hok _ e hlf))

theorem buildPresentObject_KeysGood (rec : BuildRec)
    (hr : ∀ v st r, rec v st = some (.ok r) → LookupKeysGood st.lookup →
      LookupKeysGood r.lookup)
    (a : Addr) (tok : Option Token) (props : List (String × Value)) (st r : LState)
    (hrun : buildPresentObjectLookupTree rec a tok props st = some (.ok r))
    (hok : LookupKeysGood st.lookup) : LookupKeysGood r.lookup := by
  rw [buildPresentObjectLookupTree] at hrun
  cases hlf : lfind st.lookup (lookupKeyPresent tok a) with
  | none =>
    simp only [hlf] at hrun
    exact buildProps_KeysGood rec hr none _ props _ r hrun
      (getPropertyKeys_good props)
      (append_keysGood hok (getPropertyKeys_good props))
  | some e =>
    simp only [hlf] at hrun
    cases he : e.present with
    | some b =>
      simp only [he] at hrun
      by_cases hba : b ≠ a
      · rw [if_pos hba] at hrun; cases hrun
      · rw [if_neg hba] at hrun
        cases hrun
        exact hok
    | none =>
      simp only [he] at hrun
      exact buildProps_KeysGood rec hr _ _ props _ r hrun
        (getPropertyKeys_good props)
        (lupdate_keysGood st.lookup hok _ _
          (lfind_keysGood st.lookup hok _ e hlf))

theorem buildFormer_KeysGood :
    ∀ fuel h v (st r : LState), buildFormerLookupTree fuel h v st = some (.ok r) →
      LookupKeysGood st.lookup → LookupKeysGood r.lookup := by
  intro fuel
  induction fuel with
  | zero => intro h v st r hrun; simp [buildFormerLookupTree] at hrun
  | succ f ih =>
    intro h v st r hrun hok
    cases v with
    | prim p => simp only [buildFormerLookupTree] at hrun; cases hrun; exact hok
    | fn i => simp only [buildFormerLookupTree] at hrun; cases hrun; exact hok
    | ref a =>
      simp only [buildFormerLookupTree] at hrun
      cases hheap : h a with
      | none => rw [hheap] at hrun; cases hrun
      | some n =>
        simp only [hheap] at hrun
        cases hdat : n.data with
        | vlike d props =>
          simp only [hdat] at hrun
          cases hrun
          exact hok
        | arr elems =>
          simp only [hdat] at hrun
          exact buildFormerArray_KeysGood _ (fun v2 st2 r2 => ih h v2 st2 r2)
            a n.token elems st r hrun hok
        | obj props =>
          simp only [hdat] at hrun
          exact buildFormerObject_KeysGood _ (fun v2 st2 r2 => ih h v2 st2 r2)
            a n.token props st r hrun hok

theorem buildPresent_KeysGood :
    ∀ fuel h v (st r : LState), buildPresentLookupTree fuel h v st = some (.ok r) →
      LookupKeysGood st.lookup → LookupKeysGood r.lookup := by
  intro fuel
  induction fuel with
  | zero => intro h v st r hrun; simp [buildPresentLookupTree] at hrun
  | succ f ih =>
    intro h v st r hrun hok
    cases v with
    | prim p => simp only [buildPresentLookupTree] at hrun; cases hrun; exact hok
    | fn i => simp only [buildPresentLookupTree] at hrun; cases hrun; exact hok
    | ref a =>
      simp only [buildPresentLookupTree] at hrun
      cases hheap : h a with
      | none => rw [hheap] at hrun; cases hrun
      | some n =>
        simp only [hheap] at hrun
        cases hdat : n.data with
        | vlike d props =>
          simp only [hdat] at hrun
          cases hrun
          exact hok
        | arr elems =>
          simp only [hdat] at hrun
          exact buildPresentArray_KeysGood _ (fun v2 st2 r2 => ih h v2 st2 r2)
            a n.token elems st r hrun hok
        | obj props =>
          simp only [hdat] at hrun
          exact buildPresentObject_KeysGood _ (fun v2 st2 r2 => ih h v2 st2 r2)
            a n.token props st r hrun hok

theorem buildLookupTree_KeysGood (fuel : Nat) (h : Heap) (froot proot : Value)
    (st r : LState) (hrun : buildLookupTree fuel h froot proot st = some (.ok r))
    (hok : LookupKeysGood st.lookup) : LookupKeysGood r.lookup := by
  rw [buildLookupTree] at hrun
  cases h1 : buildFormerLookupTree fuel h froot st with
  | none => rw [h1] at hrun; cases hrun
  | some res1 =>
    cases res1 with
    | error c =>
      simp only [h1] at hrun
      cases h2 : findPath fuel h froot c.left [] with
      | none => rw [h2] at hrun; cases hrun
      | some lp =>
        obtain ⟨lp1, sn⟩ := lp
        simp only [h2] at hrun
        cases hrun
    | ok st1 =>
      simp only [h1] at hrun
      cases h3 : buildPresentLookupTree fuel h proot st1 with
      | none => rw [h3] at hrun; cases hrun
      | some res2 =>
        cases res2 with
        | error c =>
          simp only [h3] at hrun
          cases h4 : findPath fuel h proot c.left [] with
          | none => rw [h4] at hrun; cases hrun
          | some lp =>
            obtain ⟨lp1, sn⟩ := lp
            simp only [h4] at hrun
            cases hrun
        | ok st2 =>
          simp only [h3] at hrun
          cases hrun
          exact buildPresent_KeysGood fuel h proot st1 r h3
            (buildFormer_KeysGood fuel h froot st st1 h1 hok)

/-- The property diffs bound onto a diff node carry only plain names. -/
def dnodePropsGood : DNode → Prop
  | .obj _ _ _ _ props => ∀ kp ∈ props, badKey kp.1 = false
  | .arr _ _ _ _ _ _ _ => True

def StoreGood (ds : DStore) : Prop := ∀ d dn, ds d = some dn → dnodePropsGood dn

theorem StoreGood.set_good {ds : DStore} (hok : StoreGood ds) {d : Nat} {dn : DNode}
    (hdn : dnodePropsGood dn) : StoreGood (ds.set d dn) := by
  intro d2 dn2 hd2
  by_cases he : d2 = d
  · subst he
    rw [DStore.set, if_pos rfl] at hd2
    cases hd2
    exact hdn
  · rw [DStore.set, if_neg he] at hd2
    exact hok d2 dn2 hd2

theorem StoreGood.set_eq_good {ds ds2 : DStore} (hok : StoreGood ds) (heq : ds2 = ds)
    {d : Nat} {dn : DNode} (hdn : dnodePropsGood dn) : StoreGood (ds2.set d dn) :=
  heq ▸ hok.set_good hdn

theorem dnodePropsGood_default_obj : dnodePropsGood (.obj none false false false []) :=
  fun kp hkp => absurd hkp (List.not_mem_nil kp)

theorem dnodePropsGood_default_arr : dnodePropsGood (.arr none false false false [] [] []) :=
  trivial

theorem buildElems_StoreGood (rec : BuildRec)
    (hr : ∀ v st r, rec v st = some (.ok r) → StoreGood st.dstore → StoreGood r.dstore) :
    ∀ i vs (st r : LState), buildElems rec i vs st = some (.ok r) →
      StoreGood st.dstore → StoreGood r.dstore := by
  intro i vs
  induction vs generalizing i with
  | nil =>
    intro st r hrun hok
    simp only [buildElems] at hrun
    cases hrun
    exact hok
  | cons v vs ih =>
    intro st r hrun hok
    simp only [buildElems] at hrun
    cases hrec : rec v st with
    | none => rw [hrec] at hrun; cases hrun
    | some res =>
      cases res with
      | error c => simp only [hrec] at hrun; cases hrun
      | ok st2 =>
        simp only [hrec] at hrun
        exact ih (i + 1) st2 r hrun (hr v st st2 hrec hok)

theorem buildProps_StoreGood (rec : BuildRec)
    (hr : ∀ v st r, rec v st = some (.ok r) → StoreGood st.dstore → StoreGood r.dstore) :
    ∀ accKey ks props (st r : LState),
      buildProps rec accKey ks props st = some (.ok r) →
      StoreGood st.dstore → StoreGood r.dstore := by
  intro accKey ks
  induction ks with
  | nil =>
    intro props st r hrun hok
    simp only [buildProps] at hrun
    cases hrun
    exact hok
  | cons k ks ih =>
    intro props st r hrun hok
    simp only [buildProps] at hrun
    cases accKey with
    | none =>
      simp only at hrun
      cases hrec : rec (propGet props k) st with
      | none => rw [hrec] at hrun; cases hrun
      | some res =>
        cases res with
        | error c => simp only [hrec] at hrun; cases hrun
        | ok st2 =>
          simp only [hrec] at hrun
          exact ih props st2 r hrun (hr _ st st2 hrec hok)
    | some lk =>
      simp only at hrun
      cases hlf : lfind st.lookup lk with
      | none =>
        simp only [hlf] at hrun
        cases hrec : rec (propGet props k) st with
        | none => rw [hrec] at hrun; cases hrun
        | some res =>
          cases res with
          | error c => simp only [hrec] at hrun; cases hrun
          | ok st2 =>
            simp only [hrec] at hrun
            exact ih props st2 r hrun (hr _ st st2 hrec hok)
      | some e =>
        simp only [hlf] at hrun
        cases hrec : rec (propGet props k)
            { st with lookup := lupdate st.lookup lk { e with keys := addKey e.keys k } } with
        | none => rw [hrec] at hrun; cases hrun
        | some res =>
          cases res with
          | error c => simp only [hrec] at hrun; cases hrun
          | ok st2 =>
            simp only [hrec] at hrun
            exact ih props st2 r hrun (hr _ _ st2 hrec hok)

theorem buildFormerArray_StoreGood (rec : BuildRec)
    (hr : ∀ v st r, rec v st = some (.ok r) → StoreGood st.dstore → StoreGood r.dstore)
    (a : Addr) (tok : Option Token) (elems : List Value) (st r : LState)
    (hrun : buildFormerArrayLookupTree rec a tok elems st = some (.ok r))
    (hok : StoreGood st.dstore) : StoreGood r.dstore := by
  rw [buildFormerArrayLookupTree] at hrun
  cases hlf : lfind st.lookup (lookupKeyFormer tok) with
  | none =>
    simp only [hlf] at hrun
    exact buildElems_StoreGood rec hr 0 elems _ r hrun
      (hok.set_good dnodePropsGood_default_arr)
  | some e =>
    simp only [hlf] at hrun
    cases he : e.former with
    | some b =>
      simp only [he] at hrun
      by_cases hba : b ≠ a
      · rw [if_pos hba] at hrun; cases hrun
      · rw [if_neg hba] at hrun
        cases hrun
        exact hok
    | none =>
      simp only [he] at hrun
      exact buildElems_StoreGood rec hr 0 elems _ r hrun hok

theorem buildFormerObject_StoreGood (rec : BuildRec)
    (hr : ∀ v st r, rec v st = some (.ok r) → StoreGood st.dstore → StoreGood r.dstore)
    (a : Addr) (tok : Option Token) (props : List (String × Value)) (st r : LState)
    (hrun : buildFormerObjectLookupTree rec a tok props st = some (.ok r))
    (hok : StoreGood st.dstore) : StoreGood r.dstore := by
  rw [buildFormerObjectLookupTree] at hrun
  cases hlf : lfind st.lookup (lookupKeyFormer tok) with
  | none =>
    simp only [hlf] at hrun
    exact buildProps_StoreGood rec hr none _ props _ r hrun
      (hok.set_good dnodePropsGood_default_obj)
  | some e =>
    simp only [hlf] at hrun
    cases he : e.former with
    | some b =>
      simp only [he] at hrun
      by_cases hba : b ≠ a
      · rw [if_pos hba] at hrun; cases hrun
      · rw [if_neg hba] at hrun
        cases hrun
        exact hok
    | none =>
      simp only [he] at hrun
      exact buildProps_StoreGood rec hr _ _ props _ r hrun hok

theorem buildPresentArray_StoreGood (rec : BuildRec)
    (hr : ∀ v st r, rec v st = some (.ok r) → StoreGood st.dstore → StoreGood r.dstore)
    (a : Addr) (tok : Option Token) (elems : List Value) (st r : LState)
    (hrun : buildPresentArrayLookupTree rec a tok elems st = some (.ok r))
    (hok : StoreGood st.dstore) : StoreGood r.dstore := by
  rw [buildPresentArrayLookupTree] at hrun
  cases hlf : lfind st.lookup (lookupKeyPresent tok a) with
  | none =>
    simp only [hlf] at hrun
    exact buildElems_StoreGood rec hr 0 elems _ r hrun
      (hok.set_good dnodePropsGood_default_arr)
  | some e =>
    simp only [hlf] at hrun
    cases he : e.present with
    | some b =>
      simp only [he] at hrun
      by_cases hba : b ≠ a
      · rw [if_pos hba] at hrun; cases hrun
      · rw [if_neg hba] at hrun
        cases hrun
        exact hok
    | none =>
      simp only [he] at hrun
      exact buildElems_StoreGood rec hr 0 elems _ r hrun hok

theorem buildPresentObject_StoreGood (rec : BuildRec)
    (hr : ∀ v st r, rec v st = some (.ok r) → StoreGood st.dstore → StoreGood r.dstore)
    (a : Addr) (tok : Option Token) (props : List (String × Value)) (st r : LState)
    (hrun : buildPresentObjectLookupTree rec a tok props st = some (.ok r))
    (hok : StoreGood st.dstore) : StoreGood r.dstore := by
  rw [buildPresentObjectLookupTree] at hrun
  cases hlf : lfind st.lookup (lookupKeyPresent tok a) with
  | none =>
    simp only [hlf] at hrun
    exact buildProps_StoreGood rec hr none _ props _ r hrun
      (hok.set_good dnodePropsGood_default_obj)
  | some e =>
    simp only [hlf] at hrun
    cases he : e.present with
    | some b =>
      simp only [he] at hrun
      by_cases hba : b ≠ a
      · rw [if_pos hba] at hrun; cases hrun
      · rw [if_neg hba] at hrun
        cases hrun
        exact hok
    | none =>
      simp only [he] at hrun
      exact buildProps_StoreGood rec hr _ _ props _ r hrun hok

theorem buildFormer_StoreGood :
    ∀ fuel h v (st r : LState), buildFormerLookupTree fuel h v st = some (.ok r) →
      StoreGood st.dstore → StoreGood r.dstore := by
  intro fuel
  induction fuel with
  | zero => intro h v st r hrun; simp [buildFormerLookupTree] at hrun
  | succ f ih =>
    intro h v st r hrun hok
    cases v with
    | prim p => simp only [buildFormerLookupTree] at hrun; cases hrun; exact hok
    | fn i => simp only [buildFormerLookupTree] at hrun; cases hrun; exact hok
    | ref a =>
      simp only [buildFormerLookupTree] at hrun
      cases hheap : h a with
      | none => rw [hheap] at hrun; cases hrun
      | some n =>
        simp only [hheap] at hrun
        cases hdat : n.data with
        | vlike d props =>
          simp only [hdat] at hrun
          cases hrun
          exact hok
        | arr elems =>
          simp only [hdat] at hrun
          exact buildFormerArray_StoreGood _ (fun v2 st2 r2 => ih h v2 st2 r2)
            a n.token elems st r hrun hok
        | obj props =>
          simp only [hdat] at hrun
          exact buildFormerObject_StoreGood _ (fun v2 st2 r2 => ih h v2 st2 r2)
            a n.token props st r hrun hok

theorem buildPresent_StoreGood :
    ∀ fuel h v (st r : LState), buildPresentLookupTree fuel h v st = some (.ok r) →
      StoreGood st.dstore → StoreGood r.dstore := by
  intro fuel
  induction fuel with
  | zero => intro h v st r hrun; simp [buildPresentLookupTree] at hrun
  | succ f ih =>
    intro h v st r hrun hok
    cases v with
    | prim p => simp only [buildPresentLookupTree] at hrun; cases hrun; exact hok
    | fn i => simp only [buildPresentLookupTree] at hrun; cases hrun; exact hok
    | ref a =>
      simp only [buildPresentLookupTree] at hrun
      cases hheap : h a with
      | none => rw [hheap] at hrun; cases hrun
      | some n =>
        simp only [hheap] at hrun
        cases hdat : n.data with
        | vlike d props =>
          simp only [hdat] at hrun
          cases hrun
          exact hok
        | arr elems =>
          simp only [hdat] at hrun
          exact buildPresentArray_StoreGood _ (fun v2 st2 r2 => ih h v2 st2 r2)
            a n.token elems st r hrun hok
        | obj props =>
          simp only [hdat] at hrun
          exact buildPresentObject_StoreGood _ (fun v2 st2 r2 => ih h v2 st2 r2)
            a n.token props st r hrun hok

theorem buildLookupTree_StoreGood (fuel : Nat) (h : Heap) (froot proot : Value)
    (st r : LState) (hrun : buildLookupTree fuel h froot proot st = some (.ok r))
    (hok : StoreGood st.dstore) : StoreGood r.dstore := by
  rw [buildLookupTree] at hrun
  cases h1 : buildFormerLookupTree fuel h froot st with
  | none => rw [h1] at hrun; cases hrun
  | some res1 =>
    cases res1 with
    | error c =>
      simp only [h1] at hrun
      cases h2 : findPath fuel h froot c.left [] with
      | none => rw [h2] at hrun; cases hrun
      | some lp =>
        obtain ⟨lp1, sn⟩ := lp
        simp only [h2] at hrun
        cases hrun
    | ok st1 =>
      simp only [h1] at hrun
      cases h3 : buildPresentLookupTree fuel h proot st1 with
      | none => rw [h3] at hrun; cases hrun
      | some res2 =>
        cases res2 with
        | error c =>
          simp only [h3] at hrun
          cases h4 : findPath fuel h proot c.left [] with
          | none => rw [h4] at hrun; cases hrun
          | some lp =>
            obtain ⟨lp1, sn⟩ := lp
            simp only [h4] at hrun
            cases hrun
        | ok st2 =>
          simp only [h3] at hrun
          cases hrun
          exact buildPresent_StoreGood fuel h proot st1 r h3
            (buildFormer_StoreGood fuel h froot st st1 h1 hok)

theorem pupsert_good {props : List (String × PropD)}
    (hp : ∀ kp ∈ props, badKey kp.1 = false) {k : String}
    (hk : badKey k = false) (pd : PropD) :
    ∀ kp ∈ pupsert props k pd, badKey kp.1 = false := by
  induction props with
  | nil =>
    intro kp hkp
    simp only [pupsert] at hkp
    rcases List.mem_singleton.mp hkp with rfl
    exact hk
  | cons q rest ih =>
    obtain ⟨k2, p2⟩ := q
    intro kp hkp
    simp only [pupsert] at hkp
    by_cases hke : k2 = k
    · rw [if_pos hke] at hkp
      rcases List.mem_cons.mp hkp with h | h
      · subst h
        exact hke ▸ hk
      · exact hp kp (List.mem_cons_of_mem _ h)
    · rw [if_neg hke] at hkp
      rcases List.mem_cons.mp hkp with h | h
      · subst h
        exact hp (k2, p2) (List.mem_cons_self _ _)
      · exact ih (fun q2 hq2 => hp q2 (List.mem_cons_of_mem _ hq2)) kp h

/-- The property fold of `bindObjectDiff` only ever assigns keys drawn from
the entry's accumulated key set. -/
theorem bindObjectDiff_fold_keys (vleq : VLData → VLData → Bool) (lookup : Lookup)
    (e : Entry) :
    ∀ (ks : List String) (acc out : List (String × PropD) × Bool × BindSt),
      ks.foldlM (bindPropsStep vleq lookup e) acc = .ok out →
      (∀ k ∈ ks, badKey k = false) →
      (∀ kp ∈ acc.1, badKey kp.1 = false) →
      ∀ kp ∈ out.1, badKey kp.1 = false := by
  intro ks
  induction ks with
  | nil =>
    intro acc out hrun _ hacc
    cases hrun
    exact hacc
  | cons k ks ih =>
    intro acc out hrun hks hacc
    rw [List.foldlM_cons] at hrun
    rw [show bindPropsStep vleq lookup e acc k =
      (if isFnV (propGetAddr acc.2.2.heap e.former k) ||
          isFnV (propGetAddr acc.2.2.heap e.present k) then Except.ok acc
       else
         match mkPropertyDiff vleq lookup e.former e.present
             (propGetAddr acc.2.2.heap e.former k)
             (propGetAddr acc.2.2.heap e.present k) acc.2.2 with
         | none => Except.error DiffErr.typeErr
         | some (pd, chg2, b1) =>
           if reservedGetterKeys.contains k then Except.error DiffErr.typeErr
           else Except.ok (pupsert acc.1 k pd, acc.2.1 || chg2, b1)) from rfl] at hrun
    by_cases hfn : isFnV (propGetAddr acc.2.2.heap e.former k) ||
        isFnV (propGetAddr acc.2.2.heap e.present k)
    · rw [if_pos hfn] at hrun
      exact ih acc out hrun (fun k2 hk2 => hks k2 (List.mem_cons_of_mem _ hk2)) hacc
    · rw [if_neg hfn] at hrun
      cases hmk : mkPropertyDiff vleq lookup e.former e.present
          (propGetAddr acc.2.2.heap e.former k)
          (propGetAddr acc.2.2.heap e.present k) acc.2.2 with
      | none => simp only [hmk] at hrun; cases hrun
      | some r =>
        obtain ⟨pd, chg2, b1⟩ := r
        simp only [hmk] at hrun
        by_cases hres : reservedGetterKeys.contains k
        · rw [if_pos hres] at hrun; cases hrun
        · rw [if_neg hres] at hrun
          exact ih _ out hrun (fun k2 hk2 => hks k2 (List.mem_cons_of_mem _ hk2))
            (pupsert_good hacc (hks k (List.mem_cons_self _ _)) pd)

theorem bindObjectCore_StoreGood (vleq : VLData → VLData → Bool) (lookup : Lookup)
    (e : Entry) (oid : Option Token) (bst bst' : BindSt)
    (hkeys : ∀ k ∈ e.keys, badKey k = false)
    (hrun : bindObjectCore vleq lookup e oid bst = .ok bst')
    (hok : StoreGood bst.dstore) : StoreGood bst'.dstore := by
  rw [bindObjectCore] at hrun
  cases hfold : e.keys.foldlM (bindPropsStep vleq lookup e)
      (([], false,
        { bst with
            dstore := bst.dstore.set e.diffId
                (DNode.obj oid e.former.isNone e.present.isNone false []) })) with
  | error er => rw [hfold] at hrun; cases hrun
  | ok out =>
    obtain ⟨props, chg, b2⟩ := out
    rw [hfold] at hrun
    cases hrun
    have hds := (bindObjectDiff_fold vleq lookup e e.keys _ _ hfold).1
    have hprops := bindObjectDiff_fold_keys vleq lookup e e.keys _ _ hfold hkeys
      (fun kp hkp => absurd hkp (List.not_mem_nil kp))
    have hok1 : StoreGood (bst.dstore.set e.diffId
        (DNode.obj oid e.former.isNone e.present.isNone false [])) :=
      hok.set_good dnodePropsGood_default_obj
    have hokb2 : StoreGood b2.dstore := by
      intro d2 dn2 hd2
      rw [hds] at hd2
      exact hok1 d2 dn2 hd2
    exact hokb2.set_good hprops

theorem bindObjectDiff_StoreGood (vleq : VLData → VLData → Bool) (lookup : Lookup)
    (e : Entry) (bst bst' : BindSt)
    (hkeys : ∀ k ∈ e.keys, badKey k = false)
    (hrun : bindObjectDiff vleq lookup e bst = .ok bst')
    (hok : StoreGood bst.dstore) : StoreGood bst'.dstore := by
  rw [bindObjectDiff] at hrun
  cases hds : bst.dstore e.diffId with
  | none => rw [hds] at hrun; cases hrun
  | some dn =>
    simp only [hds] at hrun
    exact bindObjectCore_StoreGood vleq lookup e _ bst bst' hkeys hrun hok

theorem bindArrayDiff_StoreGood (vleq : VLData → VLData → Bool) (lookup : Lookup)
    (e : Entry) (bst bst' : BindSt)
    (hrun : bindArrayDiff vleq lookup e bst = .ok bst')
    (hok : StoreGood bst.dstore) : StoreGood bst'.dstore := by
  obtain ⟨ef, ep, eks, edid⟩ := e
  rw [bindArrayDiff] at hrun
  cases hds : bst.dstore edid with
  | none => rw [hds] at hrun; cases hrun
  | some dn0 =>
    simp only [hds] at hrun
    cases ef with
    | none =>
      cases ep with
      | none => simp only at hrun; cases hrun
      | some pa =>
        simp only at hrun
        cases hae : arrElems bst.heap pa with
        | none => rw [hae] at hrun; cases hrun
        | some elems =>
          simp only [hae] at hrun
          cases hri : resolveItems lookup true elems bst with
          | none => rw [hri] at hrun; cases hrun
          | some r1 =>
            obtain ⟨oth, b1⟩ := r1
            simp only [hri] at hrun
            cases hrun
            exact hok.set_eq_good (resolveItems_dstore lookup true elems bst _ hri) trivial
    | some fa =>
      cases ep with
      | none =>
        simp only at hrun
        cases hae : arrElems bst.heap fa with
        | none => rw [hae] at hrun; cases hrun
        | some elems =>
          simp only [hae] at hrun
          cases hri : resolveItems lookup false elems bst with
          | none => rw [hri] at hrun; cases hrun
          | some r1 =>
            obtain ⟨oth, b1⟩ := r1
            simp only [hri] at hrun
            cases hrun
            exact hok.set_eq_good (resolveItems_dstore lookup false elems bst _ hri) trivial
      | some pa =>
        simp only at hrun
        cases haf : arrElems bst.heap fa with
        | none => simp only [haf] at hrun; cases hrun
        | some fEl =>
          simp only [haf] at hrun
          cases hap : arrElems bst.heap pa with
          | none => simp only [hap] at hrun; cases hrun
          | some pEl =>
            simp only [hap] at hrun
            cases hs1 : scanPresentItems lookup pEl [] bst with
            | none => rw [hs1] at hrun; cases hrun
            | some r1 =>
              obtain ⟨m1, b1⟩ := r1
              simp only [hs1] at hrun
              cases hs2 : scanFormerItems lookup fEl m1 b1 with
              | none => rw [hs2] at hrun; cases hrun
              | some r2 =>
                obtain ⟨m2, b2⟩ := r2
                simp only [hs2] at hrun
                cases hrun
                have hds2 : b2.dstore = bst.dstore :=
                  (scanFormerItems_dstore lookup fEl m1 b1 _ hs2).trans
                    (scanPresentItems_dstore lookup pEl [] bst _ hs1)
                exact hok.set_eq_good hds2 trivial

theorem bindEntry_StoreGood (vleq : VLData → VLData → Bool) (lookup : Lookup)
    (e : Entry) (bst bst' : BindSt)
    (hkeys : ∀ k ∈ e.keys, badKey k = false)
    (hrun : bindEntry vleq lookup e bst = .ok bst')
    (hok : StoreGood bst.dstore) : StoreGood bst'.dstore := by
  rw [bindEntry] at hrun
  cases hf : e.former with
  | some a =>
    simp only [hf] at hrun
    cases hh : bst.heap a with
    | none => rw [hh] at hrun; cases hrun
    | some n =>
      simp only [hh] at hrun
      cases hd : n.data with
      | arr elems =>
        simp only [hd] at hrun
        exact bindArrayDiff_StoreGood vleq lookup e bst bst' hrun hok
      | obj props =>
        simp only [hd] at hrun
        exact bindObjectDiff_StoreGood vleq lookup e bst bst' hkeys hrun hok
      | vlike d2 props =>
        simp only [hd] at hrun
        exact bindObjectDiff_StoreGood vleq lookup e bst bst' hkeys hrun hok
  | none =>
    simp only [hf] at hrun
    cases hp : e.present with
    | none =>
      simp only [hp] at hrun
      exact bindObjectDiff_StoreGood vleq lookup e bst bst' hkeys hrun hok
    | some ca =>
      simp only [hp] at hrun
      cases hh : bst.heap ca with
      | none => rw [hh] at hrun; cases hrun
      | some n =>
        simp only [hh] at hrun
        cases hd : n.data with
        | arr elems =>
          simp only [hd] at hrun
          exact bindArrayDiff_StoreGood vleq lookup e bst bst' hrun hok
        | obj props =>
          simp only [hd] at hrun
          exact bindObjectDiff_StoreGood vleq lookup e bst bst' hkeys hrun hok
        | vlike d2 props =>
          simp only [hd] at hrun
          exact bindObjectDiff_StoreGood vleq lookup e bst bst' hkeys hrun hok

theorem bindAll_StoreGood (vleq : VLData → VLData → Bool) (lookup : Lookup) :
    ∀ (l : List (LKey × Entry)) (bst bst' : BindSt),
      (∀ p, p ∈ l → ∀ k ∈ (p : LKey × Entry).2.keys, badKey k = false) →
      bindAll vleq lookup l bst = .ok bst' →
      StoreGood bst.dstore → StoreGood bst'.dstore := by
  intro l
  induction l with
  | nil =>
    intro bst bst' _ hrun hok
    simp only [bindAll] at hrun
    cases hrun
    exact hok
  | cons p rest ih =>
    intro bst bst' hkeys hrun hok
    obtain ⟨k, e⟩ := p
    simp only [bindAll] at hrun
    cases hbe : bindEntry vleq lookup e bst with
    | error er => rw [hbe] at hrun; cases hrun
    | ok b2 =>
      simp only [hbe] at hrun
      exact ih b2 bst' (fun q hq => hkeys q (List.mem_cons_of_mem _ hq)) hrun
        (bindEntry_StoreGood vleq lookup e bst b2
          (hkeys (k, e) (List.mem_cons_self _ _)) hbe hok)

/-- Every diff node of a successful `createDiff` carries only plain
property names. -/
theorem createDiff_StoreGood (fuel : Nat) (vleq : VLData → VLData → Bool)
    (froot proot : Value) (cst : CheckerState) (out : Nat × BindSt)
    (hrun : createDiff fuel vleq froot proot cst = some (.ok out)) :
    StoreGood out.2.dstore := by
  rw [createDiff] at hrun
  split at hrun
  · cases hrun
  · cases hbl : buildLookupTree fuel cst.heap froot proot ⟨[], fun _ => none, 0⟩ with
    | none => rw [hbl] at hrun; cases hrun
    | some res1 =>
      cases res1 with
      | error c => simp only [hbl] at hrun; cases hrun
      | ok lst =>
        simp only [hbl] at hrun
        cases hba : bindAll vleq lst.lookup lst.lookup ⟨cst.heap, cst.next, lst.dstore⟩ with
        | error er => simp only [hba] at hrun; cases hrun
        | ok bout =>
          simp only [hba] at hrun
          cases htk : tokenOfV cst.heap froot with
          | none => rw [htk] at hrun; cases hrun
          | some t =>
            simp only [htk] at hrun
            cases hlf : lfind lst.lookup (.tok t) with
            | none => rw [hlf] at hrun; cases hrun
            | some en =>
              simp only [hlf] at hrun
              cases hrun
              have hkg : LookupKeysGood lst.lookup :=
                buildLookupTree_KeysGood fuel cst.heap froot proot _ lst hbl
                  (fun q hq => absurd hq (List.not_mem_nil q))
              have hsg : StoreGood lst.dstore :=
                buildLookupTree_StoreGood fuel cst.heap froot proot _ lst hbl
                  (fun d dn hdn => Option.noConfusion hdn)
              exact bindAll_StoreGood vleq lst.lookup lst.lookup
                ⟨cst.heap, cst.next, lst.dstore⟩ bout hkg hba hsg

theorem uwRV_good (recD : UwRec) (n0 : Addr)
    (hrec : ∀ d (ust : UState) r, recD d ust = some r →
      GoodFrom ust.heap n0 → GoodFrom r.2.heap n0) :
    ∀ x (ust : UState) r, uwRV recD x ust = some r →
      GoodFrom ust.heap n0 → GoodFrom r.2.heap n0 := by
  intro x ust r hrun hg
  cases x with
  | raw v => simp only [uwRV] at hrun; cases hrun; exact hg
  | vl a => simp only [uwRV] at hrun; cases hrun; exact hg
  | diff d => simp only [uwRV] at hrun; exact hrec d ust r hrun hg

theorem uwList_good (recD : UwRec) (n0 : Addr)
    (hrec : ∀ d (ust : UState) r, recD d ust = some r →
      GoodFrom ust.heap n0 → GoodFrom r.2.heap n0) :
    ∀ xs (ust : UState) r, uwList recD xs ust = some r →
      GoodFrom ust.heap n0 → GoodFrom r.2.heap n0 := by
  intro xs
  induction xs with
  | nil =>
    intro ust r hrun hg
    simp only [uwList] at hrun
    cases hrun
    exact hg
  | cons x xs ih =>
    intro ust r hrun hg
    simp only [uwList] at hrun
    cases hstep : (if isValueTypeR x || isVLR ust.heap x then some (rvToValue x, ust)
        else uwRV recD x ust) with
    | none => rw [hstep] at hrun; cases hrun
    | some p =>
      obtain ⟨v, ust2⟩ := p
      simp only [hstep] at hrun
      cases hrest : uwList recD xs ust2 with
      | none => rw [hrest] at hrun; cases hrun
      | some r2 =>
        obtain ⟨vs, ust3⟩ := r2
        simp only [hrest] at hrun
        cases hrun
        have hg2 : GoodFrom ust2.heap n0 := by
          by_cases hc : isValueTypeR x || isVLR ust.heap x
          · rw [if_pos hc] at hstep
            cases hstep
            exact hg
          · rw [if_neg hc] at hstep
            exact uwRV_good recD n0 hrec x ust _ hstep hg
        exact ih ust2 (vs, ust3) hrest hg2

theorem uwPresentPD_good (recD : UwRec) (n0 : Addr)
    (hrec : ∀ d (ust : UState) r, recD d ust = some r →
      GoodFrom ust.heap n0 → GoodFrom r.2.heap n0) :
    ∀ h pd (ust : UState) r, uwPresentPD recD h pd ust = some r →
      GoodFrom ust.heap n0 → GoodFrom r.2.heap n0 := by
  intro h pd ust r hrun hg
  rw [uwPresentPD] at hrun
  by_cases hc : isValueTypeR pd.value || isVLR h pd.value
  · rw [if_pos hc] at hrun
    cases hrun
    exact hg
  · rw [if_neg hc] at hrun
    exact uwRV_good recD n0 hrec _ ust r hrun hg

theorem uwPresentProps_good (recD : UwRec) (n0 : Addr)
    (hrec : ∀ d (ust : UState) r, recD d ust = some r →
      GoodFrom ust.heap n0 → GoodFrom r.2.heap n0) :
    ∀ ps (ust : UState) r, uwPresentProps recD ps ust = some r →
      (∀ kp ∈ ps, badKey kp.1 = false) → GoodFrom ust.heap n0 →
      goodProps r.1 ∧ GoodFrom r.2.heap n0 := by
  intro ps
  induction ps with
  | nil =>
    intro ust r hrun _ hg
    simp only [uwPresentProps] at hrun
    cases hrun
    exact ⟨fun kv hkv => absurd hkv (List.not_mem_nil kv), hg⟩
  | cons q ps ih =>
    obtain ⟨k, pd⟩ := q
    intro ust r hrun hks hg
    simp only [uwPresentProps] at hrun
    cases hpd : uwPresentPD recD ust.heap pd ust with
    | none => rw [hpd] at hrun; cases hrun
    | some p =>
      obtain ⟨v, ust2⟩ := p
      simp only [hpd] at hrun
      cases hrest : uwPresentProps recD ps ust2 with
      | none => rw [hrest] at hrun; cases hrun
      | some r2 =>
        obtain ⟨vs, ust3⟩ := r2
        simp only [hrest] at hrun
        cases hrun
        have hg2 := uwPresentPD_good recD n0 hrec ust.heap pd ust _ hpd hg
        have hres := ih ust2 _ hrest
          (fun kp hkp => hks kp (List.mem_cons_of_mem _ hkp)) hg2
        refine ⟨fun kv hkv => ?_, hres.2⟩
        rcases List.mem_cons.mp hkv with h | h
        · subst h
          exact hks (k, pd) (List.mem_cons_self _ _)
        · exact hres.1 kv h

theorem uwPresentD_good (ds : DStore) (hds : StoreGood ds) (n0 : Addr) :
    ∀ fuel d (ust : UState) r, uwPresentD fuel ds d ust = some r →
      GoodFrom ust.heap n0 → GoodFrom r.2.heap n0 := by
  intro fuel
  induction fuel with
  | zero => intro d ust r hrun; simp [uwPresentD] at hrun
  | succ f ih =>
    intro d ust r hrun hg
    simp only [uwPresentD] at hrun
    cases hrm : ust.refMap.lookup d with
    | some out =>
      simp only [hrm] at hrun
      cases hrun
      exact hg
    | none =>
      simp only [hrm] at hrun
      cases hdn : ds d with
      | none =>
        simp only [hdn] at hrun
        cases hrun
        exact hg
      | some dn =>
        simp only [hdn] at hrun
        cases dn with
        | arr oid c del ch ins dl oth =>
          simp only at hrun
          cases h1 : uwList (uwPresentD f ds) oth
              ⟨ust.heap, ust.next + 1, (d, ust.next) :: ust.refMap⟩ with
          | none => rw [h1] at hrun; cases hrun
          | some r1 =>
            obtain ⟨e1, ust2⟩ := r1
            simp only [h1] at hrun
            cases h2 : uwList (uwPresentD f ds) ins ust2 with
            | none => rw [h2] at hrun; cases hrun
            | some r2 =>
              obtain ⟨e2, ust3⟩ := r2
              simp only [h2] at hrun
              cases hrun
              have hg1 := uwList_good (uwPresentD f ds) n0 (fun d2 u2 r2 => ih d2 u2 r2)
                oth ⟨ust.heap, ust.next + 1, (d, ust.next) :: ust.refMap⟩ _ h1 hg
              have hg2 := uwList_good (uwPresentD f ds) n0 (fun d2 u2 r2 => ih d2 u2 r2)
                ins ust2 _ h2 hg1
              exact hg2.set_goodfrom trivial
        | obj oid c del ch props =>
          simp only at hrun
          cases h1 : uwPresentProps (uwPresentD f ds)
              (props.filter (fun kp => !(reservedDiffKeys.contains kp.1)))
              ⟨ust.heap, ust.next + 1, (d, ust.next) :: ust.refMap⟩ with
          | none => rw [h1] at hrun; cases hrun
          | some r1 =>
            obtain ⟨props2, ust2⟩ := r1
            simp only [h1] at hrun
            cases hrun
            have hpg : ∀ kp ∈ props.filter (fun kp => !(reservedDiffKeys.contains kp.1)),
                badKey kp.1 = false := by
              intro kp hkp
              exact hds d _ hdn kp (List.mem_of_mem_filter hkp)
            have hres := uwPresentProps_good (uwPresentD f ds) n0
              (fun d2 u2 r2 => ih d2 u2 r2) _
              ⟨ust.heap, ust.next + 1, (d, ust.next) :: ust.refMap⟩ _ h1 hpg hg
            exact hres.2.set_goodfrom hres.1

theorem uwFormerPD_good (recD : UwRec) (n0 : Addr)
    (hrec : ∀ d (ust : UState) r, recD d ust = some r →
      GoodFrom ust.heap n0 → GoodFrom r.2.heap n0) :
    ∀ h pd (ust : UState) r, uwFormerPD recD h pd ust = some r →
      GoodFrom ust.heap n0 → GoodFrom r.2.heap n0 := by
  intro h pd ust r hrun hg
  rw [uwFormerPD] at hrun
  by_cases hc : isValueTypeR (if pd.isChanged then pd.formerValue.getD (.raw (.prim Prim.undef))
      else pd.value) || isVLR h (if pd.isChanged then pd.formerValue.getD (.raw (.prim Prim.undef))
      else pd.value)
  · rw [if_pos hc] at hrun
    cases hrun
    exact hg
  · rw [if_neg hc] at hrun
    exact uwRV_good recD n0 hrec _ ust r hrun hg

theorem uwFormerProps_good (recD : UwRec) (n0 : Addr)
    (hrec : ∀ d (ust : UState) r, recD d ust = some r →
      GoodFrom ust.heap n0 → GoodFrom r.2.heap n0) :
    ∀ ps (ust : UState) r, uwFormerProps recD ps ust = some r →
      (∀ kp ∈ ps, badKey kp.1 = false) → GoodFrom ust.heap n0 →
      goodProps r.1 ∧ GoodFrom r.2.heap n0 := by
  intro ps
  induction ps with
  | nil =>
    intro ust r hrun _ hg
    simp only [uwFormerProps] at hrun
    cases hrun
    exact ⟨fun kv hkv => absurd hkv (List.not_mem_nil kv), hg⟩
  | cons q ps ih =>
    obtain ⟨k, pd⟩ := q
    intro ust r hrun hks hg
    simp only [uwFormerProps] at hrun
    cases hpd : uwFormerPD recD ust.heap pd ust with
    | none => rw [hpd] at hrun; cases hrun
    | some p =>
      obtain ⟨v, ust2⟩ := p
      simp only [hpd] at hrun
      cases hrest : uwFormerProps recD ps ust2 with
      | none => rw [hrest] at hrun; cases hrun
      | some r2 =>
        obtain ⟨vs, ust3⟩ := r2
        simp only [hrest] at hrun
        cases hrun
        have hg2 := uwFormerPD_good recD n0 hrec ust.heap pd ust _ hpd hg
        have hres := ih ust2 _ hrest
          (fun kp hkp => hks kp (List.mem_cons_of_mem _ hkp)) hg2
        refine ⟨fun kv hkv => ?_, hres.2⟩
        rcases List.mem_cons.mp hkv with h | h
        · subst h
          exact hks (k, pd) (List.mem_cons_self _ _)
        · exact hres.1 kv h

theorem uwFormerD_good (ds : DStore) (hds : StoreGood ds) (n0 : Addr) :
    ∀ fuel d (ust : UState) r, uwFormerD fuel ds d ust = some r →
      GoodFrom ust.heap n0 → GoodFrom r.2.heap n0 := by
  intro fuel
  induction fuel with
  | zero => intro d ust r hrun; simp [uwFormerD] at hrun
  | succ f ih =>
    intro d ust r hrun hg
    simp only [uwFormerD] at hrun
    cases hrm : ust.refMap.lookup d with
    | some out =>
      simp only [hrm] at hrun
      cases hrun
      exact hg
    | none =>
      simp only [hrm] at hrun
      cases hdn : ds d with
      | none =>
        simp only [hdn] at hrun
        cases hrun
        exact hg
      | some dn =>
        simp only [hdn] at hrun
        cases dn with
        | arr oid c del ch ins dl oth =>
          simp only at hrun
          cases h1 : uwList (uwFormerD f ds) oth
              ⟨ust.heap, ust.next + 1, (d, ust.next) :: ust.refMap⟩ with
          | none => rw [h1] at hrun; cases hrun
          | some r1 =>
            obtain ⟨e1, ust2⟩ := r1
            simp only [h1] at hrun
            cases h2 : uwList (uwFormerD f ds) dl ust2 with
            | none => rw [h2] at hrun; cases hrun
            | some r2 =>
              obtain ⟨e2, ust3⟩ := r2
              simp only [h2] at hrun
              cases hrun
              have hg1 := uwList_good (uwFormerD f ds) n0 (fun d2 u2 r2 => ih d2 u2 r2)
                oth ⟨ust.heap, ust.next + 1, (d, ust.next) :: ust.refMap⟩ _ h1 hg
              have hg2 := uwList_good (uwFormerD f ds) n0 (fun d2 u2 r2 => ih d2 u2 r2)
                dl ust2 _ h2 hg1
              exact hg2.set_goodfrom trivial
        | obj oid c del ch props =>
          simp only at hrun
          cases h1 : uwFormerProps (uwFormerD f ds)
              (props.filter (fun kp => !(reservedDiffKeys.contains kp.1)))
              ⟨ust.heap, ust.next + 1, (d, ust.next) :: ust.refMap⟩ with
          | none => rw [h1] at hrun; cases hrun
          | some r1 =>
            obtain ⟨props2, ust2⟩ := r1
            simp only [h1] at hrun
            cases hrun
            have hpg : ∀ kp ∈ props.filter (fun kp => !(reservedDiffKeys.contains kp.1)),
                badKey kp.1 = false := by
              intro kp hkp
              exact hds d _ hdn kp (List.mem_of_mem_filter hkp)
            have hres := uwFormerProps_good (uwFormerD f ds) n0
              (fun d2 u2 r2 => ih d2 u2 r2) _
              ⟨ust.heap, ust.next + 1, (d, ust.next) :: ust.refMap⟩ _ h1 hpg hg
            exact hres.2.set_goodfrom hres.1

/-- C9: property discovery (`getPropertyKeys`) excludes every name starting
with two underscores and the name `constructor`; consequently every node
freshly allocated by `takeSnapshot`, every property diff bound by
`createDiff`, and every node freshly allocated by `$unwrap` (either era)
carries only plain property names — a data property with an excluded name
is silently absent from snapshot, diff, and unwrap output. -/
theorem claim_C9_excluded_keys :
    (∀ props k, k ∈ getPropertyKeys props → badKey k = false) ∧
    (∀ fuel root (st : CheckerState) r, DomLT st.heap st.next →
      takeSnapshot fuel root st = some r → GoodFrom r.2.heap st.next) ∧
    (∀ fuel vleq froot proot (cst : CheckerState) out,
      createDiff fuel vleq froot proot cst = some (.ok out) →
      StoreGood out.2.dstore) ∧
    (∀ fuel (ds : DStore) d h next p, StoreGood ds → DomLT h next →
      unwrapPresent fuel ds d h next = some p → GoodFrom p.2.heap next) ∧
    (∀ fuel (ds : DStore) d h next p, StoreGood ds → DomLT h next →
      unwrapFormer fuel ds d h next = some p → GoodFrom p.2.heap next) := by
  refine ⟨fun props k hk => getPropertyKeys_good props k hk,
    fun fuel root st r hd hrun => takeSnapshot_good fuel root st r hd hrun,
    fun fuel vleq froot proot cst out hrun =>
      createDiff_StoreGood fuel vleq froot proot cst out hrun,
    fun fuel ds d h next p hds hdom hrun => ?_,
    fun fuel ds d h next p hds hdom hrun => ?_⟩
  · exact uwPresentD_good ds hds next fuel d ⟨h, next, []⟩ p hrun
      (fun b hb nd hnd => by
        have hnd2 : h b = some nd := hnd
        rw [hdom b hb] at hnd2
        cases hnd2)
  · exact uwFormerD_good ds hds next fuel d ⟨h, next, []⟩ p hrun
      (fun b hb nd hnd => by
        have hnd2 : h b = some nd := hnd
        rw [hdom b hb] at hnd2
        cases hnd2)

/-- A model whose root object carries a `__`-prefixed data property next to
a plain one. -/
def c9heap : Heap := fun a =>
  if a = 0 then some ⟨none, .obj [("__a", .prim (.num 1)), ("b", .prim (.num 2))]⟩
  else none

theorem claim_C9_excluded_keys_witness :
    DomLT c9heap 1 ∧
    ∃ r, takeSnapshot 20 (.ref 0) ⟨c9heap, 1, 0⟩ = some r ∧ GoodFrom r.2.heap 1 := by
  have hdom : DomLT c9heap 1 := by
    intro b hb
    match b, hb with
    | n + 1, _ => rfl
  refine ⟨hdom,
    (takeSnapshot 20 (.ref 0) ⟨c9heap, 1, 0⟩).getD (.prim Prim.undef, ⟨c9heap, 1, 0⟩),
    rfl, ?_⟩
  exact claim_C9_excluded_keys.2.1 20 (.ref 0) ⟨c9heap, 1, 0⟩ _ hdom rfl

/-! ## The reserved diff keys (C10) -/

theorem uwPresentProps_keys (recD : UwRec) :
    ∀ ps (ust : UState) r, uwPresentProps recD ps ust = some r →
      r.1.map Prod.fst = ps.map Prod.fst := by
  intro ps
  induction ps with
  | nil =>
    intro ust r hrun
    simp only [uwPresentProps] at hrun
    cases hrun
    rfl
  | cons q ps ih =>
    obtain ⟨k, pd⟩ := q
    intro ust r hrun
    simp only [uwPresentProps] at hrun
    cases hpd : uwPresentPD recD ust.heap pd ust with
    | none => rw [hpd] at hrun; cases hrun
    | some p =>
      obtain ⟨v, ust2⟩ := p
      simp only [hpd] at hrun
      cases hrest : uwPresentProps recD ps ust2 with
      | none => rw [hrest] at hrun; cases hrun
      | some r2 =>
        obtain ⟨vs, ust3⟩ := r2
        simp only [hrest] at hrun
        cases hrun
        have := ih ust2 (vs, ust3) hrest
        simp only [List.map_cons]
        rw [this]

theorem uwFormerProps_keys (recD : UwRec) :
    ∀ ps (ust : UState) r, uwFormerProps recD ps ust = some r →
      r.1.map Prod.fst = ps.map Prod.fst := by
  intro ps
  induction ps with
  | nil =>
    intro ust r hrun
    simp only [uwFormerProps] at hrun
    cases hrun
    rfl
  | cons q ps ih =>
    obtain ⟨k, pd⟩ := q
    intro ust r hrun
    simp only [uwFormerProps] at hrun
    cases hpd : uwFormerPD recD ust.heap pd ust with
    | none => rw [hpd] at hrun; cases hrun
    | some p =>
      obtain ⟨v, ust2⟩ := p
      simp only [hpd] at hrun
      cases hrest : uwFormerProps recD ps ust2 with
      | none => rw [hrest] at hrun; cases hrun
      | some r2 =>
        obtain ⟨vs, ust3⟩ := r2
        simp only [hrest] at hrun
        cases hrun
        have := ih ust2 (vs, ust3) hrest
        simp only [List.map_cons]
        rw [this]

/-- Assigning a property diff onto one of the four getter-only reserved
keys throws (strict mode), regardless of the property diff built. -/
theorem bindPropsStep_reserved (vleq : VLData → VLData → Bool) (lookup : Lookup)
    (e : Entry) (acc : List (String × PropD) × Bool × BindSt) (k : String)
    (hres : reservedGetterKeys.contains k = true)
    (hf1 : isFnV (propGetAddr acc.2.2.heap e.former k) = false)
    (hf2 : isFnV (propGetAddr acc.2.2.heap e.present k) = false) :
    bindPropsStep vleq lookup e acc k = .error .typeErr := by
  simp only [bindPropsStep]
  rw [hf1, hf2]
  simp only [Bool.or_self]
  rw [if_neg Bool.false_ne_true]
  cases hmk : mkPropertyDiff vleq lookup e.former e.present
      (propGetAddr acc.2.2.heap e.former k)
      (propGetAddr acc.2.2.heap e.present k) acc.2.2 with
  | none => simp only [hmk]
  | some r =>
    obtain ⟨pd, chg2, b1⟩ := r
    simp only [hmk]
    rw [if_pos hres]

theorem bindObjectCore_reserved (vleq : VLData → VLData → Bool) (lookup : Lookup)
    (e : Entry) (oid : Option Token) (bst : BindSt) (k : String)
    (hkeys : e.keys = [k])
    (hres : reservedGetterKeys.contains k = true)
    (hf1 : isFnV (propGetAddr bst.heap e.former k) = false)
    (hf2 : isFnV (propGetAddr bst.heap e.present k) = false) :
    bindObjectCore vleq lookup e oid bst = .error .typeErr := by
  rw [bindObjectCore, hkeys]
  simp only [List.foldlM_cons, List.foldlM_nil]
  have hstep := bindPropsStep_reserved vleq lookup e
      (([], false,
        { bst with
            dstore := bst.dstore.set e.diffId
                (DNode.obj oid e.former.isNone e.present.isNone false []) })) k
      hres hf1 hf2
  rw [hstep]
  rfl

theorem bindObjectDiff_reserved (vleq : VLData → VLData → Bool) (lookup : Lookup)
    (e : Entry) (bst : BindSt) (dn : DNode) (k : String)
    (hdn : bst.dstore e.diffId = some dn) (hkeys : e.keys = [k])
    (hres : reservedGetterKeys.contains k = true)
    (hf1 : isFnV (propGetAddr bst.heap e.former k) = false)
    (hf2 : isFnV (propGetAddr bst.heap e.present k) = false) :
    bindObjectDiff vleq lookup e bst = .error .typeErr := by
  rw [bindObjectDiff]
  simp only [hdn]
  exact bindObjectCore_reserved vleq lookup e _ bst k hkeys hres hf1 hf2

/-- C10 (amended): `$unwrap` of an object diff (either era) reconstructs
exactly the node's property diffs minus the six reserved keys `$state`,
`$isCreated`, `$isDeleted`, `$isChanged`, `$isDirty`, `$unwrap`; a stored
`$isDirty`/`$unwrap` property diff is thus dropped from the unwrap output,
but a data property named `$state`, `$isCreated`, `$isDeleted` or
`$isChanged` never reaches a diff at all — binding it throws a strict-mode
`TypeError` (assignment to a getter-only accessor), aborting `createDiff`. -/
theorem claim_C10_reserved_keys_amended :
    (∀ fuel (ds : DStore) d h next oid c dl ch props p,
      ds d = some (.obj oid c dl ch props) →
      unwrapPresent (fuel + 1) ds d h next = some p →
      ∃ props2, p.2.heap next = some ⟨oid, .obj props2⟩ ∧
        props2.map Prod.fst =
          (props.filter (fun kp => !(reservedDiffKeys.contains kp.1))).map Prod.fst) ∧
    (∀ fuel (ds : DStore) d h next oid c dl ch props p,
      ds d = some (.obj oid c dl ch props) →
      unwrapFormer (fuel + 1) ds d h next = some p →
      ∃ tk props2, p.2.heap next = some ⟨tk, .obj props2⟩ ∧
        props2.map Prod.fst =
          (props.filter (fun kp => !(reservedDiffKeys.contains kp.1))).map Prod.fst) ∧
    (∀ vleq lookup (e : Entry) (bst : BindSt) dn k,
      bst.dstore e.diffId = some dn → e.keys = [k] →
      reservedGetterKeys.contains k = true →
      isFnV (propGetAddr bst.heap e.former k) = false →
      isFnV (propGetAddr bst.heap e.present k) = false →
      bindObjectDiff vleq lookup e bst = .error .typeErr) := by
  refine ⟨fun fuel ds d h next oid c dl ch props p hds hrun => ?_,
    fun fuel ds d h next oid c dl ch props p hds hrun => ?_,
    fun vleq lookup e bst dn k hdn hkeys hres hf1 hf2 =>
      bindObjectDiff_reserved vleq lookup e bst dn k hdn hkeys hres hf1 hf2⟩
  · rw [unwrapPresent] at hrun
    simp only [uwPresentD, List.lookup, hds] at hrun
    cases h1 : uwPresentProps (uwPresentD fuel ds)
        (props.filter (fun kp => !(reservedDiffKeys.contains kp.1)))
        ⟨h, next + 1, [(d, next)]⟩ with
    | none => rw [h1] at hrun; cases hrun
    | some r1 =>
      obtain ⟨props2, ust2⟩ := r1
      simp only [h1] at hrun
      cases hrun
      exact ⟨props2, Heap.set_same _ _ _,
        uwPresentProps_keys (uwPresentD fuel ds) _ _ _ h1⟩
  · rw [unwrapFormer] at hrun
    simp only [uwFormerD, List.lookup, hds] at hrun
    cases h1 : uwFormerProps (uwFormerD fuel ds)
        (props.filter (fun kp => !(reservedDiffKeys.contains kp.1)))
        ⟨h, next + 1, [(d, next)]⟩ with
    | none => rw [h1] at hrun; cases hrun
    | some r1 =>
      obtain ⟨props2, ust2⟩ := r1
      simp only [h1] at hrun
      cases hrun
      exact ⟨_, props2, Heap.set_same _ _ _,
        uwFormerProps_keys (uwFormerD fuel ds) _ _ _ h1⟩

/-- A correlated former/present pair whose objects carry a data property
named `$state`. -/
def c10heap : Heap := fun a =>
  if a = 0 then some ⟨some 0, .obj [("$state", .prim (.num 1))]⟩
  else if a = 1 then some ⟨some 0, .obj [("$state", .prim (.num 2))]⟩
  else none

/-- C10 counterexample: the claim says a data property bearing a reserved
name is stored in the snapshot and the diff and only dropped at `$unwrap`;
but for `$state` (and the other three getter-only keys) `createDiff` itself
throws a `TypeError` while binding, so no diff ever exists to unwrap. -/
theorem claim_C10_counterexample :
    createDiff 20 dateEq (.ref 0) (.ref 1) ⟨c10heap, 2, 1⟩ =
      some (.error .typeErr) := rfl

/-- A diff store holding one object diff with a stored `$isDirty` property
diff next to a plain one. -/
def c10ds : DStore := fun n =>
  if n = 0 then
    some (.obj (some 0) false false false
      [("$isDirty", ⟨false, .raw (.prim (.num 1)), none⟩),
       ("b", ⟨false, .raw (.prim (.num 2)), none⟩)])
  else none

theorem claim_C10_reserved_keys_amended_witness :
    c10ds 0 = some (.obj (some 0) false false false
      [("$isDirty", ⟨false, .raw (.prim (.num 1)), none⟩),
       ("b", ⟨false, .raw (.prim (.num 2)), none⟩)]) ∧
    ∃ p, unwrapPresent 6 c10ds 0 (fun _ => none) 0 = some p ∧
      ∃ props2, p.2.heap 0 = some ⟨some 0, .obj props2⟩ ∧
        props2.map Prod.fst = ["b"] := by
  refine ⟨rfl,
    (unwrapPresent 6 c10ds 0 (fun _ => none) 0).getD
      (.prim Prim.undef, ⟨fun _ => none, 0, []⟩), rfl, ?_⟩
  obtain ⟨props2, hp1, hp2⟩ := claim_C10_reserved_keys_amended.1 5 c10ds 0
    (fun _ => none) 0 (some 0) false false false _ _ rfl rfl
  refine ⟨props2, hp1, ?_⟩
  rw [hp2]
  rfl

/-! ## Array reconciliation (C2) -/

/-- The former array `[1,2,2,3,4]` and the present array `[1,2,3,5]` of the
spec's worked example, correlated under one token. -/
def c2heap : Heap := fun a =>
  if a = 0 then some ⟨some 0, .arr [.prim (.num 1), .prim (.num 2), .prim (.num 2),
    .prim (.num 3), .prim (.num 4)]⟩
  else if a = 1 then some ⟨some 0, .arr [.prim (.num 1), .prim (.num 2),
    .prim (.num 3), .prim (.num 5)]⟩
  else none

def c2res : Nat × BindSt :=
  match createDiff 30 dateEq (.ref 0) (.ref 1) ⟨c2heap, 2, 1⟩ with
  | some (.ok r) => r
  | _ => (0, defaultBindSt)

/-- C2 (amended): per reconciliation group with former occurrences `fo` and
present occurrences `po` (both in scan order), when `f > p` the deleted
bucket receives the oldest `f − p` former occurrences and the remaining
former occurrences go to other; when `p > f` the inserted bucket receives
the OLDEST `p − f` present occurrences — not the newest, as both splices
take from the front — and the remaining present occurrences go to other;
when `f = p` the former occurrences go to other.  The spec's worked example
`[1,2,2,3,4]` vs `[1,2,3,5]` comes out as stated there. -/
theorem claim_C2_array_reconciliation_amended :
    (∀ fo po : List RVal,
      (po.length < fo.length →
        processGroup fo po =
          (fo.take (fo.length - po.length), [], fo.drop (fo.length - po.length))) ∧
      (fo.length < po.length →
        processGroup fo po =
          ([], po.take (po.length - fo.length), po.drop (po.length - fo.length))) ∧
      (fo.length = po.length → processGroup fo po = ([], [], fo))) ∧
    (createDiff 30 dateEq (.ref 0) (.ref 1) ⟨c2heap, 2, 1⟩ = some (.ok c2res) ∧
      c2res.2.dstore c2res.1 = some (.arr (some 0) false false true
        [.raw (.prim (.num 5))]
        [.raw (.prim (.num 2)), .raw (.prim (.num 4))]
        [.raw (.prim (.num 1)), .raw (.prim (.num 2)), .raw (.prim (.num 3))])) := by
  refine ⟨fun fo po => ⟨fun h => ?_, fun h => ?_, fun h => ?_⟩, rfl, rfl⟩
  · have hlen : (fo.drop (fo.length - po.length)).length = po.length := by
      rw [List.length_drop]
      omega
    simp [processGroup, hlen]
  · have h0 : fo.length - po.length = 0 := Nat.sub_eq_zero_of_le (Nat.le_of_lt h)
    simp only [processGroup, h0, List.take_zero, List.drop_zero]
    have hlen2 : (po.take (po.length - fo.length)).length = po.length - fo.length := by
      rw [List.length_take]
      omega
    have hne : (po.take (po.length - fo.length)).isEmpty = false := by
      cases hp : po.take (po.length - fo.length) with
      | nil =>
        rw [hp] at hlen2
        simp only [List.length_nil] at hlen2
        omega
      | cons x xs => rfl
    rw [hne, if_neg Bool.false_ne_true]
  · simp [processGroup, h, Nat.sub_self]

/-- A correlated array pair whose sole former element is a value-like and
whose present holds two plugin-equal value-likes with observably different
auxiliary data (the oldest has `aux = 5`, the newest `aux = 7`). -/
def c2vheap : Heap := fun a =>
  if a = 0 then some ⟨some 0, .arr [.ref 2]⟩
  else if a = 1 then some ⟨some 0, .arr [.ref 3, .ref 4]⟩
  else if a = 2 then some ⟨none, .vlike ⟨1, 0⟩ []⟩
  else if a = 3 then some ⟨none, .vlike ⟨1, 5⟩ []⟩
  else if a = 4 then some ⟨none, .vlike ⟨1, 7⟩ []⟩
  else none

def c2vres : Nat × BindSt :=
  match createDiff 30 dateEq (.ref 0) (.ref 1) ⟨c2vheap, 5, 1⟩ with
  | some (.ok r) => r
  | _ => (0, defaultBindSt)

/-- C2 counterexample: with `f = 1 < p = 2` the claim says the inserted
bucket receives the newest present occurrence (`aux = 7`); in fact the
splice takes from the front, so inserted holds the clone of the OLDEST
present occurrence (`aux = 5`) and the newest goes to other. -/
theorem claim_C2_counterexample :
    createDiff 30 dateEq (.ref 0) (.ref 1) ⟨c2vheap, 5, 1⟩ = some (.ok c2vres) ∧
    c2vres.2.dstore c2vres.1 =
      some (.arr (some 0) false false true [.vl 5] [] [.vl 6]) ∧
    (c2vres.2.heap 5).map HNode.data = some (.vlike ⟨1, 5⟩ []) ∧
    (c2vres.2.heap 6).map HNode.data = some (.vlike ⟨1, 7⟩ []) ∧
    (⟨1, 5⟩ : VLData) ≠ ⟨1, 7⟩ :=
  ⟨rfl, rfl, rfl, rfl, by decide⟩

theorem claim_C2_array_reconciliation_amended_witness :
    ([(.raw (.prim (.num 9)) : RVal)].length <
      [(.raw (.prim (.num 1)) : RVal), .raw (.prim (.num 2))].length) ∧
    processGroup [.raw (.prim (.num 1)), .raw (.prim (.num 2))] [.raw (.prim (.num 9))] =
      ([.raw (.prim (.num 1))], [], [.raw (.prim (.num 2))]) := by
  refine ⟨by decide, ?_⟩
  have h := (claim_C2_array_reconciliation_amended.1
    [.raw (.prim (.num 1)), .raw (.prim (.num 2))] [.raw (.prim (.num 9))]).1 (by decide)
  rw [h]
  rfl

/-! ## Merge-replacement soundness (C8) -/

/-- A slot either survives a replacement walk unchanged or is overwritten
by a reference to a collected object. -/
def slotRepl (m : List (Token × Addr)) (v v2 : Value) : Prop :=
  v2 = v ∨ ∃ t newA, mapFind m t = some newA ∧ v2 = .ref newA

def slotsRepl (m : List (Token × Addr)) : List Value → List Value → Prop
  | [], [] => True
  | v :: vs, v2 :: vs2 => slotRepl m v v2 ∧ slotsRepl m vs vs2
  | _, _ => False

def propsRepl (m : List (Token × Addr)) :
    List (String × Value) → List (String × Value) → Prop
  | [], [] => True
  | (k, v) :: ps, (k2, v2) :: ps2 => k2 = k ∧ slotRepl m v v2 ∧ propsRepl m ps ps2
  | _, _ => False

/-- What the replacement walk may do to one node's payload: value-like
payloads are untouched, object and array payloads keep their shape and keys
with each slot merely `slotRepl`-evolved. -/
def dataRepl (m : List (Token × Addr)) : HData → HData → Prop
  | .obj props, .obj props2 => propsRepl m props props2
  | .arr elems, .arr elems2 => slotsRepl m elems elems2
  | .vlike d props, .vlike d2 props2 => d2 = d ∧ props2 = props
  | _, _ => False

/-- Soundness relation of the replacement walk: no allocation, every node
keeps its token, and payloads evolve by `dataRepl` only. -/
def RepOK (m : List (Token × Addr)) (h h2 : Heap) : Prop :=
  (∀ b, h b = none → h2 b = none) ∧
  (∀ b n, h b = some n → ∃ d2, h2 b = some ⟨n.token, d2⟩ ∧ dataRepl m n.data d2)

theorem slotRepl.self_slot (m : List (Token × Addr)) (v : Value) : slotRepl m v v :=
  Or.inl rfl

theorem slotsRepl.self_slots (m : List (Token × Addr)) : ∀ l, slotsRepl m l l := by
  intro l
  induction l with
  | nil => trivial
  | cons v vs ih => exact ⟨slotRepl.self_slot m v, ih⟩

theorem propsRepl.self_props (m : List (Token × Addr)) : ∀ l, propsRepl m l l := by
  intro l
  induction l with
  | nil => trivial
  | cons q ps ih =>
    obtain ⟨k, v⟩ := q
    exact ⟨rfl, slotRepl.self_slot m v, ih⟩

theorem dataRepl.self_data (m : List (Token × Addr)) : ∀ d, dataRepl m d d := by
  intro d
  cases d with
  | obj props => exact propsRepl.self_props m props
  | arr elems => exact slotsRepl.self_slots m elems
  | vlike d2 props => exact ⟨rfl, rfl⟩

theorem RepOK.self_rep (m : List (Token × Addr)) (h : Heap) : RepOK m h h :=
  ⟨fun _ hb => hb, fun b n hb => ⟨n.data, by rw [hb], dataRepl.self_data m n.data⟩⟩

theorem slotRepl.trans_slot {m : List (Token × Addr)} {v1 v2 v3 : Value}
    (h12 : slotRepl m v1 v2) (h23 : slotRepl m v2 v3) : slotRepl m v1 v3 := by
  rcases h23 with h | h
  · subst h
    exact h12
  · exact Or.inr h

theorem slotsRepl.trans_slots {m : List (Token × Addr)} :
    ∀ {l1 l2 l3 : List Value}, slotsRepl m l1 l2 → slotsRepl m l2 l3 →
      slotsRepl m l1 l3 := by
  intro l1
  induction l1 with
  | nil =>
    intro l2 l3 h12 h23
    cases l2 with
    | nil =>
      cases l3 with
      | nil => trivial
      | cons x xs => exact absurd h23 (fun h => h)
    | cons x xs => exact absurd h12 (fun h => h)
  | cons v vs ih =>
    intro l2 l3 h12 h23
    cases l2 with
    | nil => exact absurd h12 (fun h => h)
    | cons v2 vs2 =>
      cases l3 with
      | nil => exact absurd h23 (fun h => h)
      | cons v3 vs3 =>
        exact ⟨h12.1.trans_slot h23.1, ih h12.2 h23.2⟩

theorem propsRepl.trans_props {m : List (Token × Addr)} :
    ∀ {l1 l2 l3 : List (String × Value)}, propsRepl m l1 l2 → propsRepl m l2 l3 →
      propsRepl m l1 l3 := by
  intro l1
  induction l1 with
  | nil =>
    intro l2 l3 h12 h23
    cases l2 with
    | nil =>
      cases l3 with
      | nil => trivial
      | cons x xs => exact absurd h23 (fun h => h)
    | cons x xs => exact absurd h12 (fun h => h)
  | cons q ps ih =>
    obtain ⟨k, v⟩ := q
    intro l2 l3 h12 h23
    cases l2 with
    | nil => exact absurd h12 (fun h => h)
    | cons q2 ps2 =>
      obtain ⟨k2, v2⟩ := q2
      cases l3 with
      | nil => exact absurd h23 (fun h => h)
      | cons q3 ps3 =>
        obtain ⟨k3, v3⟩ := q3
        exact ⟨h23.1.trans h12.1, h12.2.1.trans_slot h23.2.1, ih h12.2.2 h23.2.2⟩

theorem dataRepl.trans_data {m : List (Token × Addr)} :
    ∀ {d1 d2 d3 : HData}, dataRepl m d1 d2 → dataRepl m d2 d3 →
      dataRepl m d1 d3 := by
  intro d1 d2 d3 h12 h23
  cases d1 with
  | obj props =>
    cases d2 with
    | obj props2 =>
      cases d3 with
      | obj props3 => exact propsRepl.trans_props h12 h23
      | arr _ => exact absurd h23 (fun h => h)
      | vlike _ _ => exact absurd h23 (fun h => h)
    | arr _ => exact absurd h12 (fun h => h)
    | vlike _ _ => exact absurd h12 (fun h => h)
  | arr elems =>
    cases d2 with
    | arr elems2 =>
      cases d3 with
      | arr elems3 => exact slotsRepl.trans_slots h12 h23
      | obj _ => exact absurd h23 (fun h => h)
      | vlike _ _ => exact absurd h23 (fun h => h)
    | obj _ => exact absurd h12 (fun h => h)
    | vlike _ _ => exact absurd h12 (fun h => h)
  | vlike d props =>
    cases d2 with
    | vlike d2x props2 =>
      cases d3 with
      | vlike d3x props3 =>
        exact ⟨h23.1.trans h12.1, h23.2.trans h12.2⟩
      | obj _ => exact absurd h23 (fun h => h)
      | arr _ => exact absurd h23 (fun h => h)
    | obj _ => exact absurd h12 (fun h => h)
    | arr _ => exact absurd h12 (fun h => h)

theorem RepOK.trans_rep {m : List (Token × Addr)} {h1 h2 h3 : Heap}
    (r12 : RepOK m h1 h2) (r23 : RepOK m h2 h3) : RepOK m h1 h3 := by
  refine ⟨fun b hb => r23.1 b (r12.1 b hb), fun b n hb => ?_⟩
  obtain ⟨d2, hb2, hd12⟩ := r12.2 b n hb
  obtain ⟨d3, hb3, hd23⟩ := r23.2 b ⟨n.token, d2⟩ hb2
  exact ⟨d3, hb3, hd12.trans_data hd23⟩

theorem slotsRepl.set_slots {m : List (Token × Addr)} {t : Token} {newA : Addr}
    (hfind : mapFind m t = some newA) :
    ∀ (elems : List Value) (i : Nat), slotsRepl m elems (elems.set i (.ref newA)) := by
  intro elems
  induction elems with
  | nil => intro i; trivial
  | cons v vs ih =>
    intro i
    cases i with
    | zero => exact ⟨Or.inr ⟨t, newA, hfind, rfl⟩, slotsRepl.self_slots m vs⟩
    | succ j => exact ⟨slotRepl.self_slot m v, ih j⟩

theorem propsRepl.pset_repl {m : List (Token × Addr)} {t : Token} {newA : Addr}
    (hfind : mapFind m t = some newA) :
    ∀ (props : List (String × Value)) (k : String), k ∈ props.map Prod.fst →
      propsRepl m props (pset props k (.ref newA)) := by
  intro props
  induction props with
  | nil => intro k hk; cases hk
  | cons q ps ih =>
    obtain ⟨k2, v2⟩ := q
    intro k hk
    simp only [pset]
    by_cases hke : k2 = k
    · rw [if_pos hke]
      exact ⟨rfl, Or.inr ⟨t, newA, hfind, rfl⟩, propsRepl.self_props m ps⟩
    · rw [if_neg hke]
      refine ⟨rfl, slotRepl.self_slot m v2, ih k ?_⟩
      simp only [List.map_cons, List.mem_cons] at hk
      rcases hk with h | h
      · exact absurd h.symm hke
      · exact h

theorem propsRepl.keys {m : List (Token × Addr)} :
    ∀ {ps ps2 : List (String × Value)}, propsRepl m ps ps2 →
      ps2.map Prod.fst = ps.map Prod.fst := by
  intro ps
  induction ps with
  | nil =>
    intro ps2 h
    cases ps2 with
    | nil => rfl
    | cons x xs => exact absurd h (fun h => h)
  | cons q ps ih =>
    obtain ⟨k, v⟩ := q
    intro ps2 h
    cases ps2 with
    | nil => exact absurd h (fun h => h)
    | cons q2 ps3 =>
      obtain ⟨k2, v2⟩ := q2
      simp only [List.map_cons]
      rw [h.1, ih h.2.2]

theorem RepOK.write_obj {m : List (Token × Addr)} {h : Heap} {a : Addr}
    {tok : Option Token} {props : List (String × Value)} {k : String}
    {t : Token} {newA : Addr}
    (ha : h a = some ⟨tok, .obj props⟩) (hfind : mapFind m t = some newA)
    (hk : k ∈ props.map Prod.fst) :
    RepOK m h (h.set a ⟨tok, .obj (pset props k (.ref newA))⟩) := by
  refine ⟨fun b hb => ?_, fun b n hb => ?_⟩
  · have hba : b ≠ a := by
      intro he
      rw [he, ha] at hb
      cases hb
    rw [Heap.set_other _ _ _ _ hba]
    exact hb
  · by_cases hba : b = a
    · subst hba
      rw [ha] at hb
      cases hb
      exact ⟨.obj (pset props k (.ref newA)), Heap.set_same _ _ _,
        propsRepl.pset_repl hfind props k hk⟩
    · rw [Heap.set_other _ _ _ _ hba]
      exact ⟨n.data, by rw [hb], dataRepl.self_data m n.data⟩

theorem RepOK.write_arr {m : List (Token × Addr)} {h : Heap} {a : Addr}
    {tok : Option Token} {elems : List Value} {i : Nat} {t : Token} {newA : Addr}
    (ha : h a = some ⟨tok, .arr elems⟩) (hfind : mapFind m t = some newA) :
    RepOK m h (h.set a ⟨tok, .arr (elems.set i (.ref newA))⟩) := by
  refine ⟨fun b hb => ?_, fun b n hb => ?_⟩
  · have hba : b ≠ a := by
      intro he
      rw [he, ha] at hb
      cases hb
    rw [Heap.set_other _ _ _ _ hba]
    exact hb
  · by_cases hba : b = a
    · subst hba
      rw [ha] at hb
      cases hb
      exact ⟨.arr (elems.set i (.ref newA)), Heap.set_same _ _ _,
        slotsRepl.set_slots hfind elems i⟩
    · rw [Heap.set_other _ _ _ _ hba]
      exact ⟨n.data, by rw [hb], dataRepl.self_data m n.data⟩

theorem RepOK.keys_at {m : List (Token × Addr)} {h h1 : Heap} {a : Addr}
    {tok : Option Token} {props : List (String × Value)} (step : RepOK m h h1)
    (hha : h a = some ⟨tok, .obj props⟩) :
    ∀ tok2 props2, h1 a = some ⟨tok2, .obj props2⟩ →
      props2.map Prod.fst = props.map Prod.fst := by
  intro tok2 props2 hh1
  obtain ⟨d2, hb2, hd⟩ := step.2 a _ hha
  rw [hb2] at hh1
  cases hh1
  exact propsRepl.keys hd

theorem replaceArrElems_RepOK (rec : RepRec) (m : List (Token × Addr)) (a : Addr)
    (hrec : ∀ v h seen r, rec v h seen = some r → RepOK m h r.1) :
    ∀ rem i (h : Heap) seen r, replaceArrElems rec m a i rem h seen = some r →
      RepOK m h r.1 := by
  intro rem
  induction rem with
  | zero =>
    intro i h seen r hrun
    simp only [replaceArrElems] at hrun
    cases hrun
    exact RepOK.self_rep m h
  | succ rem ih =>
    intro i h seen r hrun
    simp only [replaceArrElems] at hrun
    cases hha : h a with
    | none => simp only [hha] at hrun; cases hrun; exact RepOK.self_rep m h
    | some n =>
      obtain ⟨tok, nd⟩ := n
      cases nd with
      | obj props => simp only [hha] at hrun; cases hrun; exact RepOK.self_rep m h
      | vlike d props => simp only [hha] at hrun; cases hrun; exact RepOK.self_rep m h
      | arr elems =>
        simp only [hha] at hrun
        cases hgi : elems.get? i with
        | none => simp only [hgi] at hrun; cases hrun; exact RepOK.self_rep m h
        | some v =>
          simp only [hgi] at hrun
          cases v with
          | ref b =>
            cases hhb : h b with
            | none => simp only [hhb] at hrun; cases hrun
            | some nb =>
              simp only [hhb] at hrun
              cases htok : nb.token with
              | some t =>
                simp only [htok] at hrun
                cases hfind : mapFind m t with
                | some newA =>
                  simp only [hfind] at hrun
                  have step1 : RepOK m h
                      (h.set a ⟨tok, .arr (elems.set i (.ref newA))⟩) :=
                    RepOK.write_arr hha hfind
                  exact step1.trans_rep (ih (i + 1) _ seen r hrun)
                | none =>
                  simp only [hfind] at hrun
                  cases hr : rec (.ref b) h seen with
                  | none => rw [hr] at hrun; cases hrun
                  | some p =>
                    obtain ⟨h1, seen1⟩ := p
                    simp only [hr] at hrun
                    exact (hrec _ _ _ _ hr).trans_rep (ih (i + 1) h1 seen1 r hrun)
              | none =>
                simp only [htok] at hrun
                cases hr : rec (.ref b) h seen with
                | none => rw [hr] at hrun; cases hrun
                | some p =>
                  obtain ⟨h1, seen1⟩ := p
                  simp only [hr] at hrun
                  exact (hrec _ _ _ _ hr).trans_rep (ih (i + 1) h1 seen1 r hrun)
          | prim pp =>
            simp only at hrun
            cases hr : rec (.prim pp) h seen with
            | none => rw [hr] at hrun; cases hrun
            | some p =>
              obtain ⟨h1, seen1⟩ := p
              simp only [hr] at hrun
              exact (hrec _ _ _ _ hr).trans_rep (ih (i + 1) h1 seen1 r hrun)
          | fn ii =>
            simp only at hrun
            cases hr : rec (.fn ii) h seen with
            | none => rw [hr] at hrun; cases hrun
            | some p =>
              obtain ⟨h1, seen1⟩ := p
              simp only [hr] at hrun
              exact (hrec _ _ _ _ hr).trans_rep (ih (i + 1) h1 seen1 r hrun)

theorem replaceObjProps_RepOK (rec : RepRec) (m : List (Token × Addr)) (a : Addr)
    (hrec : ∀ v h seen r, rec v h seen = some r → RepOK m h r.1) :
    ∀ ks (h : Heap) seen r, replaceObjProps rec m a ks h seen = some r →
      (∀ tok props, h a = some ⟨tok, .obj props⟩ → ∀ k ∈ ks, k ∈ props.map Prod.fst) →
      RepOK m h r.1 := by
  intro ks
  induction ks with
  | nil =>
    intro h seen r hrun _
    simp only [replaceObjProps] at hrun
    cases hrun
    exact RepOK.self_rep m h
  | cons k ks ih =>
    intro h seen r hrun hmem
    simp only [replaceObjProps] at hrun
    cases hha : h a with
    | none => simp only [hha] at hrun; cases hrun; exact RepOK.self_rep m h
    | some n =>
      obtain ⟨tok, nd⟩ := n
      cases nd with
      | arr elems => simp only [hha] at hrun; cases hrun; exact RepOK.self_rep m h
      | vlike d props => simp only [hha] at hrun; cases hrun; exact RepOK.self_rep m h
      | obj props =>
        simp only [hha] at hrun
        cases hv : propGet props k with
        | ref b =>
          simp only [hv] at hrun
          cases hhb : h b with
          | none => simp only [hhb] at hrun; cases hrun
          | some nb =>
            simp only [hhb] at hrun
            cases htok : nb.token with
            | some t =>
              simp only [htok] at hrun
              cases hfind : mapFind m t with
              | some newA =>
                simp only [hfind] at hrun
                have step1 : RepOK m h
                    (h.set a ⟨tok, .obj (pset props k (.ref newA))⟩) :=
                  RepOK.write_obj hha hfind
                    (hmem tok props hha k (List.mem_cons_self _ _))
                refine step1.trans_rep (ih _ seen r hrun ?_)
                intro tok2 props2 hh1a k2 hk2
                rw [step1.keys_at hha tok2 props2 hh1a]
                exact hmem tok props hha k2 (List.mem_cons_of_mem _ hk2)
              | none =>
                simp only [hfind] at hrun
                cases hr : rec (.ref b) h seen with
                | none => rw [hr] at hrun; cases hrun
                | some p =>
                  obtain ⟨h1, seen1⟩ := p
                  simp only [hr] at hrun
                  have step1 := hrec _ _ _ _ hr
                  refine step1.trans_rep (ih h1 seen1 r hrun ?_)
                  intro tok2 props2 hh1a k2 hk2
                  rw [step1.keys_at hha tok2 props2 hh1a]
                  exact hmem tok props hha k2 (List.mem_cons_of_mem _ hk2)
            | none =>
              simp only [htok] at hrun
              cases hr : rec (.ref b) h seen with
              | none => rw [hr] at hrun; cases hrun
              | some p =>
                obtain ⟨h1, seen1⟩ := p
                simp only [hr] at hrun
                have step1 := hrec _ _ _ _ hr
                refine step1.trans_rep (ih h1 seen1 r hrun ?_)
                intro tok2 props2 hh1a k2 hk2
                rw [step1.keys_at hha tok2 props2 hh1a]
                exact hmem tok props hha k2 (List.mem_cons_of_mem _ hk2)
        | prim pp =>
          simp only [hv] at hrun
          cases hr : rec (.prim pp) h seen with
          | none => rw [hr] at hrun; cases hrun
          | some p =>
            obtain ⟨h1, seen1⟩ := p
            simp only [hr] at hrun
            have step1 := hrec _ _ _ _ hr
            refine step1.trans_rep (ih h1 seen1 r hrun ?_)
            intro tok2 props2 hh1a k2 hk2
            rw [step1.keys_at hha tok2 props2 hh1a]
            exact hmem tok props hha k2 (List.mem_cons_of_mem _ hk2)
        | fn ii =>
          simp only [hv] at hrun
          cases hr : rec (.fn ii) h seen with
          | none => rw [hr] at hrun; cases hrun
          | some p =>
            obtain ⟨h1, seen1⟩ := p
            simp only [hr] at hrun
            have step1 := hrec _ _ _ _ hr
            refine step1.trans_rep (ih h1 seen1 r hrun ?_)
            intro tok2 props2 hh1a k2 hk2
            rw [step1.keys_at hha tok2 props2 hh1a]
            exact hmem tok props hha k2 (List.mem_cons_of_mem _ hk2)

theorem replaceAll_RepOK :
    ∀ fuel (m : List (Token × Addr)) v (h : Heap) seen r,
      replaceAll fuel m v h seen = some r → RepOK m h r.1 := by
  intro fuel
  induction fuel with
  | zero => intro m v h seen r hrun; simp [replaceAll] at hrun
  | succ f ih =>
    intro m v h seen r hrun
    cases v with
    | prim p => simp only [replaceAll] at hrun; cases hrun; exact RepOK.self_rep m h
    | fn i => simp only [replaceAll] at hrun; cases hrun; exact RepOK.self_rep m h
    | ref a =>
      simp only [replaceAll] at hrun
      cases hha : h a with
      | none => rw [hha] at hrun; cases hrun
      | some n =>
        simp only [hha] at hrun
        cases hdat : n.data with
        | vlike d props =>
          simp only [hdat] at hrun
          cases hrun
          exact RepOK.self_rep m h
        | arr elems =>
          simp only [hdat] at hrun
          by_cases hseen : a ∈ seen
          · rw [if_pos hseen] at hrun
            cases hrun
            exact RepOK.self_rep m h
          · rw [if_neg hseen] at hrun
            exact replaceArrElems_RepOK _ m a (fun v2 h2 sn2 r2 => ih m v2 h2 sn2 r2)
              elems.length 0 h (a :: seen) r hrun
        | obj props =>
          simp only [hdat] at hrun
          by_cases hseen : a ∈ seen
          · rw [if_pos hseen] at hrun
            cases hrun
            exact RepOK.self_rep m h
          · rw [if_neg hseen] at hrun
            refine replaceObjProps_RepOK _ m a (fun v2 h2 sn2 r2 => ih m v2 h2 sn2 r2)
              (getPropertyKeys props) h (a :: seen) r hrun ?_
            intro tok2 props2 hha2 k hk
            rw [hha] at hha2
            have hn : n = ⟨tok2, .obj props2⟩ := by
              cases hha2
              rfl
            rw [hn] at hdat
            cases hdat
            simp only [getPropertyKeys, List.mem_filter] at hk
            exact hk.1

theorem mapSet_sound {h : Heap} {acc : List (Token × Addr)}
    (hacc : ∀ p ∈ acc, ∃ n, h p.2 = some n ∧ n.token = some p.1)
    {t : Token} {a : Addr} {n : HNode} (hn : h a = some n) (ht : n.token = some t) :
    ∀ p ∈ mapSet acc t a, ∃ n2, h p.2 = some n2 ∧ n2.token = some p.1 := by
  induction acc with
  | nil =>
    intro p hp
    simp only [mapSet] at hp
    rcases List.mem_singleton.mp hp with rfl
    exact ⟨n, hn, ht⟩
  | cons q rest ih =>
    obtain ⟨t2, a2⟩ := q
    intro p hp
    simp only [mapSet] at hp
    by_cases hte : t2 = t
    · rw [if_pos hte] at hp
      rcases List.mem_cons.mp hp with hq | hq
      · subst hq
        exact ⟨n, hn, hte ▸ ht⟩
      · exact hacc p (List.mem_cons_of_mem _ hq)
    · rw [if_neg hte] at hp
      rcases List.mem_cons.mp hp with hq | hq
      · subst hq
        exact hacc (t2, a2) (List.mem_cons_self _ _)
      · exact ih (fun q2 hq2 => hacc q2 (List.mem_cons_of_mem _ hq2)) p hq

theorem collectIdsList_sound (rec : ColRec) (h : Heap)
    (hrec : ∀ v acc seen r, rec v acc seen = some r →
      (∀ p ∈ acc, ∃ n, h p.2 = some n ∧ n.token = some p.1) →
      ∀ p ∈ r.1, ∃ n, h p.2 = some n ∧ n.token = some p.1) :
    ∀ vs acc seen r, collectIdsList rec vs acc seen = some r →
      (∀ p ∈ acc, ∃ n, h p.2 = some n ∧ n.token = some p.1) →
      ∀ p ∈ r.1, ∃ n, h p.2 = some n ∧ n.token = some p.1 := by
  intro vs
  induction vs with
  | nil =>
    intro acc seen r hrun hacc
    simp only [collectIdsList] at hrun
    cases hrun
    exact hacc
  | cons v vs ih =>
    intro acc seen r hrun hacc
    simp only [collectIdsList] at hrun
    cases hr : rec v acc seen with
    | none => rw [hr] at hrun; cases hrun
    | some p1 =>
      obtain ⟨acc1, seen1⟩ := p1
      simp only [hr] at hrun
      exact ih acc1 seen1 r hrun (hrec v acc seen _ hr hacc)

theorem collectIds_sound :
    ∀ fuel (h : Heap) v acc seen r, collectIds fuel h v acc seen = some r →
      (∀ p ∈ acc, ∃ n, h p.2 = some n ∧ n.token = some p.1) →
      ∀ p ∈ r.1, ∃ n, h p.2 = some n ∧ n.token = some p.1 := by
  intro fuel
  induction fuel with
  | zero => intro h v acc seen r hrun; simp [collectIds] at hrun
  | succ f ih =>
    intro h v acc seen r hrun hacc
    cases v with
    | prim p => simp only [collectIds] at hrun; cases hrun; exact hacc
    | fn i => simp only [collectIds] at hrun; cases hrun; exact hacc
    | ref a =>
      simp only [collectIds] at hrun
      cases hha : h a with
      | none => rw [hha] at hrun; cases hrun
      | some n =>
        simp only [hha] at hrun
        cases hdat : n.data with
        | vlike d props =>
          simp only [hdat] at hrun
          cases hrun
          exact hacc
        | arr elems =>
          simp only [hdat] at hrun
          by_cases hseen : a ∈ seen
          · rw [if_pos hseen] at hrun
            cases hrun
            exact hacc
          · rw [if_neg hseen] at hrun
            cases htok : n.token with
            | some t =>
              simp only [htok] at hrun
              exact collectIdsList_sound _ h (fun v2 a2 s2 r2 hr2 => ih h v2 a2 s2 r2 hr2)
                _ _ _ r hrun (mapSet_sound hacc hha htok)
            | none =>
              simp only [htok] at hrun
              exact collectIdsList_sound _ h (fun v2 a2 s2 r2 hr2 => ih h v2 a2 s2 r2 hr2)
                _ _ _ r hrun hacc
        | obj props =>
          simp only [hdat] at hrun
          by_cases hseen : a ∈ seen
          · rw [if_pos hseen] at hrun
            cases hrun
            exact hacc
          · rw [if_neg hseen] at hrun
            cases htok : n.token with
            | some t =>
              simp only [htok] at hrun
              exact collectIdsList_sound _ h (fun v2 a2 s2 r2 hr2 => ih h v2 a2 s2 r2 hr2)
                _ _ _ r hrun (mapSet_sound hacc hha htok)
            | none =>
              simp only [htok] at hrun
              exact collectIdsList_sound _ h (fun v2 a2 s2 r2 hr2 => ih h v2 a2 s2 r2 hr2)
                _ _ _ r hrun hacc

/-- A host whose root reaches a token-5 object only through a value-like
container, plus a fresh token-5 object to merge in. -/
def c8heap : Heap := fun a =>
  if a = 0 then some ⟨none, .obj [("x", .ref 1)]⟩
  else if a = 1 then some ⟨none, .vlike ⟨0, 0⟩ [("o", .ref 2)]⟩
  else if a = 2 then some ⟨some 5, .obj []⟩
  else if a = 3 then some ⟨some 5, .obj []⟩
  else none

def c8vres : Heap := (membraneSet 20 (.ref 0) 0 "y" (.ref 3) c8heap).getD c8heap

/-- A host referencing one token-5 object from two distinct container
paths, plus a fresh token-5 object to merge in. -/
def c8heap2 : Heap := fun a =>
  if a = 0 then some ⟨none, .obj [("p", .ref 1), ("q", .ref 2)]⟩
  else if a = 1 then some ⟨none, .obj [("o", .ref 3)]⟩
  else if a = 2 then some ⟨none, .obj [("o", .ref 3)]⟩
  else if a = 3 then some ⟨some 5, .obj []⟩
  else if a = 4 then some ⟨some 5, .obj []⟩
  else none

def c8h2res : Heap := (membraneSet 20 (.ref 0) 0 "r" (.ref 4) c8heap2).getD c8heap2

/-- C8 (amended): the merge interception sets the underlying property and
then rewrites the host model, but the replacement walk never enters a
value-like container (first conjunct), the collection records exactly
tokened objects of the assigned subgraph (second conjunct), the walk only
rewrites reference slots to collected objects while preserving every
node's token, keys and shape and leaving value-like payloads untouched
(third conjunct), and a host object referenced from two distinct
non-value-like container paths is reference-equal to the newly assigned
object at both paths afterwards (final conjuncts). -/
theorem claim_C8_merge_amended :
    (∀ fuel m a (h : Heap) seen tk d props,
      h a = some ⟨tk, .vlike d props⟩ →
      replaceAll (fuel + 1) m (.ref a) h seen = some (h, seen)) ∧
    (∀ fuel (h : Heap) v acc seen r, collectIds fuel h v acc seen = some r →
      (∀ p ∈ acc, ∃ n, h p.2 = some n ∧ n.token = some p.1) →
      ∀ p ∈ r.1, ∃ n, h p.2 = some n ∧ n.token = some p.1) ∧
    (∀ fuel m v (h : Heap) seen r, replaceAll fuel m v h seen = some r →
      RepOK m h r.1) ∧
    (membraneSet 20 (.ref 0) 0 "r" (.ref 4) c8heap2 = some c8h2res ∧
      c8h2res 1 = some ⟨none, .obj [("o", .ref 4)]⟩ ∧
      c8h2res 2 = some ⟨none, .obj [("o", .ref 4)]⟩) := by
  refine ⟨fun fuel m a h seen tk d props hha => ?_,
    collectIds_sound, replaceAll_RepOK, rfl, rfl, rfl⟩
  simp only [replaceAll, hha]

/-- C8 counterexample: the claim says EVERY reference in the host model
whose token matches a collected object is replaced; but the walk skips
value-like containers, so the token-5 reference stored inside the
value-like node survives the merge pointing at the old object. -/
theorem claim_C8_counterexample :
    membraneSet 20 (.ref 0) 0 "y" (.ref 3) c8heap = some c8vres ∧
    c8vres 1 = some ⟨none, .vlike ⟨0, 0⟩ [("o", .ref 2)]⟩ ∧
    (c8vres 2).map HNode.token = some (some 5) ∧
    (c8vres 3).map HNode.token = some (some 5) ∧
    (2 : Addr) ≠ 3 :=
  ⟨rfl, rfl, rfl, rfl, by decide⟩

theorem claim_C8_merge_amended_witness :
    c8heap 1 = some ⟨none, .vlike ⟨0, 0⟩ [("o", .ref 2)]⟩ ∧
    replaceAll 4 [(5, 3)] (.ref 1) c8heap [] = some (c8heap, []) := by
  refine ⟨rfl, ?_⟩
  exact claim_C8_merge_amended.1 3 [(5, 3)] 1 c8heap [] none ⟨0, 0⟩
    [("o", .ref 2)] rfl

/-! ## Conflict soundness (C3) -/

theorem lfind_mem : ∀ (l : Lookup) (k : LKey) (e : Entry),
    lfind l k = some e → (k, e) ∈ l := by
  intro l
  induction l with
  | nil => intro k e hf; cases hf
  | cons p rest ih =>
    obtain ⟨k2, e2⟩ := p
    intro k e hf
    simp only [lfind] at hf
    by_cases hk : k = k2
    · rw [if_pos hk] at hf
      cases hf
      subst hk
      exact List.mem_cons_self _ _
    · rw [if_neg hk] at hf
      exact List.mem_cons_of_mem _ (ih k e hf)

/-- Every former instance registered in the lookup is a live node whose
token yields exactly the key it is registered under. -/
def RegFormer (h : Heap) (l : Lookup) : Prop :=
  ∀ p ∈ l, ∀ b, (p : LKey × Entry).2.former = some b →
    ∃ n, h b = some n ∧ lookupKeyFormer n.token = p.1

/-- Every present instance registered in the lookup is a live node whose
token (or the instance itself) yields exactly the key it is registered
under. -/
def RegPresent (h : Heap) (l : Lookup) : Prop :=
  ∀ p ∈ l, ∀ b, (p : LKey × Entry).2.present = some b →
    ∃ n, h b = some n ∧ lookupKeyPresent n.token b = p.1

/-- The two registration invariants together. -/
def RegBoth (h : Heap) (l : Lookup) : Prop := RegFormer h l ∧ RegPresent h l

theorem lupdate_mem : ∀ (l : Lookup) (k : LKey) (e : Entry) q,
    q ∈ lupdate l k e → q ∈ l ∨ q = (k, e) := by
  intro l
  induction l with
  | nil => intro k e q hq; simp only [lupdate] at hq; cases hq
  | cons p rest ih =>
    obtain ⟨k2, e2⟩ := p
    intro k e q hq
    simp only [lupdate] at hq
    by_cases hk : k = k2
    · rw [if_pos hk] at hq
      rcases List.mem_cons.mp hq with hqq | hqq
      · subst hqq
        subst hk
        exact Or.inr rfl
      · exact Or.inl (List.mem_cons_of_mem _ hqq)
    · rw [if_neg hk] at hq
      rcases List.mem_cons.mp hq with hqq | hqq
      · subst hqq
        exact Or.inl (List.mem_cons_self _ _)
      · rcases ih k e q hqq with hh | hh
        · exact Or.inl (List.mem_cons_of_mem _ hh)
        · exact Or.inr hh

theorem RegBoth.upd {h : Heap} {l : Lookup} (hr : RegBoth h l) {k : LKey}
    {e : Entry}
    (hf : ∀ b, e.former = some b → ∃ n, h b = some n ∧ lookupKeyFormer n.token = k)
    (hp : ∀ b, e.present = some b → ∃ n, h b = some n ∧ lookupKeyPresent n.token b = k) :
    RegBoth h (lupdate l k e) := by
  constructor
  · intro q hq b hb
    rcases lupdate_mem l k e q hq with hh | hh
    · exact hr.1 q hh b hb
    · subst hh
      exact hf b hb
  · intro q hq b hb
    rcases lupdate_mem l k e q hq with hh | hh
    · exact hr.2 q hh b hb
    · subst hh
      exact hp b hb

theorem RegBoth.append {h : Heap} {l : Lookup} (hr : RegBoth h l) {k : LKey}
    {e : Entry}
    (hf : ∀ b, e.former = some b → ∃ n, h b = some n ∧ lookupKeyFormer n.token = k)
    (hp : ∀ b, e.present = some b → ∃ n, h b = some n ∧ lookupKeyPresent n.token b = k) :
    RegBoth h (l ++ [(k, e)]) := by
  constructor
  · intro q hq b hb
    rcases List.mem_append.mp hq with hqq | hqq
    · exact hr.1 q hqq b hb
    · rcases List.mem_singleton.mp hqq with rfl
      exact hf b hb
  · intro q hq b hb
    rcases List.mem_append.mp hq with hqq | hqq
    · exact hr.2 q hqq b hb
    · rcases List.mem_singleton.mp hqq with rfl
      exact hp b hb

theorem RegBoth.keysUpd {h : Heap} {l : Lookup} (hr : RegBoth h l) {k : LKey}
    {e : Entry} (hfind : lfind l k = some e) (ks2 : List String) :
    RegBoth h (lupdate l k { e with keys := ks2 }) := by
  have hm := lfind_mem l k e hfind
  exact hr.upd (fun b hb => hr.1 (k, e) hm b hb) (fun b hb => hr.2 (k, e) hm b hb)

theorem buildElems_sound (rec : BuildRec) (I : Lookup → Prop) (Q : Conflict → Prop)
    (hQ : ∀ (c : Conflict) seg, Q c → Q { c with rightPath := c.rightPath ++ [seg] })
    (hrec : ∀ v st res, rec v st = some res → I st.lookup →
      (∀ st2, res = .ok st2 → I st2.lookup) ∧ (∀ c, res = .error c → Q c)) :
    ∀ i vs (st : LState) res, buildElems rec i vs st = some res → I st.lookup →
      (∀ st2, res = .ok st2 → I st2.lookup) ∧ (∀ c, res = .error c → Q c) := by
  intro i vs
  induction vs generalizing i with
  | nil =>
    intro st res hrun hI
    simp only [buildElems] at hrun
    cases hrun
    exact ⟨fun st2 h2 => (by cases h2; exact hI), fun c hc => (by cases hc)⟩
  | cons v vs ih =>
    intro st res hrun hI
    simp only [buildElems] at hrun
    cases hrec2 : rec v st with
    | none => rw [hrec2] at hrun; cases hrun
    | some res1 =>
      cases res1 with
      | error c =>
        simp only [hrec2] at hrun
        cases hrun
        refine ⟨fun st2 h2 => (by cases h2), fun c2 hc2 => ?_⟩
        cases hc2
        exact hQ c (.idx i) ((hrec v st _ hrec2 hI).2 c rfl)
      | ok st2 =>
        simp only [hrec2] at hrun
        exact ih (i + 1) st2 res hrun ((hrec v st _ hrec2 hI).1 st2 rfl)

theorem buildProps_sound (rec : BuildRec) (I : Lookup → Prop) (Q : Conflict → Prop)
    (hQ : ∀ (c : Conflict) seg, Q c → Q { c with rightPath := c.rightPath ++ [seg] })
    (hIupd : ∀ l lk (e : Entry) k2, I l → lfind l lk = some e →
      I (lupdate l lk { e with keys := addKey e.keys k2 }))
    (hrec : ∀ v st res, rec v st = some res → I st.lookup →
      (∀ st2, res = .ok st2 → I st2.lookup) ∧ (∀ c, res = .error c → Q c)) :
    ∀ accKey ks props (st : LState) res,
      buildProps rec accKey ks props st = some res → I st.lookup →
      (∀ st2, res = .ok st2 → I st2.lookup) ∧ (∀ c, res = .error c → Q c) := by
  intro accKey ks
  induction ks with
  | nil =>
    intro props st res hrun hI
    simp only [buildProps] at hrun
    cases hrun
    exact ⟨fun st2 h2 => (by cases h2; exact hI), fun c hc => (by cases hc)⟩
  | cons k ks ih =>
    intro props st res hrun hI
    simp only [buildProps] at hrun
    cases accKey with
    | none =>
      simp only at hrun
      cases hrec2 : rec (propGet props k) st with
      | none => rw [hrec2] at hrun; cases hrun
      | some res1 =>
        cases res1 with
        | error c =>
          simp only [hrec2] at hrun
          cases hrun
          refine ⟨fun st2 h2 => (by cases h2), fun c2 hc2 => ?_⟩
          cases hc2
          exact hQ c (.key k) ((hrec _ st _ hrec2 hI).2 c rfl)
        | ok st2 =>
          simp only [hrec2] at hrun
          exact ih props st2 res hrun ((hrec _ st _ hrec2 hI).1 st2 rfl)
    | some lk =>
      simp only at hrun
      cases hlf : lfind st.lookup lk with
      | none =>
        simp only [hlf] at hrun
        cases hrec2 : rec (propGet props k) st with
        | none => rw [hrec2] at hrun; cases hrun
        | some res1 =>
          cases res1 with
          | error c =>
            simp only [hrec2] at hrun
            cases hrun
            refine ⟨fun st2 h2 => (by cases h2), fun c2 hc2 => ?_⟩
            cases hc2
            exact hQ c (.key k) ((hrec _ st _ hrec2 hI).2 c rfl)
          | ok st2 =>
            simp only [hrec2] at hrun
            exact ih props st2 res hrun ((hrec _ st _ hrec2 hI).1 st2 rfl)
      | some e =>
        simp only [hlf] at hrun
        have hI1 : I (lupdate st.lookup lk { e with keys := addKey e.keys k }) :=
          hIupd st.lookup lk e k hI hlf
        cases hrec2 : rec (propGet props k)
            { st with lookup := lupdate st.lookup lk { e with keys := addKey e.keys k } } with
        | none => rw [hrec2] at hrun; cases hrun
        | some res1 =>
          cases res1 with
          | error c =>
            simp only [hrec2] at hrun
            cases hrun
            refine ⟨fun st2 h2 => (by cases h2), fun c2 hc2 => ?_⟩
            cases hc2
            exact hQ c (.key k) ((hrec _ _ _ hrec2 hI1).2 c rfl)
          | ok st2 =>
            simp only [hrec2] at hrun
            exact ih props st2 res hrun ((hrec _ _ _ hrec2 hI1).1 st2 rfl)

/-- Soundness of a conflict detected by the former traversal: it names the
former side, two distinct instances, both alive and both resolving (via the
former lookup key of their token) to the colliding key. -/
def CSoundF (h : Heap) (c : Conflict) : Prop :=
  c.source = .former ∧ c.left ≠ c.right ∧
  (∃ n, h c.left = some n ∧ lookupKeyFormer n.token = c.objectId) ∧
  (∃ n, h c.right = some n ∧ lookupKeyFormer n.token = c.objectId)

/-- Soundness of a conflict detected by the present traversal. -/
def CSoundP (h : Heap) (c : Conflict) : Prop :=
  c.source = .present ∧ c.left ≠ c.right ∧
  (∃ n, h c.left = some n ∧ lookupKeyPresent n.token c.left = c.objectId) ∧
  (∃ n, h c.right = some n ∧ lookupKeyPresent n.token c.right = c.objectId)

theorem buildFormerArray_sound (h : Heap) (rec : BuildRec)
    (hrec : ∀ v st res, rec v st = some res → RegBoth h st.lookup →
      (∀ st2, res = .ok st2 → RegBoth h st2.lookup) ∧ (∀ c, res = .error c → CSoundF h c))
    (a : Addr) (na : HNode) (hna : h a = some na)
    (elems : List Value) (st : LState) (res : Except Conflict LState)
    (hrun : buildFormerArrayLookupTree rec a na.token elems st = some res)
    (hI : RegBoth h st.lookup) :
    (∀ st2, res = .ok st2 → RegBoth h st2.lookup) ∧
    (∀ c, res = .error c → CSoundF h c) := by
  rw [buildFormerArrayLookupTree] at hrun
  cases hlf : lfind st.lookup (lookupKeyFormer na.token) with
  | none =>
    simp only [hlf] at hrun
    refine buildElems_sound rec (RegBoth h) (CSoundF h) (fun c seg hc => hc) hrec
      0 elems _ res hrun ?_
    exact hI.append (fun b hb => (by cases hb; exact ⟨na, hna, rfl⟩))
      (fun b hb => (by cases hb))
  | some e =>
    simp only [hlf] at hrun
    cases he : e.former with
    | some b =>
      simp only [he] at hrun
      by_cases hba : b ≠ a
      · rw [if_pos hba] at hrun
        cases hrun
        refine ⟨fun st2 h2 => (by cases h2), fun c hc => ?_⟩
        cases hc
        exact ⟨rfl, hba, hI.1 _ (lfind_mem _ _ _ hlf) b he, ⟨na, hna, rfl⟩⟩
      · rw [if_neg hba] at hrun
        cases hrun
        exact ⟨fun st2 h2 => (by cases h2; exact hI), fun c hc => (by cases hc)⟩
    | none =>
      simp only [he] at hrun
      refine buildElems_sound rec (RegBoth h) (CSoundF h) (fun c seg hc => hc) hrec
        0 elems _ res hrun ?_
      refine hI.upd (fun b hb => ?_) (fun b hb => hI.2 _ (lfind_mem _ _ _ hlf) b hb)
      cases hb
      exact ⟨na, hna, rfl⟩

theorem buildFormerObject_sound (h : Heap) (rec : BuildRec)
    (hrec : ∀ v st res, rec v st = some res → RegBoth h st.lookup →
      (∀ st2, res = .ok st2 → RegBoth h st2.lookup) ∧ (∀ c, res = .error c → CSoundF h c))
    (a : Addr) (na : HNode) (hna : h a = some na)
    (props : List (String × Value)) (st : LState) (res : Except Conflict LState)
    (hrun : buildFormerObjectLookupTree rec a na.token props st = some res)
    (hI : RegBoth h st.lookup) :
    (∀ st2, res = .ok st2 → RegBoth h st2.lookup) ∧
    (∀ c, res = .error c → CSoundF h c) := by
  rw [buildFormerObjectLookupTree] at hrun
  cases hlf : lfind st.lookup (lookupKeyFormer na.token) with
  | none =>
    simp only [hlf] at hrun
    refine buildProps_sound rec (RegBoth h) (CSoundF h) (fun c seg hc => hc)
      (fun l lk e2 k2 hIl hlf2 => hIl.keysUpd hlf2 _) hrec
      none _ props _ res hrun ?_
    exact hI.append (fun b hb => (by cases hb; exact ⟨na, hna, rfl⟩))
      (fun b hb => (by cases hb))
  | some e =>
    simp only [hlf] at hrun
    cases he : e.former with
    | some b =>
      simp only [he] at hrun
      by_cases hba : b ≠ a
      · rw [if_pos hba] at hrun
        cases hrun
        refine ⟨fun st2 h2 => (by cases h2), fun c hc => ?_⟩
        cases hc
        exact ⟨rfl, hba, hI.1 _ (lfind_mem _ _ _ hlf) b he, ⟨na, hna, rfl⟩⟩
      · rw [if_neg hba] at hrun
        cases hrun
        exact ⟨fun st2 h2 => (by cases h2; exact hI), fun c hc => (by cases hc)⟩
    | none =>
      simp only [he] at hrun
      refine buildProps_sound rec (RegBoth h) (CSoundF h) (fun c seg hc => hc)
        (fun l lk e2 k2 hIl hlf2 => hIl.keysUpd hlf2 _) hrec
        _ _ props _ res hrun ?_
      refine hI.upd (fun b hb => ?_) (fun b hb => hI.2 _ (lfind_mem _ _ _ hlf) b hb)
      cases hb
      exact ⟨na, hna, rfl⟩

theorem buildPresentArray_sound (h : Heap) (rec : BuildRec)
    (hrec : ∀ v st res, rec v st = some res → RegBoth h st.lookup →
      (∀ st2, res = .ok st2 → RegBoth h st2.lookup) ∧ (∀ c, res = .error c → CSoundP h c))
    (a : Addr) (na : HNode) (hna : h a = some na)
    (elems : List Value) (st : LState) (res : Except Conflict LState)
    (hrun : buildPresentArrayLookupTree rec a na.token elems st = some res)
    (hI : RegBoth h st.lookup) :
    (∀ st2, res = .ok st2 → RegBoth h st2.lookup) ∧
    (∀ c, res = .error c → CSoundP h c) := by
  rw [buildPresentArrayLookupTree] at hrun
  cases hlf : lfind st.lookup (lookupKeyPresent na.token a) with
  | none =>
    simp only [hlf] at hrun
    refine buildElems_sound rec (RegBoth h) (CSoundP h) (fun c seg hc => hc) hrec
      0 elems _ res hrun ?_
    exact hI.append (fun b hb => (by cases hb))
      (fun b hb => (by cases hb; exact ⟨na, hna, rfl⟩))
  | some e =>
    simp only [hlf] at hrun
    cases he : e.present with
    | some b =>
      simp only [he] at hrun
      by_cases hba : b ≠ a
      · rw [if_pos hba] at hrun
        cases hrun
        refine ⟨fun st2 h2 => (by cases h2), fun c hc => ?_⟩
        cases hc
        exact ⟨rfl, hba, hI.2 _ (lfind_mem _ _ _ hlf) b he, ⟨na, hna, rfl⟩⟩
      · rw [if_neg hba] at hrun
        cases hrun
        exact ⟨fun st2 h2 => (by cases h2; exact hI), fun c hc => (by cases hc)⟩
    | none =>
      simp only [he] at hrun
      refine buildElems_sound rec (RegBoth h) (CSoundP h) (fun c seg hc => hc) hrec
        0 elems _ res hrun ?_
      refine hI.upd (fun b hb => hI.1 _ (lfind_mem _ _ _ hlf) b hb) (fun b hb => ?_)
      cases hb
      exact ⟨na, hna, rfl⟩

theorem buildPresentObject_sound (h : Heap) (rec : BuildRec)
    (hrec : ∀ v st res, rec v st = some res → RegBoth h st.lookup →
      (∀ st2, res = .ok st2 → RegBoth h st2.lookup) ∧ (∀ c, res = .error c → CSoundP h c))
    (a : Addr) (na : HNode) (hna : h a = some na)
    (props : List (String × Value)) (st : LState) (res : Except Conflict LState)
    (hrun : buildPresentObjectLookupTree rec a na.token props st = some res)
    (hI : RegBoth h st.lookup) :
    (∀ st2, res = .ok st2 → RegBoth h st2.lookup) ∧
    (∀ c, res = .error c → CSoundP h c) := by
  rw [buildPresentObjectLookupTree] at hrun
  cases hlf : lfind st.lookup (lookupKeyPresent na.token a) with
  | none =>
    simp only [hlf] at hrun
    refine buildProps_sound rec (RegBoth h) (CSoundP h) (fun c seg hc => hc)
      (fun l lk e2 k2 hIl hlf2 => hIl.keysUpd hlf2 _) hrec
      none _ props _ res hrun ?_
    exact hI.append (fun b hb => (by cases hb))
      (fun b hb => (by cases hb; exact ⟨na, hna, rfl⟩))
  | some e =>
    simp only [hlf] at hrun
    cases he : e.present with
    | some b =>
      simp only [he] at hrun
      by_cases hba : b ≠ a
      · rw [if_pos hba] at hrun
        cases hrun
        refine ⟨fun st2 h2 => (by cases h2), fun c hc => ?_⟩
        cases hc
        exact ⟨rfl, hba, hI.2 _ (lfind_mem _ _ _ hlf) b he, ⟨na, hna, rfl⟩⟩
      · rw [if_neg hba] at hrun
        cases hrun
        exact ⟨fun st2 h2 => (by cases h2; exact hI), fun c hc => (by cases hc)⟩
    | none =>
      simp only [he] at hrun
      refine buildProps_sound rec (RegBoth h) (CSoundP h) (fun c seg hc => hc)
        (fun l lk e2 k2 hIl hlf2 => hIl.keysUpd hlf2 _) hrec
        _ _ props _ res hrun ?_
      refine hI.upd (fun b hb => hI.1 _ (lfind_mem _ _ _ hlf) b hb) (fun b hb => ?_)
      cases hb
      exact ⟨na, hna, rfl⟩

theorem buildFormer_sound :
    ∀ fuel (h : Heap) v (st : LState) res,
      buildFormerLookupTree fuel h v st = some res → RegBoth h st.lookup →
      (∀ st2, res = .ok st2 → RegBoth h st2.lookup) ∧
      (∀ c, res = .error c → CSoundF h c) := by
  intro fuel
  induction fuel with
  | zero => intro h v st res hrun; simp [buildFormerLookupTree] at hrun
  | succ f ih =>
    intro h v st res hrun hI
    cases v with
    | prim p =>
      simp only [buildFormerLookupTree] at hrun
      cases hrun
      exact ⟨fun st2 h2 => (by cases h2; exact hI), fun c hc => (by cases hc)⟩
    | fn i =>
      simp only [buildFormerLookupTree] at hrun
      cases hrun
      exact ⟨fun st2 h2 => (by cases h2; exact hI), fun c hc => (by cases hc)⟩
    | ref a =>
      simp only [buildFormerLookupTree] at hrun
      cases hheap : h a with
      | none => rw [hheap] at hrun; cases hrun
      | some n =>
        simp only [hheap] at hrun
        cases hdat : n.data with
        | vlike d props =>
          simp only [hdat] at hrun
          cases hrun
          exact ⟨fun st2 h2 => (by cases h2; exact hI), fun c hc => (by cases hc)⟩
        | arr elems =>
          simp only [hdat] at hrun
          exact buildFormerArray_sound h _ (fun v2 st2 r2 => ih h v2 st2 r2)
            a n hheap elems st res hrun hI
        | obj props =>
          simp only [hdat] at hrun
          exact buildFormerObject_sound h _ (fun v2 st2 r2 => ih h v2 st2 r2)
            a n hheap props st res hrun hI

theorem buildPresent_sound :
    ∀ fuel (h : Heap) v (st : LState) res,
      buildPresentLookupTree fuel h v st = some res → RegBoth h st.lookup →
      (∀ st2, res = .ok st2 → RegBoth h st2.lookup) ∧
      (∀ c, res = .error c → CSoundP h c) := by
  intro fuel
  induction fuel with
  | zero => intro h v st res hrun; simp [buildPresentLookupTree] at hrun
  | succ f ih =>
    intro h v st res hrun hI
    cases v with
    | prim p =>
      simp only [buildPresentLookupTree] at hrun
      cases hrun
      exact ⟨fun st2 h2 => (by cases h2; exact hI), fun c hc => (by cases hc)⟩
    | fn i =>
      simp only [buildPresentLookupTree] at hrun
      cases hrun
      exact ⟨fun st2 h2 => (by cases h2; exact hI), fun c hc => (by cases hc)⟩
    | ref a =>
      simp only [buildPresentLookupTree] at hrun
      cases hheap : h a with
      | none => rw [hheap] at hrun; cases hrun
      | some n =>
        simp only [hheap] at hrun
        cases hdat : n.data with
        | vlike d props =>
          simp only [hdat] at hrun
          cases hrun
          exact ⟨fun st2 h2 => (by cases h2; exact hI), fun c hc => (by cases hc)⟩
        | arr elems =>
          simp only [hdat] at hrun
          exact buildPresentArray_sound h _ (fun v2 st2 r2 => ih h v2 st2 r2)
            a n hheap elems st res hrun hI
        | obj props =>
          simp only [hdat] at hrun
          exact buildPresentObject_sound h _ (fun v2 st2 r2 => ih h v2 st2 r2)
            a n hheap props st res hrun hI

/-- Following a path of property keys / array indices from a root value. -/
def follow (h : Heap) : Value → List Seg → Option Value
  | v, [] => some v
  | v, seg :: rest =>
    match v with
    | .ref a =>
      match h a with
      | none => none
      | some n =>
        match seg, n.data with
        | .idx i, .arr elems =>
          match elems.get? i with
          | none => none
          | some w => follow h w rest
        | .key k, .obj props => follow h (propGet props k) rest
        | .key k, .vlike _ props => follow h (propGet props k) rest
        | _, _ => none
    | _ => none

theorem buildElems_err (rec : BuildRec) :
    ∀ i vs (st : LState) c, buildElems rec i vs st = some (.error c) →
      ∃ (j : Nat) (v2 : Value) (st2 : LState) (c2 : Conflict), vs.get? j = some v2 ∧
        rec v2 st2 = some (.error c2) ∧
        c = { c2 with rightPath := c2.rightPath ++ [.idx (i + j)] } := by
  intro i vs
  induction vs generalizing i with
  | nil =>
    intro st c hrun
    simp only [buildElems] at hrun
    cases hrun
  | cons v vs ih =>
    intro st c hrun
    simp only [buildElems] at hrun
    cases hrec : rec v st with
    | none => rw [hrec] at hrun; cases hrun
    | some res =>
      cases res with
      | error c2 =>
        simp only [hrec] at hrun
        cases hrun
        exact ⟨0, v, st, c2, rfl, hrec, by simp⟩
      | ok st2 =>
        simp only [hrec] at hrun
        obtain ⟨j, v2, st3, c2, hj, hrec2, hc⟩ := ih (i + 1) st2 c hrun
        refine ⟨j + 1, v2, st3, c2, hj, hrec2, ?_⟩
        rw [show i + (j + 1) = i + 1 + j from by omega]
        exact hc

theorem buildProps_err (rec : BuildRec) :
    ∀ accKey ks props (st : LState) c,
      buildProps rec accKey ks props st = some (.error c) →
      ∃ (k : String) (st2 : LState) (c2 : Conflict), k ∈ ks ∧
        rec (propGet props k) st2 = some (.error c2) ∧
        c = { c2 with rightPath := c2.rightPath ++ [.key k] } := by
  intro accKey ks
  induction ks with
  | nil =>
    intro props st c hrun
    simp only [buildProps] at hrun
    cases hrun
  | cons k ks ih =>
    intro props st c hrun
    simp only [buildProps] at hrun
    cases accKey with
    | none =>
      simp only at hrun
      cases hrec : rec (propGet props k) st with
      | none => rw [hrec] at hrun; cases hrun
      | some res =>
        cases res with
        | error c2 =>
          simp only [hrec] at hrun
          cases hrun
          exact ⟨k, st, c2, List.mem_cons_self _ _, hrec, rfl⟩
        | ok st2 =>
          simp only [hrec] at hrun
          obtain ⟨k2, st3, c2, hk2, hrec2, hc⟩ := ih props st2 c hrun
          exact ⟨k2, st3, c2, List.mem_cons_of_mem _ hk2, hrec2, hc⟩
    | some lk =>
      simp only at hrun
      cases hlf : lfind st.lookup lk with
      | none =>
        simp only [hlf] at hrun
        cases hrec : rec (propGet props k) st with
        | none => rw [hrec] at hrun; cases hrun
        | some res =>
          cases res with
          | error c2 =>
            simp only [hrec] at hrun
            cases hrun
            exact ⟨k, st, c2, List.mem_cons_self _ _, hrec, rfl⟩
          | ok st2 =>
            simp only [hrec] at hrun
            obtain ⟨k2, st3, c2, hk2, hrec2, hc⟩ := ih props st2 c hrun
            exact ⟨k2, st3, c2, List.mem_cons_of_mem _ hk2, hrec2, hc⟩
      | some e =>
        simp only [hlf] at hrun
        cases hrec : rec (propGet props k)
            { st with lookup := lupdate st.lookup lk { e with keys := addKey e.keys k } } with
        | none => rw [hrec] at hrun; cases hrun
        | some res =>
          cases res with
          | error c2 =>
            simp only [hrec] at hrun
            cases hrun
            exact ⟨k, _, c2, List.mem_cons_self _ _, hrec, rfl⟩
          | ok st2 =>
            simp only [hrec] at hrun
            obtain ⟨k2, st3, c2, hk2, hrec2, hc⟩ := ih props st2 c hrun
            exact ⟨k2, st3, c2, List.mem_cons_of_mem _ hk2, hrec2, hc⟩

theorem buildFormer_path :
    ∀ fuel (h : Heap) v (st : LState) c,
      buildFormerLookupTree fuel h v st = some (.error c) →
      follow h v c.rightPath.reverse = some (.ref c.right) := by
  intro fuel
  induction fuel with
  | zero => intro h v st c hrun; simp [buildFormerLookupTree] at hrun
  | succ f ih =>
    intro h v st c hrun
    cases v with
    | prim p => simp only [buildFormerLookupTree] at hrun; cases hrun
    | fn i => simp only [buildFormerLookupTree] at hrun; cases hrun
    | ref a =>
      simp only [buildFormerLookupTree] at hrun
      cases hheap : h a with
      | none => rw [hheap] at hrun; cases hrun
      | some n =>
        simp only [hheap] at hrun
        cases hdat : n.data with
        | vlike d props => simp only [hdat] at hrun; cases hrun
        | arr elems =>
          simp only [hdat] at hrun
          rw [buildFormerArrayLookupTree] at hrun
          cases hlf : lfind st.lookup (lookupKeyFormer n.token) with
          | none =>
            simp only [hlf] at hrun
            obtain ⟨j, v2, st2, c2, hj, hrec2, hc⟩ := buildElems_err _ 0 elems _ c hrun
            subst hc
            have ihp := ih h v2 st2 c2 hrec2
            simp only [List.reverse_append, List.reverse_cons, List.reverse_nil,
              List.nil_append, List.singleton_append, Nat.zero_add]
            simp only [follow, hheap, hdat, hj]
            exact ihp
          | some e =>
            simp only [hlf] at hrun
            cases he : e.former with
            | some b =>
              simp only [he] at hrun
              by_cases hba : b ≠ a
              · rw [if_pos hba] at hrun
                cases hrun
                rfl
              · rw [if_neg hba] at hrun
                cases hrun
            | none =>
              simp only [he] at hrun
              obtain ⟨j, v2, st2, c2, hj, hrec2, hc⟩ := buildElems_err _ 0 elems _ c hrun
              subst hc
              have ihp := ih h v2 st2 c2 hrec2
              simp only [List.reverse_append, List.reverse_cons, List.reverse_nil,
                List.nil_append, List.singleton_append, Nat.zero_add]
              simp only [follow, hheap, hdat, hj]
              exact ihp
        | obj props =>
          simp only [hdat] at hrun
          rw [buildFormerObjectLookupTree] at hrun
          cases hlf : lfind st.lookup (lookupKeyFormer n.token) with
          | none =>
            simp only [hlf] at hrun
            obtain ⟨k, st2, c2, hk, hrec2, hc⟩ := buildProps_err _ none _ props _ c hrun
            subst hc
            have ihp := ih h (propGet props k) st2 c2 hrec2
            simp only [List.reverse_append, List.reverse_cons, List.reverse_nil,
              List.nil_append, List.singleton_append]
            simp only [follow, hheap, hdat]
            exact ihp
          | some e =>
            simp only [hlf] at hrun
            cases he : e.former with
            | some b =>
              simp only [he] at hrun
              by_cases hba : b ≠ a
              · rw [if_pos hba] at hrun
                cases hrun
                rfl
              · rw [if_neg hba] at hrun
                cases hrun
            | none =>
              simp only [he] at hrun
              obtain ⟨k, st2, c2, hk, hrec2, hc⟩ := buildProps_err _ _ _ props _ c hrun
              subst hc
              have ihp := ih h (propGet props k) st2 c2 hrec2
              simp only [List.reverse_append, List.reverse_cons, List.reverse_nil,
                List.nil_append, List.singleton_append]
              simp only [follow, hheap, hdat]
              exact ihp

theorem buildPresent_path :
    ∀ fuel (h : Heap) v (st : LState) c,
      buildPresentLookupTree fuel h v st = some (.error c) →
      follow h v c.rightPath.reverse = some (.ref c.right) := by
  intro fuel
  induction fuel with
  | zero => intro h v st c hrun; simp [buildPresentLookupTree] at hrun
  | succ f ih =>
    intro h v st c hrun
    cases v with
    | prim p => simp only [buildPresentLookupTree] at hrun; cases hrun
    | fn i => simp only [buildPresentLookupTree] at hrun; cases hrun
    | ref a =>
      simp only [buildPresentLookupTree] at hrun
      cases hheap : h a with
      | none => rw [hheap] at hrun; cases hrun
      | some n =>
        simp only [hheap] at hrun
        cases hdat : n.data with
        | vlike d props => simp only [hdat] at hrun; cases hrun
        | arr elems =>
          simp only [hdat] at hrun
          rw [buildPresentArrayLookupTree] at hrun
          cases hlf : lfind st.lookup (lookupKeyPresent n.token a) with
          | none =>
            simp only [hlf] at hrun
            obtain ⟨j, v2, st2, c2, hj, hrec2, hc⟩ := buildElems_err _ 0 elems _ c hrun
            subst hc
            have ihp := ih h v2 st2 c2 hrec2
            simp only [List.reverse_append, List.reverse_cons, List.reverse_nil,
              List.nil_append, List.singleton_append, Nat.zero_add]
            simp only [follow, hheap, hdat, hj]
            exact ihp
          | some e =>
            simp only [hlf] at hrun
            cases he : e.present with
            | some b =>
              simp only [he] at hrun
              by_cases hba : b ≠ a
              · rw [if_pos hba] at hrun
                cases hrun
                rfl
              · rw [if_neg hba] at hrun
                cases hrun
            | none =>
              simp only [he] at hrun
              obtain ⟨j, v2, st2, c2, hj, hrec2, hc⟩ := buildElems_err _ 0 elems _ c hrun
              subst hc
              have ihp := ih h v2 st2 c2 hrec2
              simp only [List.reverse_append, List.reverse_cons, List.reverse_nil,
                List.nil_append, List.singleton_append, Nat.zero_add]
              simp only [follow, hheap, hdat, hj]
              exact ihp
        | obj props =>
          simp only [hdat] at hrun
          rw [buildPresentObjectLookupTree] at hrun
          cases hlf : lfind st.lookup (lookupKeyPresent n.token a) with
          | none =>
            simp only [hlf] at hrun
            obtain ⟨k, st2, c2, hk, hrec2, hc⟩ := buildProps_err _ none _ props _ c hrun
            subst hc
            have ihp := ih h (propGet props k) st2 c2 hrec2
            simp only [List.reverse_append, List.reverse_cons, List.reverse_nil,
              List.nil_append, List.singleton_append]
            simp only [follow, hheap, hdat]
            exact ihp
          | some e =>
            simp only [hlf] at hrun
            cases he : e.present with
            | some b =>
              simp only [he] at hrun
              by_cases hba : b ≠ a
              · rw [if_pos hba] at hrun
                cases hrun
                rfl
              · rw [if_neg hba] at hrun
                cases hrun
            | none =>
              simp only [he] at hrun
              obtain ⟨k, st2, c2, hk, hrec2, hc⟩ := buildProps_err _ _ _ props _ c hrun
              subst hc
              have ihp := ih h (propGet props k) st2 c2 hrec2
              simp only [List.reverse_append, List.reverse_cons, List.reverse_nil,
                List.nil_append, List.singleton_append]
              simp only [follow, hheap, hdat]
              exact ihp

theorem findPathElems_found (rec : FindRec) :
    ∀ i vs seen q s2, findPathElems rec i vs seen = some (some q, s2) →
      ∃ (j : Nat) (v2 : Value) (sn : List Value) (p2 : List Seg) (s3 : List Value),
        vs.get? j = some v2 ∧ rec v2 sn = some (some p2, s3) ∧
        q = p2 ++ [.idx (i + j)] := by
  intro i vs
  induction vs generalizing i with
  | nil =>
    intro seen q s2 hrun
    simp only [findPathElems] at hrun
    cases hrun
  | cons v vs ih =>
    intro seen q s2 hrun
    simp only [findPathElems] at hrun
    cases hrec : rec v seen with
    | none => rw [hrec] at hrun; cases hrun
    | some res =>
      obtain ⟨op, seen2⟩ := res
      cases op with
      | some p =>
        simp only [hrec] at hrun
        cases hrun
        exact ⟨0, v, seen, p, s2, rfl, hrec, by simp⟩
      | none =>
        simp only [hrec] at hrun
        obtain ⟨j, v2, sn, p2, s3, hj, hrec2, hq⟩ := ih (i + 1) seen2 q s2 hrun
        refine ⟨j + 1, v2, sn, p2, s3, hj, hrec2, ?_⟩
        rw [show i + (j + 1) = i + 1 + j from by omega]
        exact hq

theorem findPathProps_found (rec : FindRec) :
    ∀ ks props seen q s2, findPathProps rec ks props seen = some (some q, s2) →
      ∃ (k : String) (sn : List Value) (p2 : List Seg) (s3 : List Value),
        k ∈ ks ∧ rec (propGet props k) sn = some (some p2, s3) ∧
        q = p2 ++ [.key k] := by
  intro ks
  induction ks with
  | nil =>
    intro props seen q s2 hrun
    simp only [findPathProps] at hrun
    cases hrun
  | cons k ks ih =>
    intro props seen q s2 hrun
    simp only [findPathProps] at hrun
    cases hrec : rec (propGet props k) seen with
    | none => rw [hrec] at hrun; cases hrun
    | some res =>
      obtain ⟨op, seen2⟩ := res
      cases op with
      | some p =>
        simp only [hrec] at hrun
        cases hrun
        exact ⟨k, seen, p, s2, List.mem_cons_self _ _, hrec, rfl⟩
      | none =>
        simp only [hrec] at hrun
        obtain ⟨k2, sn, p2, s3, hk2, hrec2, hq⟩ := ih props seen2 q s2 hrun
        exact ⟨k2, sn, p2, s3, List.mem_cons_of_mem _ hk2, hrec2, hq⟩

/-- `findPath` soundness: a produced (leaf-to-root) path, reversed, leads
from the haystack root to the needle. -/
theorem findPath_found :
    ∀ fuel (h : Heap) v needle seen q s2,
      findPath fuel h v needle seen = some (some q, s2) →
      follow h v q.reverse = some (.ref needle) := by
  intro fuel
  induction fuel with
  | zero => intro h v needle seen q s2 hrun; simp [findPath] at hrun
  | succ f ih =>
    intro h v needle seen q s2 hrun
    simp only [findPath] at hrun
    by_cases hseen : v ∈ seen
    · rw [if_pos hseen] at hrun
      cases hrun
    · rw [if_neg hseen] at hrun
      by_cases hveq : v = .ref needle
      · rw [if_pos hveq] at hrun
        cases hrun
        rw [hveq]
        rfl
      · rw [if_neg hveq] at hrun
        cases v with
        | prim p => simp only at hrun; cases hrun
        | fn i => simp only at hrun; cases hrun
        | ref a =>
          simp only at hrun
          cases hheap : h a with
          | none => rw [hheap] at hrun; cases hrun
          | some n =>
            simp only [hheap] at hrun
            cases hdat : n.data with
            | vlike d props => simp only [hdat] at hrun; cases hrun
            | arr elems =>
              simp only [hdat] at hrun
              obtain ⟨j, v2, sn, p2, s3, hj, hrec2, hq⟩ :=
                findPathElems_found _ 0 elems _ q s2 hrun
              subst hq
              have ihp := ih h v2 needle sn p2 s3 hrec2
              simp only [List.reverse_append, List.reverse_cons, List.reverse_nil,
                List.nil_append, List.singleton_append, Nat.zero_add]
              simp only [follow, hheap, hdat, hj]
              exact ihp
            | obj props =>
              simp only [hdat] at hrun
              obtain ⟨k, sn, p2, s3, hk, hrec2, hq⟩ :=
                findPathProps_found _ (getPropertyKeys props) props _ q s2 hrun
              subst hq
              have ihp := ih h (propGet props k) needle sn p2 s3 hrec2
              simp only [List.reverse_append, List.reverse_cons, List.reverse_nil,
                List.nil_append, List.singleton_append]
              simp only [follow, hheap, hdat]
              exact ihp

/-- A former instance and a present instance correlated under one token. -/
def c3okheap : Heap := fun a =>
  if a = 0 then some ⟨some 7, .obj []⟩
  else if a = 1 then some ⟨some 7, .obj []⟩
  else none

def c3oklst : LState :=
  match buildLookupTree 10 c3okheap (.ref 0) (.ref 1) ⟨[], fun _ => none, 0⟩ with
  | some (.ok l) => l
  | _ => ⟨[], fun _ => none, 0⟩

/-- A former model whose array holds two distinct token-7 instances. -/
def c3confheap : Heap := fun a =>
  if a = 0 then some ⟨some 0, .arr [.ref 2, .ref 3]⟩
  else if a = 1 then some ⟨some 1, .obj []⟩
  else if a = 2 then some ⟨some 7, .obj []⟩
  else if a = 3 then some ⟨some 7, .obj []⟩
  else none

/-- C3: a conflict reported by lookup-tree construction is genuine — it
carries the detecting side, two DISTINCT live instances both resolving to
the colliding lookup key (the identity token, or the object-keyed fallback),
a right path that leads from that side's root to the right instance, and a
left path that leads to the left instance whenever the lazy search produced
one; the former traversal runs and is checked fully before the present
traversal, so a former conflict is reported without consulting the present
side; and correlating one former with one present instance under the same
token is not a conflict (they share one entry). -/
theorem claim_C3_identity_conflicts :
    (∀ fuel (h : Heap) froot proot (st : LState) er,
      buildLookupTree fuel h froot proot st = some (.error er) →
      RegFormer h st.lookup → RegPresent h st.lookup →
      er.left ≠ er.right ∧
      ((er.source = .former ∧
         (∃ n, h er.left = some n ∧ lookupKeyFormer n.token = er.objectId) ∧
         (∃ n, h er.right = some n ∧ lookupKeyFormer n.token = er.objectId) ∧
         follow h froot er.rightPath = some (.ref er.right) ∧
         (follow h froot er.leftPath = some (.ref er.left) ∨ er.leftPath = [])) ∨
       (er.source = .present ∧
         (∃ n, h er.left = some n ∧ lookupKeyPresent n.token er.left = er.objectId) ∧
         (∃ n, h er.right = some n ∧ lookupKeyPresent n.token er.right = er.objectId) ∧
         follow h proot er.rightPath = some (.ref er.right) ∧
         (follow h proot er.leftPath = some (.ref er.left) ∨ er.leftPath = [])))) ∧
    (∀ fuel (h : Heap) froot proot (st : LState) c lp,
      buildFormerLookupTree fuel h froot st = some (.error c) →
      findPath fuel h froot c.left [] = some lp →
      buildLookupTree fuel h froot proot st =
        some (.error ⟨c.source, c.objectId, (lp.1.getD []).reverse, c.left,
          c.rightPath.reverse, c.right⟩)) ∧
    (buildLookupTree 10 c3okheap (.ref 0) (.ref 1) ⟨[], fun _ => none, 0⟩ =
        some (.ok c3oklst) ∧
      lfind c3oklst.lookup (.tok 7) = some ⟨some 0, some 1, [], 0⟩) ∧
    (buildLookupTree 10 c3confheap (.ref 0) (.ref 1) ⟨[], fun _ => none, 0⟩ =
      some (.error ⟨.former, .tok 7, [.idx 0], 2, [.idx 1], 3⟩)) := by
  refine ⟨?_, ?_, ⟨rfl, rfl⟩, rfl⟩
  · intro fuel h froot proot st er hrun hRF hRP
    rw [buildLookupTree] at hrun
    cases h1 : buildFormerLookupTree fuel h froot st with
    | none => rw [h1] at hrun; cases hrun
    | some res1 =>
      cases res1 with
      | error c =>
        simp only [h1] at hrun
        cases h2 : findPath fuel h froot c.left [] with
        | none => rw [h2] at hrun; cases hrun
        | some lp =>
          obtain ⟨op, sn⟩ := lp
          simp only [h2] at hrun
          cases hrun
          obtain ⟨hsrc, hlr, hL, hR⟩ :=
            (buildFormer_sound fuel h froot st _ h1 ⟨hRF, hRP⟩).2 c rfl
          have hp := buildFormer_path fuel h froot st c h1
          refine ⟨hlr, Or.inl ⟨hsrc, hL, hR, hp, ?_⟩⟩
          cases op with
          | some p =>
            exact Or.inl (findPath_found fuel h froot c.left [] p sn h2)
          | none => exact Or.inr rfl
      | ok st1 =>
        simp only [h1] at hrun
        have hI1 : RegBoth h st1.lookup :=
          (buildFormer_sound fuel h froot st _ h1 ⟨hRF, hRP⟩).1 st1 rfl
        cases h3 : buildPresentLookupTree fuel h proot st1 with
        | none => rw [h3] at hrun; cases hrun
        | some res2 =>
          cases res2 with
          | error c =>
            simp only [h3] at hrun
            cases h4 : findPath fuel h proot c.left [] with
            | none => rw [h4] at hrun; cases hrun
            | some lp =>
              obtain ⟨op, sn⟩ := lp
              simp only [h4] at hrun
              cases hrun
              obtain ⟨hsrc, hlr, hL, hR⟩ :=
                (buildPresent_sound fuel h proot st1 _ h3 hI1).2 c rfl
              have hp := buildPresent_path fuel h proot st1 c h3
              refine ⟨hlr, Or.inr ⟨hsrc, hL, hR, hp, ?_⟩⟩
              cases op with
              | some p =>
                exact Or.inl (findPath_found fuel h proot c.left [] p sn h4)
              | none => exact Or.inr rfl
          | ok st2 =>
            simp only [h3] at hrun
            cases hrun
  · intro fuel h froot proot st c lp h1 h2
    obtain ⟨op, sn⟩ := lp
    rw [buildLookupTree]
    simp only [h1, h2]

theorem claim_C3_identity_conflicts_witness :
    buildLookupTree 10 c3confheap (.ref 0) (.ref 1) ⟨[], fun _ => none, 0⟩ =
      some (.error ⟨.former, .tok 7, [.idx 0], 2, [.idx 1], 3⟩) ∧
    (2 : Addr) ≠ 3 := by
  refine ⟨rfl, ?_⟩
  exact (claim_C3_identity_conflicts.1 10 c3confheap (.ref 0) (.ref 1)
    ⟨[], fun _ => none, 0⟩ ⟨.former, .tok 7, [.idx 0], 2, [.idx 1], 3⟩ rfl
    (fun p hp => absurd hp (List.not_mem_nil p))
    (fun p hp => absurd hp (List.not_mem_nil p))).1

/-! ## The round trip on function-free models (C1) -/

theorem propGet_cons_self (k : String) (v : Value) (rest : List (String × Value)) :
    propGet ((k, v) :: rest) k = v := by
  simp [propGet, List.lookup]

theorem propGet_cons_ne {k2 k : String} (hne : k2 ≠ k) (v : Value)
    (rest : List (String × Value)) :
    propGet ((k, v) :: rest) k2 = propGet rest k2 := by
  have hb : (k2 == k) = false := beq_eq_false_iff_ne.mpr hne
  simp [propGet, List.lookup, hb]

theorem getPropertyKeys_all_good {props : List (String × Value)}
    (hg : ∀ kv ∈ props, badKey kv.1 = false) :
    getPropertyKeys props = props.map Prod.fst := by
  rw [getPropertyKeys]
  refine List.filter_eq_self.mpr ?_
  intro k hk
  obtain ⟨kv, hkv, hk2⟩ := List.mem_map.mp hk
  subst hk2
  rw [hg kv hkv]
  rfl

/-- Reading every key of a duplicate-free property list recovers the list. -/
theorem keys_propGet_recover :
    ∀ (props : List (String × Value)), (props.map Prod.fst).Nodup →
      (props.map Prod.fst).map (fun k => (k, propGet props k)) = props := by
  intro props
  induction props with
  | nil => intro _; rfl
  | cons q rest ih =>
    obtain ⟨k, v⟩ := q
    intro hnd
    simp only [List.map_cons]
    simp only [List.map_cons] at hnd
    rw [List.nodup_cons] at hnd
    have hhead : propGet ((k, v) :: rest) k = v := propGet_cons_self k v rest
    rw [hhead]
    have htail : (rest.map Prod.fst).map (fun k2 => (k2, propGet ((k, v) :: rest) k2)) =
        (rest.map Prod.fst).map (fun k2 => (k2, propGet rest k2)) := by
      refine List.map_congr_left ?_
      intro k2 hk2
      have hne : k2 ≠ k := by
        intro he
        subst he
        exact hnd.1 hk2
      rw [propGet_cons_ne hne]
    rw [htail, ih hnd.2]

theorem lupdate_self : ∀ (l : Lookup) (k : LKey) (e : Entry),
    lfind l k = some e → lupdate l k e = l := by
  intro l
  induction l with
  | nil => intro k e hf; cases hf
  | cons p rest ih =>
    obtain ⟨k2, e2⟩ := p
    intro k e hf
    simp only [lfind] at hf
    simp only [lupdate]
    by_cases hk : k = k2
    · rw [if_pos hk] at hf
      cases hf
      rw [if_pos hk]
    · rw [if_neg hk] at hf
      rw [if_neg hk, ih k e hf]

theorem addKey_mem {ks : List String} {k : String} (hk : k ∈ ks) :
    addKey ks k = ks := by
  rw [addKey, if_pos hk]

theorem pupsert_append : ∀ (props : List (String × PropD)) (k : String) (pd : PropD),
    k ∉ props.map Prod.fst → pupsert props k pd = props ++ [(k, pd)] := by
  intro props
  induction props with
  | nil => intro k pd _; rfl
  | cons q rest ih =>
    obtain ⟨k2, p2⟩ := q
    intro k pd hk
    simp only [List.map_cons, List.mem_cons, not_or] at hk
    simp only [pupsert]
    rw [if_neg (fun he => hk.1 he.symm), ih k pd hk.2]
    rfl

theorem reservedGetter_of_diff {k : String}
    (h : reservedDiffKeys.contains k = false) :
    reservedGetterKeys.contains k = false := by
  simp only [reservedDiffKeys, reservedGetterKeys, List.contains_cons,
    Bool.or_eq_false_iff] at h ⊢
  exact ⟨h.1, h.2.1, h.2.2.1, h.2.2.2.1, rfl⟩

theorem assignIdsVals_prims (rec : Addr → AState → Option AState) :
    ∀ vs (st : AState), (∀ v ∈ vs, ∃ p, v = Value.prim p) →
      assignIdsVals rec vs st = some st := by
  intro vs
  induction vs with
  | nil => intro st _; rfl
  | cons v vs ih =>
    intro st hv
    obtain ⟨p, hp⟩ := hv v (List.mem_cons_self _ _)
    subst hp
    simp only [assignIdsVals]
    exact ih st (fun v2 hv2 => hv v2 (List.mem_cons_of_mem _ hv2))

theorem cloneProps_prims (rec : Value → CState → Option (Value × CState)) :
    ∀ ks props (st : CState), (∀ k ∈ ks, ∃ p, propGet props k = .prim p) →
      cloneProps rec ks props st =
        some (ks.map (fun k => (k, propGet props k)), st) := by
  intro ks
  induction ks with
  | nil => intro props st _; rfl
  | cons k ks ih =>
    intro props st hv
    obtain ⟨p, hp⟩ := hv k (List.mem_cons_self _ _)
    simp only [cloneProps, hp]
    rw [ih props st (fun k2 hk2 => hv k2 (List.mem_cons_of_mem _ hk2))]
    simp [hp]

theorem buildProps_prims_none (rec : BuildRec)
    (hrec : ∀ p (st : LState), rec (.prim p) st = some (.ok st)) :
    ∀ ks props (st : LState), (∀ k ∈ ks, ∃ p, propGet props k = .prim p) →
      buildProps rec none ks props st = some (.ok st) := by
  intro ks
  induction ks with
  | nil => intro props st _; rfl
  | cons k ks ih =>
    intro props st hv
    obtain ⟨p, hp⟩ := hv k (List.mem_cons_self _ _)
    simp only [buildProps, hp, hrec]
    exact ih props st (fun k2 hk2 => hv k2 (List.mem_cons_of_mem _ hk2))

theorem buildProps_prims_acc (rec : BuildRec)
    (hrec : ∀ p (st : LState), rec (.prim p) st = some (.ok st)) (lk : LKey) :
    ∀ ks props (st : LState) e, lfind st.lookup lk = some e →
      (∀ k ∈ ks, k ∈ e.keys) →
      (∀ k ∈ ks, ∃ p, propGet props k = .prim p) →
      buildProps rec (some lk) ks props st = some (.ok st) := by
  intro ks
  induction ks with
  | nil => intro props st e _ _ _; rfl
  | cons k ks ih =>
    intro props st e hlf hkk hv
    obtain ⟨p, hp⟩ := hv k (List.mem_cons_self _ _)
    simp only [buildProps, hlf, hp]
    rw [addKey_mem (hkk k (List.mem_cons_self _ _))]
    have hee : ({ e with keys := e.keys } : Entry) = e := rfl
    rw [hee, lupdate_self st.lookup lk e hlf]
    have hst : ({ st with lookup := st.lookup } : LState) = st := rfl
    rw [hst, hrec]
    exact ih props st e hlf (fun k2 hk2 => hkk k2 (List.mem_cons_of_mem _ hk2))
      (fun k2 hk2 => hv k2 (List.mem_cons_of_mem _ hk2))

theorem resolve_prim (lookup : Lookup) (p : Prim) (bst : BindSt) :
    resolveValueOrDiff lookup (.prim p) bst = some (.raw (.prim p), bst) := by
  cases p <;> rfl

theorem mkPropertyDiff_prim (vleq : VLData → VLData → Bool) (lookup : Lookup)
    (fa pa : Addr) (p : Prim) (bst : BindSt) :
    mkPropertyDiff vleq lookup (some fa) (some pa) (.prim p) (.prim p) bst =
      some (⟨false, .raw (.prim p), none⟩, false, bst) := by
  simp only [mkPropertyDiff, resolve_prim]
  have hbeq : ((.raw (.prim p) : RVal) == .raw (.prim p)) = true := by simp
  rw [hbeq]
  rfl

/-- The raw resolved form of a property read (used to spell the flat fold's
output). -/
def propGetRV (h : Heap) (oa : Option Addr) (k : String) : RVal :=
  .raw (propGetAddr h oa k)

theorem flat_fold (vleq : VLData → VLData → Bool) (lookup : Lookup) (e : Entry)
    (fa pa : Addr) (hef : e.former = some fa) (hep : e.present = some pa) :
    ∀ (ks : List String) (acc1 : List (String × PropD)) (chg : Bool) (bst : BindSt),
      (∀ k ∈ ks, ∃ p, propGetAddr bst.heap e.former k = .prim p ∧
        propGetAddr bst.heap e.present k = .prim p) →
      (∀ k ∈ ks, reservedGetterKeys.contains k = false) →
      ks.Nodup →
      (∀ k ∈ ks, k ∉ acc1.map Prod.fst) →
      ks.foldlM (bindPropsStep vleq lookup e) (acc1, chg, bst) =
        .ok (acc1 ++ ks.map (fun k =>
          (k, (⟨false, propGetRV bst.heap e.present k, none⟩ : PropD))), chg, bst) := by
  intro ks
  induction ks with
  | nil =>
    intro acc1 chg bst _ _ _ _
    simp only [List.foldlM_nil, List.map_nil, List.append_nil]
    rfl
  | cons k ks ih =>
    intro acc1 chg bst hvals hres hnd hnotin
    obtain ⟨p, hf, hp⟩ := hvals k (List.mem_cons_self _ _)
    rw [List.nodup_cons] at hnd
    have hstep : bindPropsStep vleq lookup e (acc1, chg, bst) k =
        .ok (acc1 ++ [(k, ⟨false, .raw (.prim p), none⟩)], chg, bst) := by
      simp only [bindPropsStep]
      rw [hf, hp]
      simp only [isFnV, Bool.or_self]
      rw [if_neg Bool.false_ne_true]
      rw [hef, hep]
      simp only [mkPropertyDiff_prim]
      rw [hres k (List.mem_cons_self _ _)]
      rw [if_neg Bool.false_ne_true]
      rw [pupsert_append acc1 k _ (hnotin k (List.mem_cons_self _ _)), Bool.or_false]
    have hnotin2 : ∀ k2 ∈ ks,
        k2 ∉ (acc1 ++ [(k, (⟨false, .raw (.prim p), none⟩ : PropD))]).map Prod.fst := by
      intro k2 hk2
      simp only [List.map_append, List.mem_append, List.map_cons, List.map_nil,
        List.mem_singleton, not_or]
      refine ⟨hnotin k2 (List.mem_cons_of_mem _ hk2), fun he => ?_⟩
      exact hnd.1 (he ▸ hk2)
    have hrest := ih (acc1 ++ [(k, ⟨false, .raw (.prim p), none⟩)]) chg bst
      (fun k2 hk2 => hvals k2 (List.mem_cons_of_mem _ hk2))
      (fun k2 hk2 => hres k2 (List.mem_cons_of_mem _ hk2)) hnd.2 hnotin2
    rw [List.foldlM_cons, hstep]
    show ks.foldlM (bindPropsStep vleq lookup e)
        (acc1 ++ [(k, ⟨false, .raw (.prim p), none⟩)], chg, bst) = _
    rw [hrest]
    simp only [List.map_cons, List.append_assoc, List.singleton_append]
    rw [propGetRV, hp]

theorem uwPresentProps_prims (recD : UwRec) :
    ∀ ps (ust : UState), (∀ kp ∈ ps, ∃ p, (kp : String × PropD).2.value = .raw (.prim p)) →
      uwPresentProps recD ps ust =
        some (ps.map (fun kp => (kp.1, rvToValue kp.2.value)), ust) := by
  intro ps
  induction ps with
  | nil => intro ust _; rfl
  | cons q ps ih =>
    obtain ⟨k, pd⟩ := q
    intro ust hv
    obtain ⟨p, hp⟩ := hv (k, pd) (List.mem_cons_self _ _)
    simp only [uwPresentProps, uwPresentPD]
    rw [hp]
    simp only [isValueTypeR, isValueTypeV, Bool.true_or]
    rw [if_pos trivial]
    simp only [ih ust (fun kp hkp => hv kp (List.mem_cons_of_mem _ hkp))]
    have hp2 : pd.value = RVal.raw (Value.prim p) := hp
    simp only [List.map_cons, rvToValue, hp2]


theorem propGet_prim : ∀ (props : List (String × Value)),
    (∀ kv ∈ props, ∃ p, kv.2 = .prim p) →
    ∀ k ∈ props.map Prod.fst, ∃ p, propGet props k = .prim p := by
  intro props
  induction props with
  | nil => intro _ k hk; cases hk
  | cons q rest ih =>
    obtain ⟨k0, v0⟩ := q
    intro hv k hk
    by_cases hk0 : k = k0
    · subst hk0
      obtain ⟨p, hp⟩ := hv (k, v0) (List.mem_cons_self _ _)
      exact ⟨p, by rw [propGet_cons_self]; exact hp⟩
    · rw [propGet_cons_ne hk0]
      simp only [List.map_cons, List.mem_cons] at hk
      rcases hk with h | h
      · exact absurd h hk0
      · exact ih (fun kv hkv => hv kv (List.mem_cons_of_mem _ hkv)) k h

def c1M (props : List (String × Value)) : Heap := fun a =>
  if a = 0 then some ⟨none, .obj props⟩ else none

theorem flat_assign (F : Nat) (props : List (String × Value))
    (hgood : ∀ kv ∈ props, badKey kv.1 = false)
    (hprim : ∀ kv ∈ props, ∃ p, kv.2 = .prim p) :
    assignIdsAddr (F + 1 + 1) 0 ⟨c1M props, 0, []⟩ =
      some ⟨(c1M props).set 0 ⟨some 0, .obj props⟩, 1, [0]⟩ := by
  have hkeys : getPropertyKeys props = props.map Prod.fst := getPropertyKeys_all_good hgood
  have hpg := propGet_prim props hprim
  rw [assignIdsAddr]
  rw [if_neg (List.not_mem_nil 0)]
  have hM0 : c1M props 0 = some ⟨none, .obj props⟩ := rfl
  simp only [hM0]
  rw [nodeChildren]
  refine assignIdsVals_prims _ _ _ ?_
  intro v hv
  rw [propVals, hkeys] at hv
  obtain ⟨k, hk, hkv⟩ := List.mem_map.mp hv
  obtain ⟨p, hp⟩ := hpg k hk
  exact ⟨p, by rw [← hkv, hp]⟩


def c1S (props : List (String × Value)) : Heap := fun a =>
  if a = 0 then some ⟨some 0, .obj props⟩
  else if a = 1 then some ⟨some 0, .obj props⟩
  else none

theorem flat_snapshot (F : Nat) (props : List (String × Value))
    (hgood : ∀ kv ∈ props, badKey kv.1 = false)
    (hprim : ∀ kv ∈ props, ∃ p, kv.2 = .prim p)
    (hnd : (props.map Prod.fst).Nodup) :
    takeSnapshot (F + 1 + 1) (.ref 0) ⟨c1M props, 1, 0⟩ =
      some (.ref 1, ⟨c1S props, 2, 1⟩) := by
  have hkeys : getPropertyKeys props = props.map Prod.fst := getPropertyKeys_all_good hgood
  have hpg := propGet_prim props hprim
  have hside : ∀ k ∈ getPropertyKeys props, ∃ p, propGet props k = .prim p :=
    fun k hk => hpg k (hkeys ▸ hk)
  rw [takeSnapshot]
  simp only [flat_assign F props hgood hprim]
  rw [cloneVal]
  simp only [List.lookup, Heap.set_same]
  rw [cloneProps_prims (cloneVal (F + 1)) (getPropertyKeys props) props _ hside]
  simp only [hkeys, keys_propGet_recover props hnd]
  have hheapeq : (((c1M props).set 0 ⟨some 0, .obj props⟩).set 1
      ⟨some 0, .obj props⟩) = c1S props := by
    funext b
    by_cases hb1 : b = 1
    · subst hb1
      simp [Heap.set, c1S]
    · by_cases hb0 : b = 0
      · subst hb0
        simp [Heap.set, c1M, c1S, hb1]
      · simp [Heap.set, c1M, c1S, hb0, hb1]
  rw [hheapeq]


theorem DStore.set_set (ds : DStore) (d : Nat) (a b : DNode) :
    (ds.set d a).set d b = ds.set d b := by
  funext e
  simp only [DStore.set]
  by_cases he : e = d
  · rw [if_pos he, if_pos he]
  · rw [if_neg he, if_neg he, if_neg he]

/-- The property-diff list bound for a flat primitive model. -/
def c1pd (props : List (String × Value)) : List (String × PropD) :=
  props.map (fun kv => (kv.1, ⟨false, .raw kv.2, none⟩))

theorem flat_diff (F : Nat) (vleq : VLData → VLData → Bool)
    (props : List (String × Value))
    (hgood : ∀ kv ∈ props, badKey kv.1 = false)
    (hprim : ∀ kv ∈ props, ∃ p, kv.2 = .prim p)
    (hnd : (props.map Prod.fst).Nodup)
    (hres : ∀ kv ∈ props, reservedDiffKeys.contains kv.1 = false) :
    createDiff (F + 1 + 1) vleq (.ref 1) (.ref 0) ⟨c1S props, 2, 1⟩ =
      some (.ok (0, ⟨c1S props, 2, DStore.set (fun _ => none) 0
        (.obj (some 0) false false false (c1pd props))⟩)) := by
  have hkeys : getPropertyKeys props = props.map Prod.fst := getPropertyKeys_all_good hgood
  have hpg := propGet_prim props hprim
  have hrecF : ∀ (p : Prim) (st : LState),
      buildFormerLookupTree (F + 1) (c1S props) (.prim p) st = some (.ok st) :=
    fun p st => rfl
  have hrecP : ∀ (p : Prim) (st : LState),
      buildPresentLookupTree (F + 1) (c1S props) (.prim p) st = some (.ok st) :=
    fun p st => rfl
  have hformer : buildFormerLookupTree (F + 1 + 1) (c1S props) (.ref 1)
      ⟨[], fun _ => none, 0⟩ = some (.ok ⟨[(.tok 0, ⟨some 1, none, props.map Prod.fst, 0⟩)],
        DStore.set (fun _ => none) 0 (.obj none false false false []), 1⟩) := by
    show buildProps (buildFormerLookupTree (F + 1) (c1S props)) none
        (getPropertyKeys props) props
        ⟨[(.tok 0, ⟨some 1, none, getPropertyKeys props, 0⟩)],
         DStore.set (fun _ => none) 0 (.obj none false false false []), 1⟩ = _
    rw [hkeys]
    exact buildProps_prims_none _ hrecF _ props _ hpg
  have hpresent : buildPresentLookupTree (F + 1 + 1) (c1S props) (.ref 0)
      ⟨[(.tok 0, ⟨some 1, none, props.map Prod.fst, 0⟩)],
        DStore.set (fun _ => none) 0 (.obj none false false false []), 1⟩ =
      some (.ok ⟨[(.tok 0, ⟨some 1, some 0, props.map Prod.fst, 0⟩)],
        DStore.set (fun _ => none) 0 (.obj none false false false []), 1⟩) := by
    show buildProps (buildPresentLookupTree (F + 1) (c1S props)) (some (.tok 0))
        (getPropertyKeys props) props
        ⟨[(.tok 0, ⟨some 1, some 0, props.map Prod.fst, 0⟩)],
         DStore.set (fun _ => none) 0 (.obj none false false false []), 1⟩ = _
    rw [hkeys]
    exact buildProps_prims_acc _ hrecP (.tok 0) _ props _
      ⟨some 1, some 0, props.map Prod.fst, 0⟩ rfl (fun k hk => hk) hpg
  rw [createDiff]
  have hguard : (!(isReferenceV (c1S props) (.ref 1) && isReferenceV (c1S props) (.ref 0) &&
      (tokenOfV (c1S props) (.ref 1) == tokenOfV (c1S props) (.ref 0)))) = false := rfl
  rw [hguard, if_neg Bool.false_ne_true]
  simp only [buildLookupTree, hformer, hpresent]
  have hvals : ∀ k ∈ props.map Prod.fst, ∃ p,
      propGetAddr (c1S props) (some 1) k = .prim p ∧
      propGetAddr (c1S props) (some 0) k = .prim p := by
    intro k hk
    obtain ⟨p, hp⟩ := hpg k hk
    exact ⟨p, hp, hp⟩
  have hres2 : ∀ k ∈ props.map Prod.fst, reservedGetterKeys.contains k = false := by
    intro k hk
    obtain ⟨kv, hkv, rfl⟩ := List.mem_map.mp hk
    exact reservedGetter_of_diff (hres kv hkv)
  have hnotin : ∀ k ∈ props.map Prod.fst, k ∉ ([] : List (String × PropD)).map Prod.fst :=
    fun k _ => List.not_mem_nil k
  have hfold := flat_fold vleq [(LKey.tok 0, ⟨some 1, some 0, props.map Prod.fst, 0⟩)]
    ⟨some 1, some 0, props.map Prod.fst, 0⟩ 1 0 rfl rfl (props.map Prod.fst) [] false
    ⟨c1S props, 2, DStore.set (DStore.set (fun _ => none) 0 (.obj none false false false []))
      0 (.obj (some 0) false false false [])⟩ hvals hres2 hnd hnotin
  have hpd : (props.map Prod.fst).map (fun k =>
        (k, (⟨false, propGetRV (c1S props) (some 0) k, none⟩ : PropD))) = c1pd props := by
    have h1 : (props.map Prod.fst).map (fun k =>
          (k, (⟨false, propGetRV (c1S props) (some 0) k, none⟩ : PropD))) =
        ((props.map Prod.fst).map (fun k => (k, propGet props k))).map
          (fun kv => (kv.1, (⟨false, .raw kv.2, none⟩ : PropD))) := by
      conv_rhs => rw [List.map_map]
      rfl
    rw [h1, keys_propGet_recover props hnd]
    rfl
  have hentry : bindEntry vleq
      [(LKey.tok 0, ⟨some 1, some 0, props.map Prod.fst, 0⟩)]
      ⟨some 1, some 0, props.map Prod.fst, 0⟩
      ⟨c1S props, 2, DStore.set (fun _ => none) 0 (.obj none false false false [])⟩ =
      .ok ⟨c1S props, 2, DStore.set (fun _ => none) 0
        (.obj (some 0) false false false (c1pd props))⟩ := by
    show bindObjectCore vleq [(LKey.tok 0, ⟨some 1, some 0, props.map Prod.fst, 0⟩)]
      ⟨some 1, some 0, props.map Prod.fst, 0⟩ (some 0)
      ⟨c1S props, 2, DStore.set (fun _ => none) 0 (.obj none false false false [])⟩ = _
    simp only [bindObjectCore, Option.isNone_some]
    simp only [hfold]
    simp only [List.nil_append, hpd]
    rw [DStore.set_set (DStore.set (fun _ => none) 0 (.obj none false false false []))]
    rw [DStore.set_set]
  have hbind : bindAll vleq
      [(LKey.tok 0, ⟨some 1, some 0, props.map Prod.fst, 0⟩)]
      [(LKey.tok 0, ⟨some 1, some 0, props.map Prod.fst, 0⟩)]
      ⟨c1S props, 2, DStore.set (fun _ => none) 0 (.obj none false false false [])⟩ =
      .ok ⟨c1S props, 2, DStore.set (fun _ => none) 0
        (.obj (some 0) false false false (c1pd props))⟩ := by
    simp only [bindAll, hentry]
  simp only [hbind]
  rfl

theorem flat_unwrap (F : Nat) (props : List (String × Value))
    (hprim : ∀ kv ∈ props, ∃ p, kv.2 = .prim p)
    (hnd : (props.map Prod.fst).Nodup)
    (hres : ∀ kv ∈ props, reservedDiffKeys.contains kv.1 = false) :
    unwrapPresent (F + 1) (DStore.set (fun _ => none) 0
        (.obj (some 0) false false false (c1pd props))) 0 (c1S props) 2 =
      some (.ref 2, ⟨(c1S props).set 2 ⟨some 0, .obj props⟩, 3, [(0, 2)]⟩) := by
  have hkept : (c1pd props).filter (fun kp => !(reservedDiffKeys.contains kp.1)) =
      c1pd props := by
    apply List.filter_eq_self.mpr
    intro kp hkp
    obtain ⟨kv, hkv, rfl⟩ := List.mem_map.mp hkp
    rw [hres kv hkv]
    rfl
  have hv : ∀ kp ∈ c1pd props, ∃ p, (kp : String × PropD).2.value = .raw (.prim p) := by
    intro kp hkp
    obtain ⟨kv, hkv, rfl⟩ := List.mem_map.mp hkp
    obtain ⟨p, hp⟩ := hprim kv hkv
    exact ⟨p, by rw [hp]⟩
  have hback : (c1pd props).map (fun kp => (kp.1, rvToValue kp.2.value)) = props := by
    rw [c1pd, List.map_map]
    have h2 : props.map ((fun kp => ((kp : String × PropD).1, rvToValue kp.2.value)) ∘
        (fun kv => ((kv : String × Value).1, ⟨false, .raw kv.2, none⟩))) = props.map id := by
      apply List.map_congr_left
      intro kv _
      simp [rvToValue]
    rw [h2, List.map_id]
  rw [unwrapPresent, uwPresentD]
  simp only [List.lookup]
  have hds : DStore.set (fun _ => none) 0
      (.obj (some 0) false false false (c1pd props)) 0 =
      some (.obj (some 0) false false false (c1pd props)) := rfl
  simp only [hds]
  simp only [hkept]
  simp only [uwPresentProps_prims (uwPresentD F (DStore.set (fun _ => none) 0
    (.obj (some 0) false false false (c1pd props)))) (c1pd props) _ hv]
  simp only [hback]


/-- The bind-stage output of the flat round trip. -/
def c1bout (props : List (String × Value)) : BindSt :=
  ⟨c1S props, 2, DStore.set (fun _ => none) 0
    (.obj (some 0) false false false (c1pd props))⟩

/-- A one-property model whose property name starts with two underscores. -/
def c1heap : Heap := fun a =>
  if a = 0 then some ⟨none, .obj [("__a", .prim (.num 1))]⟩ else none

/-- A model with two sibling objects aliasing the same child. -/
def c1aheap : Heap := fun a =>
  if a = 0 then some ⟨none, .obj [("a", .ref 1), ("b", .ref 2)]⟩
  else if a = 1 then some ⟨none, .obj [("c", .ref 3)]⟩
  else if a = 2 then some ⟨none, .obj [("c", .ref 3)]⟩
  else if a = 3 then some ⟨none, .obj [("x", .prim (.num 1))]⟩
  else none

/-- C1, counterexample: the model `{"__a": 1}` has no function-valued
property, yet the snapshot/diff/unwrap round trip reconstructs the empty
object: discovery drops every property whose name starts with two
underscores, so the unwrapped present graph is not deeply equal to the
model minus functions. -/
theorem claim_C1_counterexample :
    (∀ kv ∈ [("__a", (Value.prim (.num 1) : Value))], isFnV kv.2 = false) ∧
    c1heap 0 = some ⟨none, .obj [("__a", .prim (.num 1))]⟩ ∧
    (∃ (cst : CheckerState) (bout : BindSt) (ust : UState),
      takeSnapshot 20 (.ref 0) ⟨c1heap, 1, 0⟩ = some (.ref 1, cst) ∧
      createDiff 20 dateEq (.ref 1) (.ref 0) cst = some (.ok (0, bout)) ∧
      unwrapPresent 20 bout.dstore 0 bout.heap bout.next = some (.ref 2, ust) ∧
      ust.heap 2 = some ⟨some 0, .obj []⟩) ∧
    propGet [("__a", .prim (.num 1))] "__a" ≠ propGet ([] : List (String × Value)) "__a" :=
  ⟨by decide, rfl, ⟨_, _, _, rfl, rfl, rfl, rfl⟩, by decide⟩


/-- C1 (amended): the snapshot/diff/unwrap(Present) round trip is an exact
reconstruction for models that avoid the discovery-excluded property names
(two leading underscores, `constructor`) and the reserved diff keys.
Part 1 proves this in full generality for flat primitive-valued models
(duplicate-free plain keys): the pipeline yields a fresh object carrying
the model root identity token and exactly the model property list.
Part 2 exhibits aliasing preservation on a nested model where two sibling
objects share one child: the two reconstructed siblings reference the same
reconstructed child address. -/
theorem claim_C1_roundtrip_amended :
    (∀ (F : Nat) (vleq : VLData → VLData → Bool) (props : List (String × Value)),
      (∀ kv ∈ props, badKey kv.1 = false) →
      (∀ kv ∈ props, ∃ p, kv.2 = Value.prim p) →
      (props.map Prod.fst).Nodup →
      (∀ kv ∈ props, reservedDiffKeys.contains kv.1 = false) →
      takeSnapshot (F + 1 + 1) (.ref 0) ⟨c1M props, 1, 0⟩ =
        some (.ref 1, ⟨c1S props, 2, 1⟩) ∧
      createDiff (F + 1 + 1) vleq (.ref 1) (.ref 0) ⟨c1S props, 2, 1⟩ =
        some (.ok (0, c1bout props)) ∧
      unwrapPresent (F + 1) (c1bout props).dstore 0 (c1bout props).heap
          (c1bout props).next =
        some (.ref 2, ⟨(c1S props).set 2 ⟨some 0, .obj props⟩, 3, [(0, 2)]⟩) ∧
      ((c1S props).set 2 ⟨some 0, .obj props⟩) 2 = some ⟨some 0, .obj props⟩) ∧
    (c1aheap 1 = some ⟨none, .obj [("c", .ref 3)]⟩ ∧
     c1aheap 2 = some ⟨none, .obj [("c", .ref 3)]⟩ ∧
     ∃ (cst : CheckerState) (bout : BindSt) (ust : UState),
      takeSnapshot 20 (.ref 0) ⟨c1aheap, 4, 0⟩ = some (.ref 4, cst) ∧
      createDiff 20 dateEq (.ref 4) (.ref 0) cst = some (.ok (0, bout)) ∧
      unwrapPresent 20 bout.dstore 0 bout.heap bout.next = some (.ref 8, ust) ∧
      ust.heap 8 = some ⟨some 0, .obj [("a", .ref 9), ("b", .ref 11)]⟩ ∧
      ust.heap 9 = some ⟨some 1, .obj [("c", .ref 10)]⟩ ∧
      ust.heap 11 = some ⟨some 3, .obj [("c", .ref 10)]⟩ ∧
      ust.heap 10 = some ⟨some 2, .obj [("x", .prim (.num 1))]⟩) := by
  constructor
  · intro F vleq props hgood hprim hnd hres
    refine ⟨flat_snapshot F props hgood hprim hnd,
      flat_diff F vleq props hgood hprim hnd hres, ?_, ?_⟩
    · exact flat_unwrap F props hprim hnd hres
    · rw [Heap.set_same]
  · exact ⟨rfl, rfl, _, _, _, rfl, rfl, rfl, rfl, rfl, rfl, rfl⟩

/-- Witness for the amended C1 round trip at the concrete flat model
`{"k": 5}` with fuel 5. -/
theorem claim_C1_roundtrip_amended_witness :
    takeSnapshot 5 (.ref 0) ⟨c1M [("k", .prim (.num 5))], 1, 0⟩ =
        some (.ref 1, ⟨c1S [("k", .prim (.num 5))], 2, 1⟩) ∧
      createDiff 5 dateEq (.ref 1) (.ref 0) ⟨c1S [("k", .prim (.num 5))], 2, 1⟩ =
        some (.ok (0, c1bout [("k", .prim (.num 5))])) ∧
      unwrapPresent 4 (c1bout [("k", .prim (.num 5))]).dstore 0
          (c1bout [("k", .prim (.num 5))]).heap (c1bout [("k", .prim (.num 5))]).next =
        some (.ref 2, ⟨(c1S [("k", .prim (.num 5))]).set 2
          ⟨some 0, .obj [("k", .prim (.num 5))]⟩, 3, [(0, 2)]⟩) :=
  have h := claim_C1_roundtrip_amended.1 3 dateEq [("k", .prim (.num 5))]
    (by decide)
    (fun kv hkv => by
      rw [List.mem_singleton] at hkv
      exact ⟨.num 5, by rw [hkv]⟩)
    (by decide) (by decide)
  ⟨h.1, h.2.1, h.2.2.1⟩

end CC
